import Mathlib

/-!
# LINDI: a verification model

A shallow embedding of the LINDI (Linked Data Interface) container format
and access library, following the repository's specification and its
in-repo documentation (`docs/tar.md`, `docs/special_zarr_annotations.md`,
`README.md`).  The Python implementation itself is not part of the source
snapshot, so every operational definition below is modelled from the
specification text; doc comments record what each definition models.

Bytes are modelled as `List Nat` (one `Nat` per byte).  Fixed-width
integer fields are modelled as 8-byte little-endian base-256 sequences,
standing in for the fixed-width numeric fields of the JSON/tar encodings.
-/

namespace Lindi

/-- Byte strings are lists of naturals. -/
abbrev Bytes := List Nat

/-- The bytes of a string literal (one `Nat` per character). -/
def strB (s : String) : Bytes := s.data.map Char.toNat

/-- A range read: `size` bytes starting at `offset` (short when the data
runs out, exactly as an HTTP range request against a shorter resource). -/
def readRange (a : Bytes) (offset size : Nat) : Bytes :=
  (a.drop offset).take size

/-- Overwrite the bytes of `a` starting at `offset` with `d`. -/
def writeAt (a : Bytes) (offset : Nat) (d : Bytes) : Bytes :=
  a.take offset ++ d ++ a.drop (offset + d.length)

/-- `n` whitespace-padding bytes (ASCII space). -/
def spaces (n : Nat) : Bytes := List.replicate n 32

/-- `n` zero bytes. -/
def zeros (n : Nat) : Bytes := List.replicate n 0

/-- Round up to a multiple of 512 (tar block granularity). -/
def pad512 (n : Nat) : Nat := ((n + 511) / 512) * 512

/-- Fixed-width little-endian base-256 encoding of a natural. -/
def encN : Nat → Nat → Bytes
  | 0, _ => []
  | w + 1, n => (n % 256) :: encN w (n / 256)

/-- Decode a little-endian base-256 byte sequence. -/
def decN (bs : Bytes) : Nat := bs.foldr (fun b acc => b + 256 * acc) 0

/-- 8-byte fixed-width field. -/
def enc8 (n : Nat) : Bytes := encN 8 n

/-- Read an 8-byte field from the head of a stream. -/
def dec8 (bs : Bytes) : Nat := decN (bs.take 8)

theorem encN_length (w n : Nat) : (encN w n).length = w := by
  induction w generalizing n with
  | zero => rfl
  | succ w ih => simp [encN, ih]

theorem decN_encN (w n : Nat) : decN (encN w n) = n % 256 ^ w := by
  induction w generalizing n with
  | zero => simp [encN, decN, Nat.mod_one]
  | succ w ih =>
      simp only [encN, decN, List.foldr_cons]
      have h : decN (encN w (n / 256)) = n / 256 % 256 ^ w := ih (n / 256)
      simp only [decN] at h
      rw [h]
      have h2 : (256 : Nat) ^ (w + 1) = 256 * 256 ^ w := by ring
      rw [h2, Nat.mod_mul]

theorem decN_encN_of_lt {w n : Nat} (h : n < 256 ^ w) :
    decN (encN w n) = n := by
  rw [decN_encN, Nat.mod_eq_of_lt h]

theorem enc8_length (n : Nat) : (enc8 n).length = 8 := encN_length 8 n

theorem dec8_enc8_append {n : Nat} (h : n < 256 ^ 8) (rest : Bytes) :
    dec8 (enc8 n ++ rest) = n := by
  have hl : (enc8 n).length = 8 := enc8_length n
  unfold dec8
  rw [List.take_append_of_le_length (by omega)]
  rw [List.take_of_length_le (by omega)]
  exact decN_encN_of_lt h

theorem readRange_length (a : Bytes) (off sz : Nat) :
    (readRange a off sz).length = min sz (a.length - off) := by
  simp [readRange]

/-- Dropping past an exact-length leading segment. -/
theorem drop_append_of_length {α : Type} {A C : List α} {off : Nat}
    (h : A.length = off) : (A ++ C).drop off = C := by
  subst h
  simp

theorem drop_append_add {A C : Bytes} {k : Nat} :
    (A ++ C).drop (A.length + k) = C.drop k :=
  List.drop_append k

theorem readRange_append {A C : Bytes} {off sz : Nat} (h : A.length ≤ off) :
    readRange (A ++ C) off sz = readRange C (off - A.length) sz := by
  unfold readRange
  congr 1
  obtain ⟨k, rfl⟩ := Nat.exists_eq_add_of_le h
  rw [drop_append_add]
  congr 1
  omega

theorem readRange_exact {A x C : Bytes} {off : Nat} (h : A.length = off) :
    readRange (A ++ (x ++ C)) off x.length = x := by
  rw [readRange_append (le_of_eq h), h]
  simp [readRange]

/-- A length-prefixed byte-string field (8-byte length, then the bytes). -/
def encStrField (s : Bytes) : Bytes := enc8 s.length ++ s

/-- Read a length-prefixed byte-string field off the head of a stream. -/
def decStrField (bs : Bytes) : Option (Bytes × Bytes) :=
  if bs.length < 8 then none
  else if (bs.drop 8).length < dec8 bs then none
  else some ((bs.drop 8).take (dec8 bs), (bs.drop 8).drop (dec8 bs))

/-- Read an 8-byte numeric field off the head of a stream. -/
def decNatField (bs : Bytes) : Option (Nat × Bytes) :=
  if bs.length < 8 then none else some (dec8 bs, bs.drop 8)

theorem take_append_exact {α : Type} {s junk : List α} :
    (s ++ junk).take s.length = s := by
  rw [List.take_append_of_le_length (le_refl _), List.take_of_length_le (le_refl _)]

theorem decStrField_enc {s : Bytes} (h : s.length < 256 ^ 8) (junk : Bytes) :
    decStrField (encStrField s ++ junk) = some (s, junk) := by
  unfold decStrField encStrField
  rw [List.append_assoc]
  have hlen8 : (enc8 s.length).length = 8 := enc8_length _
  have hlen : (enc8 s.length ++ (s ++ junk)).length = 8 + (s.length + junk.length) := by
    simp [hlen8]
  have hdec : dec8 (enc8 s.length ++ (s ++ junk)) = s.length :=
    dec8_enc8_append h _
  have hdrop : (enc8 s.length ++ (s ++ junk)).drop 8 = s ++ junk :=
    drop_append_of_length hlen8
  rw [hdec, hdrop, if_neg (by omega)]
  have hl2 : (s ++ junk).length = s.length + junk.length := by simp
  rw [if_neg (by omega)]
  rw [take_append_exact, drop_append_of_length rfl]

theorem decNatField_enc {n : Nat} (h : n < 256 ^ 8) (junk : Bytes) :
    decNatField (enc8 n ++ junk) = some (n, junk) := by
  unfold decNatField
  have hlen8 : (enc8 n).length = 8 := enc8_length _
  have hlen : (enc8 n ++ junk).length = 8 + junk.length := by simp [hlen8]
  rw [if_neg (by omega)]
  rw [dec8_enc8_append h, drop_append_of_length hlen8]

/-! ## The reference file system (RFS)

Modelled from the spec §3: a JSON document with a `version` field and a
`refs` mapping from Zarr-store keys to one of three value shapes: an
inline UTF-8 string, a one-element base64 sequence, or a three-element
external reference `[url, offset, size]`. -/

/-- One value of the `refs` mapping (spec §3). -/
inductive RefValue where
  | inline (s : Bytes)
  | inlineB64 (b : Bytes)
  | external (url : Bytes) (offset : Nat) (size : Nat)
  deriving Repr, DecidableEq

/-- The reference file system document (spec §3). -/
structure RFS where
  version : Nat
  refs : List (Bytes × RefValue)
  deriving Repr, DecidableEq

/-- Serialize one ref value (tag byte, then the payload fields). -/
def encVal : RefValue → Bytes
  | .inline s => 0 :: encStrField s
  | .inlineB64 b => 1 :: encStrField b
  | .external u o z => 2 :: (encStrField u ++ enc8 o ++ enc8 z)

/-- Parse one ref value off the head of a stream. -/
def decVal : Bytes → Option (RefValue × Bytes)
  | [] => none
  | 0 :: bs => (decStrField bs).map fun p => (.inline p.1, p.2)
  | 1 :: bs => (decStrField bs).map fun p => (.inlineB64 p.1, p.2)
  | 2 :: bs => do
      let (u, bs1) ← decStrField bs
      let (o, bs2) ← decNatField bs1
      let (z, bs3) ← decNatField bs2
      some (.external u o z, bs3)
  | _ :: _ => none

/-- Field bounds making a ref value serializable in fixed-width fields;
for an external reference, also the spec's `size > 0` invariant. -/
def valOk : RefValue → Bool
  | .inline s => decide (s.length < 256 ^ 8)
  | .inlineB64 b => decide (b.length < 256 ^ 8)
  | .external u o z =>
      decide (u.length < 256 ^ 8) && decide (o < 256 ^ 8) &&
      decide (z < 256 ^ 8) && decide (0 < z)

theorem decVal_enc {v : RefValue} (h : valOk v = true) (junk : Bytes) :
    decVal (encVal v ++ junk) = some (v, junk) := by
  cases v with
  | inline s =>
      simp only [valOk, decide_eq_true_eq] at h
      simp only [encVal, List.cons_append, decVal]
      rw [decStrField_enc h]
      rfl
  | inlineB64 b =>
      simp only [valOk, decide_eq_true_eq] at h
      simp only [encVal, List.cons_append, decVal]
      rw [decStrField_enc h]
      rfl
  | external u o z =>
      simp only [valOk, Bool.and_eq_true, decide_eq_true_eq] at h
      obtain ⟨⟨⟨hu, ho⟩, hz⟩, _⟩ := h
      simp only [encVal, List.cons_append, decVal, List.append_assoc]
      rw [decStrField_enc hu]
      simp only [Option.bind_eq_bind, Option.some_bind]
      rw [decNatField_enc ho]
      simp only [Option.some_bind]
      rw [decNatField_enc hz]
      rfl

/-- Serialize the `refs` pairs in their stored order. -/
def encPairs (l : List (Bytes × RefValue)) : Bytes :=
  (l.map fun p => encStrField p.1 ++ encVal p.2).flatten

/-- Parse `n` key/value pairs off the head of a stream. -/
def decPairs : Nat → Bytes → Option (List (Bytes × RefValue) × Bytes)
  | 0, bs => some ([], bs)
  | n + 1, bs => do
      let (k, bs1) ← decStrField bs
      let (v, bs2) ← decVal bs1
      let (rest, bs3) ← decPairs n bs2
      some ((k, v) :: rest, bs3)

/-- Per-pair well-formedness: bounded key length, well-formed value. -/
def pairOk (p : Bytes × RefValue) : Bool :=
  decide (p.1.length < 256 ^ 8) && valOk p.2

theorem decPairs_enc {l : List (Bytes × RefValue)}
    (h : l.all pairOk = true) (junk : Bytes) :
    decPairs l.length (encPairs l ++ junk) = some (l, junk) := by
  induction l generalizing junk with
  | nil => simp [decPairs, encPairs]
  | cons p t ih =>
      simp only [List.all_cons, Bool.and_eq_true] at h
      obtain ⟨hp, ht⟩ := h
      simp only [pairOk, Bool.and_eq_true, decide_eq_true_eq] at hp
      obtain ⟨hk, hv⟩ := hp
      simp only [encPairs, List.map_cons, List.flatten_cons, decPairs, List.length_cons,
        List.append_assoc]
      rw [decStrField_enc hk]
      simp only [Option.bind_eq_bind, Option.some_bind]
      rw [decVal_enc hv]
      simp only [Option.some_bind]
      have := ih ht junk
      simp only [encPairs] at this
      rw [this]
      simp only [Option.some_bind]

/-- Adjacent-pair strict lexicographic sortedness of the `refs` keys
(spec §9: emit keys in lexicographic order; §3: no key resolves to more
than one value). -/
def keysSorted : List (Bytes × RefValue) → Bool
  | [] => true
  | [_] => true
  | a :: b :: t => decide (a.1 < b.1) && keysSorted (b :: t)

/-- Well-formed RFS: bounded fields, strictly sorted keys, valid values
(spec §3 invariants). -/
def rfsOk (R : RFS) : Bool :=
  decide (R.version < 256 ^ 8) && decide (R.refs.length < 256 ^ 8) &&
  keysSorted R.refs && R.refs.all pairOk

/-- Modelled from the spec: `write_lindi(rfs, path, json)` — the RFS
serialized as a single document (`version` field, then the `refs`
mapping in stored key order).  The Python serializer is not in the
source snapshot. -/
def writeJson (R : RFS) : Bytes :=
  enc8 R.version ++ enc8 R.refs.length ++ encPairs R.refs

/-- Parse an RFS document from the head of a byte stream (trailing bytes
are ignored, as for a whitespace-padded tar member). -/
def decodeRfs (bs : Bytes) : Option RFS := do
  let (v, bs1) ← decNatField bs
  let (n, bs2) ← decNatField bs1
  let (ps, _) ← decPairs n bs2
  some ⟨v, ps⟩

/-- Modelled from the spec: `open_lindi` on a JSON file — parse the RFS
and validate the §3 invariants. -/
def loadJson (bs : Bytes) : Option RFS :=
  match decodeRfs bs with
  | some R => if rfsOk R then some R else none
  | none => none

theorem decodeRfs_writeJson {R : RFS} (h : rfsOk R = true) (junk : Bytes) :
    decodeRfs (writeJson R ++ junk) = some R := by
  simp only [rfsOk, Bool.and_eq_true, decide_eq_true_eq] at h
  obtain ⟨⟨⟨hv, hn⟩, _⟩, hall⟩ := h
  simp only [decodeRfs, writeJson, List.append_assoc]
  rw [decNatField_enc hv]
  simp only [Option.bind_eq_bind, Option.some_bind]
  rw [decNatField_enc hn]
  simp only [Option.some_bind]
  rw [decPairs_enc hall]
  simp only [Option.some_bind]

theorem loadJson_writeJson {R : RFS} (h : rfsOk R = true) (junk : Bytes) :
    loadJson (writeJson R ++ junk) = some R := by
  unfold loadJson
  rw [decodeRfs_writeJson h junk]
  simp [h]

/-! ## The random-access tar container

Modelled from the spec §4.2 and `docs/tar.md`: a tar archive whose first
member is `.tar_entry.json` (its 1024-byte footprint — 512-byte header
plus whitespace-padded data — is fetched by the first range read), which
records the byte range of `.tar_index.json`; the index enumerates the
byte ranges of all other members.  Growable members are whitespace-padded
to a fixed capacity, so a member's advertised size is its padded capacity
and in-place growth changes no header and no other member. -/

/-- One member slot: name, payload (the meaningful bytes), the
whitespace-padded capacity its data region occupies, and whether the
member is live (not tombstoned under `./trash/`). -/
structure Slot where
  name : Bytes
  payload : Bytes
  capacity : Nat
  live : Bool
  deriving Repr, DecidableEq

instance : Inhabited Slot := ⟨⟨[], [], 512, false⟩⟩

def entryNameB : Bytes := strB ".tar_entry.json"
def indexNameB : Bytes := strB ".tar_index.json"
def trashMark : Bytes := strB "./trash/"

/-- Does a member name carry the tombstone path marker `./trash/`? -/
def tombName (nm : Bytes) : Bool := nm.take 8 == trashMark

/-- The 512-byte member header: a 100-byte name field (8-byte length,
the name bytes, zero fill), an 8-byte size field holding the padded
capacity, zero fill to 512.  Models the tar header block; the name field
is the part rewritten by tombstoning. -/
def header (s : Slot) : Bytes :=
  enc8 s.name.length ++ s.name ++ zeros (100 - (8 + s.name.length)) ++
    enc8 s.capacity ++ zeros 404

/-- A member's rendered data region: payload then whitespace padding. -/
def paddedData (s : Slot) : Bytes :=
  s.payload ++ spaces (s.capacity - s.payload.length)

/-- A member's rendered bytes: header block then data region. -/
def renderSlot (s : Slot) : Bytes := header s ++ paddedData s

/-- The archive footprint of a member. -/
def slotLen (s : Slot) : Nat := 512 + s.capacity

/-- The logical state of a LINDI tar: its member slots in file order
(the `.tar_entry.json` member is synthesized from the state). -/
structure TarState where
  slots : List Slot
  deriving Repr, DecidableEq

def sumLen (l : List Slot) : Nat := (l.map slotLen).sum

def headerOffset (st : TarState) (i : Nat) : Nat :=
  1024 + sumLen (st.slots.take i)

def dataOffset (st : TarState) (i : Nat) : Nat := headerOffset st i + 512

/-- Is this slot the live `.tar_index.json` member? -/
def isLiveIndex (s : Slot) : Bool := s.live && s.name == indexNameB

/-- Is this slot enumerated by the index (live, not the index itself)? -/
def isTableSlot (s : Slot) : Bool := s.live && !(s.name == indexNameB)

/-- One line of `.tar_index.json`: a member name and its byte range. -/
structure TableEntry where
  name : Bytes
  off : Nat
  size : Nat
  deriving Repr, DecidableEq

/-- Walk the slots accumulating the archive offset, collecting the index
line of every live non-index member. -/
def tableGo : Nat → List Slot → List TableEntry
  | _, [] => []
  | off, s :: t =>
      if isTableSlot s then
        ⟨s.name, off + 512, s.capacity⟩ :: tableGo (off + slotLen s) t
      else tableGo (off + slotLen s) t

/-- The member table of `.tar_index.json` (spec §3: the member table
maps member names to their byte ranges). -/
def tableOf (st : TarState) : List TableEntry := tableGo 1024 st.slots

def encEntryT (e : TableEntry) : Bytes :=
  encStrField e.name ++ enc8 e.off ++ enc8 e.size

/-- Serialize the member table (the payload of `.tar_index.json`). -/
def encodeTable (tbl : List TableEntry) : Bytes :=
  enc8 tbl.length ++ (tbl.map encEntryT).flatten

def decTableEntries : Nat → Bytes → Option (List TableEntry × Bytes)
  | 0, bs => some ([], bs)
  | n + 1, bs => do
      let (nm, bs1) ← decStrField bs
      let (o, bs2) ← decNatField bs1
      let (z, bs3) ← decNatField bs2
      let (rest, bs4) ← decTableEntries n bs3
      some (⟨nm, o, z⟩ :: rest, bs4)

/-- Parse the member table from the index member's (padded) bytes. -/
def decodeTable (bs : Bytes) : Option (List TableEntry) := do
  let (n, bs1) ← decNatField bs
  let (es, _) ← decTableEntries n bs1
  some es

/-- Position of the first live index slot in a slot list. -/
def findIdxOf : List Slot → Option Nat
  | [] => none
  | s :: t => if isLiveIndex s then some 0 else (findIdxOf t).map (· + 1)

/-- The position of the live index member, if any. -/
def indexPos (st : TarState) : Option Nat := findIdxOf st.slots

/-- The byte range `(dataOffset, size)` of the live index member. -/
def indexRange (st : TarState) : Nat × Nat :=
  match indexPos st with
  | some j => (dataOffset st j, (st.slots[j]?.getD default).capacity)
  | none => (0, 0)

/-- The synthesized `.tar_entry.json` member: a 512-byte header and a
512-byte whitespace-padded data region recording the index range, for a
total footprint of 1024 bytes. -/
def entrySlot (st : TarState) : Slot :=
  ⟨entryNameB, enc8 (indexRange st).1 ++ enc8 (indexRange st).2, 512, true⟩

def entryBlock (st : TarState) : Bytes := renderSlot (entrySlot st)

/-- Render the whole archive: entry member, member slots in order, two
terminating zero blocks. -/
def render (st : TarState) : Bytes :=
  entryBlock st ++ (st.slots.map renderSlot).flatten ++ zeros 1024

/-- Total archive length. -/
def totalLen (st : TarState) : Nat := 1024 + sumLen st.slots + 1024

/-- Parse the first 1024 archive bytes as the `.tar_entry.json` member;
refuse (spec §4.2 failure model) unless it is exactly 1024 bytes with
the right name.  Returns the recorded index byte range. -/
def decodeEntry (bs : Bytes) : Option (Nat × Nat) :=
  if bs.length = 1024 then
    (decStrField bs).bind fun p =>
      if p.1 = entryNameB then some (dec8 (bs.drop 512), dec8 (bs.drop 520))
      else none
  else none

/-- Modelled from the spec: opening a container — one range read of the
first 1024 bytes, one range read of the index, then the member table is
known.  Returns the table (if the archive is well formed) and the number
of range reads issued. -/
def openTar (a : Bytes) : Option (List TableEntry) × Nat :=
  (decodeEntry (readRange a 0 1024)).elim (none, 1) fun r =>
    (decodeTable (readRange a r.1 r.2)).elim (none, 2) fun tbl => (some tbl, 2)

/-- Per-slot well-formedness: payload fits the capacity, the capacity is
a positive multiple of 512 below the field bound, and the name respects
the live/tombstone discipline. -/
def slotOk (s : Slot) : Bool :=
  decide (s.payload.length ≤ s.capacity) && decide (s.capacity % 512 = 0) &&
  decide (0 < s.capacity) && decide (s.capacity < 256 ^ 8) &&
  (if s.live then
    decide (s.name.length ≤ 82) && !(tombName s.name) && !(s.name == entryNameB)
   else decide (s.name.length ≤ 90) && tombName s.name)

/-- Is the payload of the live index slot the encoded member table? -/
def indexPayloadOk (st : TarState) : Bool :=
  match indexPos st with
  | some j => (st.slots[j]?.getD default).payload == encodeTable (tableOf st)
  | none => false

/-- Well-formed LINDI tar state: every slot well formed, exactly one
live index member whose payload is the current member table, distinct
live names, and a total length below the field bound. -/
def wfTar (st : TarState) : Bool :=
  st.slots.all slotOk &&
  decide (st.slots.countP isLiveIndex = 1) &&
  indexPayloadOk st &&
  decide (((st.slots.filter (·.live)).map Slot.name).Nodup) &&
  decide (totalLen st < 256 ^ 8)

theorem slotOk_payload_le {s : Slot} (h : slotOk s = true) :
    s.payload.length ≤ s.capacity := by
  simp only [slotOk, Bool.and_eq_true, decide_eq_true_eq] at h
  exact h.1.1.1.1

theorem slotOk_name_le {s : Slot} (h : slotOk s = true) :
    s.name.length ≤ 90 := by
  simp only [slotOk, Bool.and_eq_true, decide_eq_true_eq] at h
  rcases h with ⟨-, h⟩
  cases hlv : s.live with
  | true =>
      rw [hlv] at h
      simp only [if_true, Bool.and_eq_true, decide_eq_true_eq] at h
      omega
  | false =>
      rw [hlv] at h
      simp only [Bool.false_eq_true, if_false, Bool.and_eq_true, decide_eq_true_eq] at h
      exact h.1

theorem slotOk_cap_lt {s : Slot} (h : slotOk s = true) :
    s.capacity < 256 ^ 8 := by
  simp only [slotOk, Bool.and_eq_true, decide_eq_true_eq] at h
  exact h.1.2

theorem header_length {s : Slot} (h : s.name.length ≤ 92) :
    (header s).length = 512 := by
  simp only [header, List.length_append, enc8_length, zeros, List.length_replicate]
  omega

theorem paddedData_length {s : Slot} (h : s.payload.length ≤ s.capacity) :
    (paddedData s).length = s.capacity := by
  simp only [paddedData, List.length_append, spaces, List.length_replicate]
  omega

theorem renderSlot_length {s : Slot} (h : slotOk s = true) :
    (renderSlot s).length = slotLen s := by
  simp only [renderSlot, List.length_append, slotLen]
  rw [header_length (le_trans (slotOk_name_le h) (by omega)),
    paddedData_length (slotOk_payload_le h)]

theorem entryBlock_length (st : TarState) : (entryBlock st).length = 1024 := by
  simp only [entryBlock, renderSlot, entrySlot, header, paddedData, List.length_append,
    enc8_length, zeros, spaces, List.length_replicate, entryNameB, strB]
  rfl

theorem flatten_renderSlot_length {l : List Slot}
    (h : ∀ s ∈ l, slotOk s = true) :
    ((l.map renderSlot).flatten).length = sumLen l := by
  rw [List.length_flatten, List.map_map, sumLen]
  congr 1
  exact List.map_congr_left fun s hs => renderSlot_length (h s hs)

theorem flatten_renderSlot_split {l : List Slot} {i : Nat} {s : Slot}
    (hs : l[i]? = some s) :
    (l.map renderSlot).flatten =
      ((l.take i).map renderSlot).flatten ++
        (renderSlot s ++ ((l.drop (i + 1)).map renderSlot).flatten) := by
  obtain ⟨hi, rfl⟩ := List.getElem?_eq_some_iff.mp hs
  have h1 : l = l.take i ++ l[i] :: l.drop (i + 1) := by
    conv_lhs => rw [← List.take_append_drop i l]
    rw [List.drop_eq_getElem_cons hi]
  calc (l.map renderSlot).flatten
      = ((l.take i ++ l[i] :: l.drop (i + 1)).map renderSlot).flatten := by
        rw [← h1]
    _ = ((l.take i).map renderSlot).flatten ++
        (renderSlot l[i] ++ ((l.drop (i + 1)).map renderSlot).flatten) := by
        simp only [List.map_append, List.map_cons, List.flatten_append,
          List.flatten_cons]

/-- Reading the advertised byte range of a member returns exactly its
whitespace-padded data region. -/
theorem read_slot_data {st : TarState} {i : Nat} {s : Slot}
    (hall : ∀ u ∈ st.slots, slotOk u = true)
    (hs : st.slots[i]? = some s) :
    readRange (render st) (dataOffset st i) s.capacity = paddedData s := by
  have hok : slotOk s = true := by
    obtain ⟨hi, rfl⟩ := List.getElem?_eq_some_iff.mp hs
    exact hall _ (List.getElem_mem hi)
  have hsplit := flatten_renderSlot_split hs
  have hrender : render st =
      (entryBlock st ++ ((st.slots.take i).map renderSlot).flatten ++ header s) ++
        (paddedData s ++
          (((st.slots.drop (i + 1)).map renderSlot).flatten ++ zeros 1024)) := by
    simp only [render, hsplit, renderSlot, List.append_assoc]
  have hplen : (entryBlock st ++ ((st.slots.take i).map renderSlot).flatten ++
      header s).length = dataOffset st i := by
    simp only [List.length_append, entryBlock_length,
      flatten_renderSlot_length (fun u hu => hall u (List.take_subset i _ hu)),
      header_length (le_trans (slotOk_name_le hok) (by omega))]
    simp only [dataOffset, headerOffset]
    try omega
  rw [hrender, ← paddedData_length (slotOk_payload_le hok)]
  exact readRange_exact hplen

/-- Field bounds for one index line. -/
def entryBounds (e : TableEntry) : Prop :=
  e.name.length < 256 ^ 8 ∧ e.off < 256 ^ 8 ∧ e.size < 256 ^ 8

theorem decTableEntries_enc {tbl : List TableEntry}
    (h : ∀ e ∈ tbl, entryBounds e) (junk : Bytes) :
    decTableEntries tbl.length ((tbl.map encEntryT).flatten ++ junk) =
      some (tbl, junk) := by
  induction tbl generalizing junk with
  | nil => simp [decTableEntries]
  | cons e t ih =>
      obtain ⟨hn, ho, hz⟩ := h e (List.mem_cons_self e t)
      simp only [List.map_cons, List.flatten_cons, decTableEntries, List.length_cons,
        encEntryT, List.append_assoc]
      rw [decStrField_enc hn]
      simp only [Option.bind_eq_bind, Option.some_bind]
      rw [decNatField_enc ho]
      simp only [Option.some_bind]
      rw [decNatField_enc hz]
      simp only [Option.some_bind]
      rw [ih (fun u hu => h u (List.mem_cons_of_mem e hu)) junk]
      simp only [Option.some_bind]

theorem decodeTable_enc {tbl : List TableEntry} (hlen : tbl.length < 256 ^ 8)
    (h : ∀ e ∈ tbl, entryBounds e) (junk : Bytes) :
    decodeTable (encodeTable tbl ++ junk) = some tbl := by
  simp only [decodeTable, encodeTable, List.append_assoc]
  rw [decNatField_enc hlen]
  simp only [Option.bind_eq_bind, Option.some_bind]
  rw [decTableEntries_enc h junk]
  simp only [Option.some_bind]

theorem sumLen_split {l : List Slot} {i : Nat} {s : Slot}
    (hs : l[i]? = some s) :
    sumLen l = sumLen (l.take i) + (slotLen s + sumLen (l.drop (i + 1))) := by
  obtain ⟨hi, rfl⟩ := List.getElem?_eq_some_iff.mp hs
  have h1 : l = l.take i ++ l[i] :: l.drop (i + 1) := by
    conv_lhs => rw [← List.take_append_drop i l]
    rw [List.drop_eq_getElem_cons hi]
  calc sumLen l = sumLen (l.take i ++ l[i] :: l.drop (i + 1)) := by rw [← h1]
    _ = sumLen (l.take i) + (slotLen l[i] + sumLen (l.drop (i + 1))) := by
        simp only [sumLen, List.map_append, List.sum_append, List.map_cons,
          List.sum_cons]

theorem tableGo_mem {e : TableEntry} {off : Nat} {l : List Slot}
    (he : e ∈ tableGo off l) :
    ∃ i s, l[i]? = some s ∧ isTableSlot s = true ∧
      e = ⟨s.name, off + sumLen (l.take i) + 512, s.capacity⟩ := by
  induction l generalizing off with
  | nil => simp [tableGo] at he
  | cons u t ih =>
      simp only [tableGo] at he
      by_cases hu : isTableSlot u = true
      · rw [if_pos hu] at he
        rcases List.mem_cons.mp he with h1 | h2
        · exact ⟨0, u, by simp, hu, by simpa [sumLen] using h1⟩
        · obtain ⟨i, s, hget, hts, hee⟩ := ih h2
          refine ⟨i + 1, s, by simpa using hget, hts, ?_⟩
          rw [hee]
          simp only [List.take_succ_cons, sumLen, List.map_cons, List.sum_cons]
          congr 1
          omega
      · rw [if_neg hu] at he
        obtain ⟨i, s, hget, hts, hee⟩ := ih he
        refine ⟨i + 1, s, by simpa using hget, hts, ?_⟩
        rw [hee]
        simp only [List.take_succ_cons, sumLen, List.map_cons, List.sum_cons]
        congr 1
        omega

theorem mem_tableGo {off : Nat} {l : List Slot} {i : Nat} {s : Slot}
    (hs : l[i]? = some s) (ht : isTableSlot s = true) :
    (⟨s.name, off + sumLen (l.take i) + 512, s.capacity⟩ : TableEntry) ∈
      tableGo off l := by
  induction l generalizing off i with
  | nil => simp at hs
  | cons u t ih =>
      cases i with
      | zero =>
          simp only [List.getElem?_cons_zero, Option.some.injEq] at hs
          subst hs
          simp [tableGo, ht, sumLen]
      | succ i =>
          simp only [List.getElem?_cons_succ] at hs
          have : (⟨s.name, (off + slotLen u) + sumLen (t.take i) + 512,
              s.capacity⟩ : TableEntry) ∈ tableGo (off + slotLen u) t :=
            ih hs
          simp only [tableGo]
          have harith : off + slotLen u + sumLen (t.take i) + 512 =
              off + sumLen ((u :: t).take (i + 1)) + 512 := by
            simp only [List.take_succ_cons, sumLen, List.map_cons, List.sum_cons]
            omega
          by_cases hu : isTableSlot u = true
          · rw [if_pos hu]
            refine List.mem_cons_of_mem _ ?_
            rw [← harith]
            exact this
          · rw [if_neg hu]
            rw [← harith]
            exact this

theorem slotLen_ge (s : Slot) : 512 ≤ slotLen s := by
  simp [slotLen]

theorem length_le_sumLen (l : List Slot) : 512 * l.length ≤ sumLen l := by
  induction l with
  | nil => simp [sumLen]
  | cons u t ih =>
      simp only [sumLen, List.map_cons, List.sum_cons, List.length_cons]
      have := slotLen_ge u
      simp only [sumLen] at ih
      omega

theorem tableGo_length_le (off : Nat) (l : List Slot) :
    (tableGo off l).length ≤ l.length := by
  induction l generalizing off with
  | nil => simp [tableGo]
  | cons u t ih =>
      simp only [tableGo]
      by_cases hu : isTableSlot u = true
      · rw [if_pos hu]
        simpa using ih (off + slotLen u)
      · rw [if_neg hu]
        have := ih (off + slotLen u)
        simp only [List.length_cons]
        omega

theorem findIdxOf_some {l : List Slot} {j : Nat} (h : findIdxOf l = some j) :
    ∃ s, l[j]? = some s ∧ isLiveIndex s = true := by
  induction l generalizing j with
  | nil => simp [findIdxOf] at h
  | cons u t ih =>
      simp only [findIdxOf] at h
      by_cases hu : isLiveIndex u = true
      · rw [if_pos hu] at h
        cases h
        exact ⟨u, by simp, hu⟩
      · rw [if_neg hu] at h
        cases hj : findIdxOf t with
        | none => rw [hj] at h; simp at h
        | some j0 =>
            rw [hj] at h
            obtain ⟨s, hget, hs⟩ := ih hj
            have hjj : j = j0 + 1 := by simpa using h.symm
            subst hjj
            exact ⟨s, by simpa using hget, hs⟩

theorem findIdxOf_isSome {l : List Slot}
    (h : ∃ s ∈ l, isLiveIndex s = true) : (findIdxOf l).isSome = true := by
  induction l with
  | nil => simp at h
  | cons u t ih =>
      simp only [findIdxOf]
      by_cases hu : isLiveIndex u = true
      · rw [if_pos hu]; rfl
      · rw [if_neg hu]
        obtain ⟨s, hms, hs⟩ := h
        rcases List.mem_cons.mp hms with rfl | hmt
        · exact absurd hs hu
        · have h2 := ih ⟨s, hmt, hs⟩
          cases hfi : findIdxOf t with
          | none => rw [hfi] at h2; simp at h2
          | some j0 => simp

theorem wfTar_parts {st : TarState} (h : wfTar st = true) :
    st.slots.all slotOk = true ∧ st.slots.countP isLiveIndex = 1 ∧
    indexPayloadOk st = true ∧
    ((st.slots.filter (·.live)).map Slot.name).Nodup ∧
    totalLen st < 256 ^ 8 := by
  simp only [wfTar, Bool.and_eq_true, decide_eq_true_eq] at h
  exact ⟨h.1.1.1.1, h.1.1.1.2, h.1.1.2, h.1.2, h.2⟩

/-- The live index member of a well-formed tar: where it is, that its
payload is the encoded member table, and what `.tar_entry.json` records. -/
theorem index_spec {st : TarState} (hwf : wfTar st = true) :
    ∃ j s, indexPos st = some j ∧ st.slots[j]? = some s ∧
      isLiveIndex s = true ∧ s.payload = encodeTable (tableOf st) ∧
      indexRange st = (dataOffset st j, s.capacity) := by
  obtain ⟨-, hcount, hpayload, -, -⟩ := wfTar_parts hwf
  have hex : ∃ s ∈ st.slots, isLiveIndex s = true := by
    rw [← List.countP_pos]
    omega
  have hsome := findIdxOf_isSome hex
  cases hj : findIdxOf st.slots with
  | none => rw [hj] at hsome; simp at hsome
  | some j =>
      obtain ⟨s, hget, hlive⟩ := findIdxOf_some hj
      refine ⟨j, s, hj, hget, hlive, ?_, ?_⟩
      · simp only [indexPayloadOk, indexPos, hj, hget, Option.getD_some,
          beq_iff_eq] at hpayload
        exact hpayload
      · simp only [indexRange, indexPos, hj, hget, Option.getD_some]

theorem dataOffset_le_totalLen {st : TarState} {i : Nat} {s : Slot}
    (hs : st.slots[i]? = some s) :
    dataOffset st i + s.capacity ≤ totalLen st := by
  have hsplit := sumLen_split hs
  simp only [dataOffset, headerOffset, totalLen, slotLen] at *
  omega

theorem indexRange_bounds {st : TarState} (hwf : wfTar st = true) :
    (indexRange st).1 < 256 ^ 8 ∧ (indexRange st).2 < 256 ^ 8 := by
  obtain ⟨hall, -, -, -, htot⟩ := wfTar_parts hwf
  obtain ⟨j, s, -, hget, -, -, hrange⟩ := index_spec hwf
  have hle := dataOffset_le_totalLen hget
  have hcap : s.capacity < 256 ^ 8 := by
    obtain ⟨hj, rfl⟩ := List.getElem?_eq_some_iff.mp hget
    exact slotOk_cap_lt (List.all_eq_true.mp hall _ (List.getElem_mem hj))
  rw [hrange]
  constructor
  · show dataOffset st j < 256 ^ 8
    omega
  · simpa using hcap

theorem tableOf_bounds {st : TarState} (hwf : wfTar st = true) :
    ∀ e ∈ tableOf st, entryBounds e := by
  obtain ⟨hall, -, -, -, htot⟩ := wfTar_parts hwf
  simp only [totalLen] at htot
  intro e he
  obtain ⟨i, s, hget, -, rfl⟩ := tableGo_mem he
  have hok : slotOk s = true := by
    obtain ⟨hi, rfl⟩ := List.getElem?_eq_some_iff.mp hget
    exact List.all_eq_true.mp hall _ (List.getElem_mem hi)
  have hle := dataOffset_le_totalLen hget
  simp only [dataOffset, headerOffset, totalLen] at hle
  refine ⟨?_, ?_, ?_⟩
  · show s.name.length < 256 ^ 8
    have := slotOk_name_le hok
    omega
  · show 1024 + sumLen (st.slots.take i) + 512 < 256 ^ 8
    omega
  · show s.capacity < 256 ^ 8
    exact slotOk_cap_lt hok

theorem tableOf_length_lt {st : TarState} (hwf : wfTar st = true) :
    (tableOf st).length < 256 ^ 8 := by
  obtain ⟨-, -, -, -, htot⟩ := wfTar_parts hwf
  have h1 := tableGo_length_le 1024 st.slots
  have h2 := length_le_sumLen st.slots
  simp only [totalLen] at htot
  simp only [tableOf]
  omega

theorem read_first_1024 (st : TarState) :
    readRange (render st) 0 1024 = entryBlock st := by
  unfold readRange
  rw [List.drop_zero]
  have h : render st =
      entryBlock st ++ ((st.slots.map renderSlot).flatten ++ zeros 1024) := by
    simp [render]
  rw [h, ← entryBlock_length st, take_append_exact]

theorem entryNameB_length : entryNameB.length = 15 := by decide

theorem decodeEntry_entryBlock (st : TarState)
    (h1 : (indexRange st).1 < 256 ^ 8) (h2 : (indexRange st).2 < 256 ^ 8) :
    decodeEntry (entryBlock st) = some (indexRange st) := by
  have hsplit : entryBlock st = encStrField entryNameB ++
      (zeros 77 ++ enc8 512 ++ zeros 404 ++ paddedData (entrySlot st)) := by
    simp only [entryBlock, renderSlot, header, entrySlot, encStrField,
      entryNameB_length, List.append_assoc]
  have hname92 : (entrySlot st).name.length ≤ 92 := by
    simp [entrySlot, entryNameB_length]
  have hdrop512 : (encStrField entryNameB ++
      (zeros 77 ++ enc8 512 ++ zeros 404 ++ paddedData (entrySlot st))).drop 512 =
      paddedData (entrySlot st) := by
    rw [← hsplit]
    have hh : entryBlock st = header (entrySlot st) ++ paddedData (entrySlot st) := rfl
    rw [hh]
    exact drop_append_of_length (header_length hname92)
  have hpad : paddedData (entrySlot st) =
      enc8 (indexRange st).1 ++ (enc8 (indexRange st).2 ++ spaces 496) := by
    simp only [paddedData, entrySlot, List.append_assoc, List.length_append,
      enc8_length]
  have hdrop520 : (encStrField entryNameB ++
      (zeros 77 ++ enc8 512 ++ zeros 404 ++ paddedData (entrySlot st))).drop 520 =
      enc8 (indexRange st).2 ++ spaces 496 := by
    have h8 : (520 : Nat) = 512 + 8 := by norm_num
    rw [h8, ← List.drop_drop, hdrop512, hpad]
    exact drop_append_of_length (enc8_length _)
  unfold decodeEntry
  rw [if_pos (entryBlock_length st), hsplit]
  rw [decStrField_enc (by rw [entryNameB_length]; decide)]
  rw [Option.some_bind]
  rw [if_pos rfl, hdrop512, hdrop520, hpad]
  rw [dec8_enc8_append h1, dec8_enc8_append h2]

/-- Core open-correctness: opening a rendered well-formed LINDI tar
issues exactly two range reads and returns the member table. -/
theorem openTar_render {st : TarState} (hwf : wfTar st = true) :
    openTar (render st) = (some (tableOf st), 2) := by
  obtain ⟨hall, -, -, -, -⟩ := wfTar_parts hwf
  obtain ⟨j, s, -, hget, -, hpayload, hrange⟩ := index_spec hwf
  obtain ⟨hio, hisz⟩ := indexRange_bounds hwf
  have hread : readRange (render st) (indexRange st).1 (indexRange st).2 =
      paddedData s := by
    rw [hrange]
    exact read_slot_data (fun u hu => List.all_eq_true.mp hall u hu) hget
  have hpdata : paddedData s =
      encodeTable (tableOf st) ++ spaces (s.capacity - s.payload.length) := by
    simp only [paddedData, hpayload]
  unfold openTar
  rw [read_first_1024, decodeEntry_entryBlock st hio hisz, Option.elim_some]
  rw [hread, hpdata, decodeTable_enc (tableOf_length_lt hwf) (tableOf_bounds hwf),
    Option.elim_some]

/-! ## Mutating a LINDI tar: in-place grow and overflow

Modelled from the spec §4.2 / `docs/tar.md`: growing a member in place
rewrites whitespace padding within its data region up to its padded
capacity; on overflow the old member is renamed to a tombstone path under
`./trash/` by rewriting only its 512-byte header, and a fresh re-padded
member is appended at the archive's logical end, after which
`.tar_index.json` (itself growable, relocated by the same procedure when
it overflows) is updated. -/

/-- Replace the slot at position `i`. -/
def setSlot : List Slot → Nat → Slot → List Slot
  | [], _, _ => []
  | _ :: t, 0, s' => s' :: t
  | u :: t, i + 1, s' => u :: setSlot t i s'

/-- Tombstoning: the header-only rename moving a member under `./trash/`
and marking it dead; payload and capacity are untouched. -/
def tombstone (s : Slot) : Slot :=
  { s with name := trashMark ++ s.name, live := false }

/-- Modelled from the spec: growing a member in place.  Guards: the
member exists, is live, is not the index (the index is maintained
internally), and the new payload fits its padded capacity. -/
def growOp (st : TarState) (i : Nat) (p : Bytes) : Option TarState :=
  st.slots[i]?.bind fun s =>
    if s.live && !(s.name == indexNameB) && decide (p.length ≤ s.capacity) then
      some ⟨setSlot st.slots i { s with payload := p }⟩
    else none

/-- Modelled from the spec: rewrite `.tar_index.json` with the current
member table — in place when it fits the index's padded capacity,
otherwise by tombstoning the index and appending a fresh re-padded
index member at the end. -/
def refreshIndex (st : TarState) : Option TarState :=
  (indexPos st).bind fun j =>
    st.slots[j]?.bind fun sj =>
      if (encodeTable (tableOf st)).length ≤ sj.capacity then
        some ⟨setSlot st.slots j
          { sj with payload := encodeTable (tableOf st) }⟩
      else
        some ⟨setSlot st.slots j (tombstone sj) ++
          [⟨indexNameB, encodeTable (tableOf st),
            pad512 ((encodeTable (tableOf st)).length + 1), true⟩]⟩

/-- A writer-side size check: a tar beyond the offset-field bound cannot
be written. -/
def checkLen (st : TarState) : Option TarState :=
  if totalLen st < 256 ^ 8 then some st else none

/-- Modelled from the spec: the overflow cycle — tombstone the old
member (header rewrite only), append a fresh larger re-padded member at
the archive's logical end, then update the index. -/
def overflowOp (st : TarState) (i : Nat) (p : Bytes) (newCap : Nat) :
    Option TarState :=
  st.slots[i]?.bind fun s =>
    if s.live && !(s.name == indexNameB) && decide (s.capacity < p.length) &&
        decide (p.length ≤ newCap) && decide (newCap % 512 = 0) &&
        decide (newCap < 256 ^ 8) then
      (refreshIndex ⟨setSlot st.slots i (tombstone s) ++
        [⟨s.name, p, newCap, true⟩]⟩).bind checkLen
    else none

theorem setSlot_length (l : List Slot) (i : Nat) (s' : Slot) :
    (setSlot l i s').length = l.length := by
  induction l generalizing i with
  | nil => rfl
  | cons u t ih =>
      cases i with
      | zero => rfl
      | succ i => simp [setSlot, ih]

theorem setSlot_getElem?_self {l : List Slot} {i : Nat} {s : Slot} (s' : Slot)
    (hs : l[i]? = some s) : (setSlot l i s')[i]? = some s' := by
  induction l generalizing i with
  | nil => simp at hs
  | cons u t ih =>
      cases i with
      | zero => simp [setSlot]
      | succ i =>
          simp only [List.getElem?_cons_succ] at hs
          simpa [setSlot] using ih hs

theorem setSlot_getElem?_ne {l : List Slot} {i : Nat} (s' : Slot) {k : Nat}
    (hk : k ≠ i) : (setSlot l i s')[k]? = l[k]? := by
  induction l generalizing i k with
  | nil => rfl
  | cons u t ih =>
      cases i with
      | zero =>
          cases k with
          | zero => exact absurd rfl hk
          | succ k => simp [setSlot]
      | succ i =>
          cases k with
          | zero => simp [setSlot]
          | succ k =>
              simp only [setSlot, List.getElem?_cons_succ]
              exact ih fun h => hk (by omega)

theorem setSlot_eq_append {l : List Slot} {i : Nat} {s : Slot} (s' : Slot)
    (hs : l[i]? = some s) :
    setSlot l i s' = l.take i ++ s' :: l.drop (i + 1) := by
  induction l generalizing i with
  | nil => simp at hs
  | cons u t ih =>
      cases i with
      | zero => rfl
      | succ i =>
          simp only [List.getElem?_cons_succ] at hs
          simp [setSlot, ih hs]

theorem sumLen_setSlot {l : List Slot} {i : Nat} {s : Slot} {s' : Slot}
    (hs : l[i]? = some s) (hlen : slotLen s' = slotLen s) :
    sumLen (setSlot l i s') = sumLen l := by
  rw [setSlot_eq_append s' hs]
  have h2 := sumLen_split hs
  have h3 : sumLen (l.take i ++ s' :: l.drop (i + 1)) =
      sumLen (l.take i) + (slotLen s' + sumLen (l.drop (i + 1))) := by
    simp only [sumLen, List.map_append, List.sum_append, List.map_cons,
      List.sum_cons]
  omega

theorem all_setSlot {l : List Slot} {i : Nat} {s' : Slot} {q : Slot → Bool}
    (hall : l.all q = true) (hq : q s' = true) :
    (setSlot l i s').all q = true := by
  induction l generalizing i with
  | nil => rfl
  | cons u t ih =>
      simp only [List.all_cons, Bool.and_eq_true] at hall
      cases i with
      | zero => simp [setSlot, hq, hall.2]
      | succ i => simp [setSlot, hall.1, ih hall.2]

/-- Replacing a slot with one of equal footprint and equal index-line
content leaves the member table untouched. -/
theorem tableGo_setSlot {l : List Slot} {i : Nat} {s s' : Slot} {off : Nat}
    (hs : l[i]? = some s) (hlen : slotLen s' = slotLen s)
    (hts : isTableSlot s' = isTableSlot s)
    (hsame : isTableSlot s = true → s'.name = s.name ∧ s'.capacity = s.capacity) :
    tableGo off (setSlot l i s') = tableGo off l := by
  induction l generalizing i off with
  | nil => rfl
  | cons u t ih =>
      cases i with
      | zero =>
          have hu : u = s := by simpa using hs
          subst hu
          simp only [setSlot, tableGo, hlen, hts]
          by_cases hb : isTableSlot u = true
          · obtain ⟨hn, hc⟩ := hsame hb
            rw [if_pos hb, if_pos hb, hn, hc]
          · rw [if_neg hb, if_neg hb]
      | succ i =>
          simp only [List.getElem?_cons_succ] at hs
          simp only [setSlot, tableGo]
          by_cases hb : isTableSlot u = true
          · rw [if_pos hb, if_pos hb, ih hs]
          · rw [if_neg hb, if_neg hb, ih hs]

theorem tableGo_append (off : Nat) (l1 l2 : List Slot) :
    tableGo off (l1 ++ l2) =
      tableGo off l1 ++ tableGo (off + sumLen l1) l2 := by
  induction l1 generalizing off with
  | nil => simp [tableGo, sumLen]
  | cons u t ih =>
      have harith : off + slotLen u + sumLen t = off + sumLen (u :: t) := by
        simp only [sumLen, List.map_cons, List.sum_cons]
        omega
      simp only [List.cons_append, tableGo, List.append_eq]
      by_cases hb : isTableSlot u = true
      · rw [if_pos hb, if_pos hb, ih, harith]
        simp
      · rw [if_neg hb, if_neg hb, ih, harith]

theorem countP_setSlot {l : List Slot} {i : Nat} {s s' : Slot}
    {p : Slot → Bool} (hs : l[i]? = some s) :
    (setSlot l i s').countP p + (if p s then 1 else 0) =
      l.countP p + (if p s' then 1 else 0) := by
  induction l generalizing i with
  | nil => simp at hs
  | cons u t ih =>
      cases i with
      | zero =>
          have hu : u = s := by simpa using hs
          subst hu
          simp only [setSlot, List.countP_cons]
          omega
      | succ i =>
          simp only [List.getElem?_cons_succ] at hs
          simp only [setSlot, List.countP_cons]
          have := ih hs
          omega

/-- Names of the live members, in file order. -/
def liveNames (l : List Slot) : List Bytes :=
  (l.filter (·.live)).map Slot.name

theorem liveNames_setSlot_same {l : List Slot} {i : Nat} {s s' : Slot}
    (hs : l[i]? = some s) (hlive : s'.live = s.live) (hname : s'.name = s.name) :
    liveNames (setSlot l i s') = liveNames l := by
  induction l generalizing i with
  | nil => rfl
  | cons u t ih =>
      cases i with
      | zero =>
          have hu : u = s := by simpa using hs
          subst hu
          simp only [setSlot, liveNames, List.filter_cons, hlive]
          by_cases hb : u.live = true
          · simp only [hb, if_true, List.map_cons, hname]
          · simp only [Bool.not_eq_true] at hb
            simp only [hb, Bool.false_eq_true, if_false]
      | succ i =>
          simp only [List.getElem?_cons_succ] at hs
          simp only [setSlot, liveNames, List.filter_cons]
          by_cases hb : u.live = true
          · simp only [hb, if_true, List.map_cons]
            have := ih hs
            simp only [liveNames] at this
            rw [this]
          · simp only [Bool.not_eq_true] at hb
            simp only [hb, Bool.false_eq_true, if_false]
            exact ih hs

theorem liveNames_append (l1 l2 : List Slot) :
    liveNames (l1 ++ l2) = liveNames l1 ++ liveNames l2 := by
  simp [liveNames, List.filter_append]

/-- Tombstoning one live member: the live-name list loses exactly that
name (up to reordering when the replacement is appended at the end). -/
theorem liveNames_kill_perm {l : List Slot} {i : Nat} {s s' : Slot}
    (hs : l[i]? = some s) (hl : s.live = true) (hd : s'.live = false) :
    (liveNames (setSlot l i s') ++ [s.name]).Perm (liveNames l) := by
  rw [setSlot_eq_append s' hs]
  have hl2 : l = l.take i ++ s :: l.drop (i + 1) := by
    obtain ⟨hi, hv⟩ := List.getElem?_eq_some_iff.mp hs
    conv_lhs => rw [← List.take_append_drop i l]
    rw [List.drop_eq_getElem_cons hi, hv]
  conv_rhs => rw [hl2]
  rw [liveNames_append, liveNames_append]
  have h1 : liveNames [s'] = [] := by
    simp [liveNames, List.filter_cons, hd]
  have h2 : liveNames (s :: l.drop (i + 1)) =
      s.name :: liveNames (l.drop (i + 1)) := by
    simp [liveNames, List.filter_cons, hl]
  rw [h2]
  have h3 : liveNames (s' :: l.drop (i + 1)) = liveNames (l.drop (i + 1)) := by
    simp [liveNames, List.filter_cons, hd]
  rw [h3, List.append_assoc]
  refine List.Perm.append_left _ ?_
  exact List.perm_append_singleton _ _

theorem liveNames_cons_live {u : Slot} {t : List Slot} (h : u.live = true) :
    liveNames (u :: t) = u.name :: liveNames t := by
  simp [liveNames, List.filter_cons, h]

theorem pad512_ge (n : Nat) : n ≤ pad512 n := by
  unfold pad512
  omega

theorem pad512_mod (n : Nat) : pad512 n % 512 = 0 := by
  unfold pad512
  omega

theorem slotLen_le_sumLen_of_mem {u : Slot} {l : List Slot} (h : u ∈ l) :
    slotLen u ≤ sumLen l := by
  induction l with
  | nil => simp at h
  | cons v t ih =>
      rcases List.mem_cons.mp h with rfl | hm
      · simp only [sumLen, List.map_cons, List.sum_cons]
        omega
      · have := ih hm
        simp only [sumLen, List.map_cons, List.sum_cons] at *
        omega

theorem trashMark_length : trashMark.length = 8 := by decide

theorem tombName_trash (nm : Bytes) : tombName (trashMark ++ nm) = true := by
  simp only [tombName, beq_iff_eq]
  rw [← trashMark_length, take_append_exact]

theorem slotOk_live_fields {s : Slot} (h : slotOk s = true) (hl : s.live = true) :
    s.name.length ≤ 82 ∧ tombName s.name = false ∧ s.name ≠ entryNameB := by
  simp only [slotOk, Bool.and_eq_true, decide_eq_true_eq] at h
  rcases h with ⟨-, h⟩
  rw [hl] at h
  simp only [if_true, Bool.and_eq_true, decide_eq_true_eq, Bool.not_eq_true',
    beq_eq_false_iff_ne, ne_eq] at h
  exact ⟨h.1.1, h.1.2, h.2⟩

theorem slotOk_tombstone {s : Slot} (h : slotOk s = true) (hl : s.live = true) :
    slotOk (tombstone s) = true := by
  obtain ⟨h82, -, -⟩ := slotOk_live_fields h hl
  simp only [slotOk, Bool.and_eq_true, decide_eq_true_eq] at h
  obtain ⟨⟨⟨⟨hp, hm⟩, hpos⟩, hlt⟩, -⟩ := h
  simp only [slotOk, tombstone, Bool.and_eq_true, decide_eq_true_eq]
  refine ⟨⟨⟨⟨hp, hm⟩, hpos⟩, hlt⟩, ?_⟩
  simp only [Bool.false_eq_true, if_false, Bool.and_eq_true, decide_eq_true_eq]
  constructor
  · simp only [List.length_append, trashMark_length]
    omega
  · exact tombName_trash s.name

theorem isLiveIndex_name {s : Slot} (h : isLiveIndex s = true) :
    s.live = true ∧ s.name = indexNameB := by
  simp only [isLiveIndex, Bool.and_eq_true, beq_iff_eq] at h
  exact h

theorem findIdxOf_eq_none {l : List Slot}
    (h : l.countP isLiveIndex = 0) : findIdxOf l = none := by
  induction l with
  | nil => rfl
  | cons u t ih =>
      simp only [List.countP_cons] at h
      by_cases hu : isLiveIndex u = true
      · rw [hu] at h; simp at h
      · simp only [findIdxOf, if_neg hu]
        have hb : isLiveIndex u = false := by
          revert hu; cases isLiveIndex u <;> simp
        rw [hb] at h
        simp only [Bool.false_eq_true, if_false, Nat.add_zero] at h
        rw [ih h]
        rfl

theorem findIdxOf_append_none {l1 l2 : List Slot} (h : findIdxOf l1 = none) :
    findIdxOf (l1 ++ l2) = (findIdxOf l2).map (· + l1.length) := by
  induction l1 with
  | nil => simp [Option.map_id']
  | cons u t ih =>
      simp only [findIdxOf] at h
      by_cases hu : isLiveIndex u = true
      · rw [if_pos hu] at h; simp at h
      · rw [if_neg hu] at h
        simp only [List.cons_append, findIdxOf, if_neg hu, List.append_eq]
        cases ht : findIdxOf t with
        | none =>
            rw [ih ht]
            cases h2 : findIdxOf l2 with
            | none => simp
            | some k => simp [Nat.add_assoc]
        | some k => rw [ht] at h; simp at h

/-- Replacing a slot by one with the same liveness/name classification
does not move the live index. -/
theorem findIdxOf_setSlot {l : List Slot} {i : Nat} {s s' : Slot}
    (hs : l[i]? = some s) (h : isLiveIndex s' = isLiveIndex s) :
    findIdxOf (setSlot l i s') = findIdxOf l := by
  induction l generalizing i with
  | nil => rfl
  | cons u t ih =>
      cases i with
      | zero =>
          have hu : u = s := by simpa using hs
          subst hu
          simp only [setSlot, findIdxOf, h]
      | succ i =>
          simp only [List.getElem?_cons_succ] at hs
          simp only [setSlot, findIdxOf, ih hs]

theorem slotOk_set_payload {s : Slot} {p : Bytes} (h : slotOk s = true)
    (hp : p.length ≤ s.capacity) : slotOk { s with payload := p } = true := by
  simp only [slotOk, Bool.and_eq_true, decide_eq_true_eq] at h ⊢
  obtain ⟨⟨⟨⟨-, hm⟩, hpos⟩, hlt⟩, hn⟩ := h
  exact ⟨⟨⟨⟨hp, hm⟩, hpos⟩, hlt⟩, hn⟩

theorem indexPayloadOk_intro {st : TarState} {j : Nat} {sj : Slot}
    (hj : indexPos st = some j) (hs : st.slots[j]? = some sj)
    (hp : sj.payload = encodeTable (tableOf st)) : indexPayloadOk st = true := by
  simp only [indexPayloadOk, hj, hs, Option.getD_some, beq_iff_eq]
  exact hp

theorem indexPayloadOk_elim {st : TarState} (h : indexPayloadOk st = true) :
    ∃ j sj, indexPos st = some j ∧ st.slots[j]? = some sj ∧
      isLiveIndex sj = true ∧ sj.payload = encodeTable (tableOf st) := by
  cases hj : indexPos st with
  | none =>
      simp only [indexPayloadOk, hj] at h
      exact absurd h (by decide)
  | some j =>
      obtain ⟨sj, hget, hli⟩ := findIdxOf_some (l := st.slots) (by exact hj)
      simp only [indexPayloadOk, hj, hget, Option.getD_some, beq_iff_eq] at h
      exact ⟨j, sj, rfl, hget, hli, h⟩

theorem growOp_eq {st st' : TarState} {i : Nat} {p : Bytes}
    (h : growOp st i p = some st') :
    ∃ s, st.slots[i]? = some s ∧ s.live = true ∧ s.name ≠ indexNameB ∧
      p.length ≤ s.capacity ∧
      st' = ⟨setSlot st.slots i { s with payload := p }⟩ := by
  unfold growOp at h
  cases hs : st.slots[i]? with
  | none => rw [hs] at h; simp at h
  | some s =>
      rw [hs, Option.some_bind] at h
      by_cases hg : (s.live && !(s.name == indexNameB) &&
          decide (p.length ≤ s.capacity)) = true
      · rw [if_pos hg] at h
        simp only [Bool.and_eq_true, decide_eq_true_eq, Bool.not_eq_true',
          beq_eq_false_iff_ne, ne_eq] at hg
        have hst : st' = ⟨setSlot st.slots i { s with payload := p }⟩ := by
          injection h with h2
          exact h2.symm
        exact ⟨s, rfl, hg.1.1, hg.1.2, hg.2, hst⟩
      · rw [if_neg hg] at h; simp at h

/-- In-place grow preserves tar well-formedness and leaves the member
table untouched. -/
theorem wfTar_grow {st st' : TarState} {i : Nat} {p : Bytes}
    (hwf : wfTar st = true) (h : growOp st i p = some st') :
    wfTar st' = true ∧ tableOf st' = tableOf st := by
  obtain ⟨hall, hcount, hpayload, hnodup, htot⟩ := wfTar_parts hwf
  obtain ⟨s, hs, hlive, hnidx, hfit, rfl⟩ := growOp_eq h
  have hsok : slotOk s = true := by
    obtain ⟨hi, rfl⟩ := List.getElem?_eq_some_iff.mp hs
    exact List.all_eq_true.mp hall _ (List.getElem_mem hi)
  have hsli : isLiveIndex s = false := by
    simp [isLiveIndex, hnidx]
  have htab : tableOf (⟨setSlot st.slots i { s with payload := p }⟩ : TarState) =
      tableOf st := by
    simp only [tableOf]
    exact tableGo_setSlot hs rfl rfl (fun _ => ⟨rfl, rfl⟩)
  have hcnt : (setSlot st.slots i { s with payload := p }).countP isLiveIndex = 1 := by
    have hc := @countP_setSlot _ _ _ ({ s with payload := p })
      isLiveIndex hs
    have he : isLiveIndex { s with payload := p } = isLiveIndex s := rfl
    rw [he] at hc
    omega
  have hidxpos : indexPos (⟨setSlot st.slots i { s with payload := p }⟩ : TarState) =
      indexPos st := by
    simp only [indexPos]
    exact findIdxOf_setSlot hs rfl
  obtain ⟨j, sj, hj, hgetj, hlij, hpj⟩ := indexPayloadOk_elim hpayload
  have hji : j ≠ i := by
    intro hji
    subst hji
    rw [hs] at hgetj
    injection hgetj with h2
    subst h2
    rw [hlij] at hsli
    exact Bool.true_eq_false.mp hsli
  have hipo : indexPayloadOk
      (⟨setSlot st.slots i { s with payload := p }⟩ : TarState) = true := by
    refine @indexPayloadOk_intro _ j sj ?_ ?_ ?_
    · rw [hidxpos, hj]
    · show (setSlot st.slots i { s with payload := p })[j]? = some sj
      rw [setSlot_getElem?_ne _ hji, hgetj]
    · rw [hpj, htab]
  have hln : liveNames (setSlot st.slots i { s with payload := p }) =
      liveNames st.slots := liveNames_setSlot_same hs rfl rfl
  have hsum : sumLen (setSlot st.slots i { s with payload := p }) =
      sumLen st.slots := sumLen_setSlot hs rfl
  refine ⟨?_, htab⟩
  simp only [wfTar, Bool.and_eq_true, decide_eq_true_eq]
  refine ⟨⟨⟨⟨?_, hcnt⟩, hipo⟩, ?_⟩, ?_⟩
  · exact all_setSlot hall (slotOk_set_payload hsok hfit)
  · have h2 : liveNames (setSlot st.slots i { s with payload := p }) =
        liveNames st.slots := hln
    simp only [liveNames] at h2
    rw [h2]
    exact hnodup
  · simp only [totalLen, hsum]
    simpa [totalLen] using htot

theorem checkLen_eq {st st' : TarState} (h : checkLen st = some st') :
    st' = st ∧ totalLen st < 256 ^ 8 := by
  unfold checkLen at h
  by_cases hb : totalLen st < 256 ^ 8
  · rw [if_pos hb] at h
    injection h with h2
    exact ⟨h2.symm, hb⟩
  · rw [if_neg hb] at h
    simp at h

theorem refreshIndex_eq {st1 st2 : TarState} (h : refreshIndex st1 = some st2) :
    ∃ j sj, indexPos st1 = some j ∧ st1.slots[j]? = some sj ∧
      (((encodeTable (tableOf st1)).length ≤ sj.capacity ∧
        st2 = ⟨setSlot st1.slots j
          { sj with payload := encodeTable (tableOf st1) }⟩) ∨
       (sj.capacity < (encodeTable (tableOf st1)).length ∧
        st2 = ⟨setSlot st1.slots j (tombstone sj) ++
          [⟨indexNameB, encodeTable (tableOf st1),
            pad512 ((encodeTable (tableOf st1)).length + 1), true⟩]⟩)) := by
  unfold refreshIndex at h
  cases hj : indexPos st1 with
  | none => rw [hj] at h; simp at h
  | some j =>
      rw [hj, Option.some_bind] at h
      cases hs : st1.slots[j]? with
      | none => rw [hs] at h; simp at h
      | some sj =>
          rw [hs, Option.some_bind] at h
          by_cases hb : (encodeTable (tableOf st1)).length ≤ sj.capacity
          · rw [if_pos hb] at h
            injection h with h2
            exact ⟨j, sj, rfl, hs, Or.inl ⟨hb, h2.symm⟩⟩
          · rw [if_neg hb] at h
            injection h with h2
            exact ⟨j, sj, rfl, hs, Or.inr ⟨by omega, h2.symm⟩⟩

theorem isLiveIndex_tombstone (s : Slot) : isLiveIndex (tombstone s) = false := by
  simp [isLiveIndex, tombstone]

theorem isTableSlot_tombstone (s : Slot) : isTableSlot (tombstone s) = false := by
  simp [isTableSlot, tombstone]

/-- Updating the index after a mutation (in place or by relocation)
yields a well-formed tar whose table is the input state's table, provided
the slot, count and name disciplines hold and the result fits the offset
bound. -/
theorem wfTar_refresh {st1 st2 : TarState}
    (hall : st1.slots.all slotOk = true)
    (hcount : st1.slots.countP isLiveIndex = 1)
    (hnodup : (liveNames st1.slots).Nodup)
    (h : refreshIndex st1 = some st2)
    (htot2 : totalLen st2 < 256 ^ 8) :
    wfTar st2 = true ∧ tableOf st2 = tableOf st1 := by
  obtain ⟨j, sj, hj, hs, hcase⟩ := refreshIndex_eq h
  have hsokj : slotOk sj = true := by
    obtain ⟨hi, rfl⟩ := List.getElem?_eq_some_iff.mp hs
    exact List.all_eq_true.mp hall _ (List.getElem_mem hi)
  obtain ⟨sjx, hsx, hlij⟩ := findIdxOf_some (l := st1.slots) hj
  rw [hs] at hsx
  injection hsx with hsx
  subst hsx
  obtain ⟨hlivej, hnamej⟩ := isLiveIndex_name hlij
  have htsj : isTableSlot sj = false := by
    simp [isTableSlot, hnamej]
  rcases hcase with ⟨hfit, rfl⟩ | ⟨hover, rfl⟩
  · have htab : tableOf (⟨setSlot st1.slots j
        { sj with payload := encodeTable (tableOf st1) }⟩ : TarState) =
        tableOf st1 := by
      simp only [tableOf]
      refine tableGo_setSlot hs rfl rfl ?_
      intro hcontra
      rw [htsj] at hcontra
      exact absurd hcontra (by decide)
    have hcnt : (setSlot st1.slots j
        { sj with payload := encodeTable (tableOf st1) }).countP isLiveIndex = 1 := by
      have hc := @countP_setSlot _ _ _
        ({ sj with payload := encodeTable (tableOf st1) })
        isLiveIndex hs
      have he : isLiveIndex { sj with payload := encodeTable (tableOf st1) } =
          isLiveIndex sj := rfl
      rw [he] at hc
      omega
    have hidxpos : indexPos (⟨setSlot st1.slots j
        { sj with payload := encodeTable (tableOf st1) }⟩ : TarState) =
        indexPos st1 := by
      simp only [indexPos]
      exact findIdxOf_setSlot hs rfl
    refine ⟨?_, htab⟩
    simp only [wfTar, Bool.and_eq_true, decide_eq_true_eq]
    refine ⟨⟨⟨⟨?_, hcnt⟩, ?_⟩, ?_⟩, by simpa [totalLen] using htot2⟩
    · exact all_setSlot hall (slotOk_set_payload hsokj hfit)
    · refine @indexPayloadOk_intro _ j
        ({ sj with payload := encodeTable (tableOf st1) }) ?_ ?_ ?_
      · rw [hidxpos, hj]
      · exact setSlot_getElem?_self _ hs
      · simp only []
        rw [htab]
    · have h2 : liveNames (setSlot st1.slots j
          { sj with payload := encodeTable (tableOf st1) }) =
          liveNames st1.slots := liveNames_setSlot_same hs rfl rfl
      simp only [liveNames] at h2
      rw [h2]
      simpa [liveNames] using hnodup
  · have hokt : slotOk (tombstone sj) = true := slotOk_tombstone hsokj hlivej
    have hmem : (⟨indexNameB, encodeTable (tableOf st1),
        pad512 ((encodeTable (tableOf st1)).length + 1), true⟩ : Slot) ∈
        setSlot st1.slots j (tombstone sj) ++
          [⟨indexNameB, encodeTable (tableOf st1),
            pad512 ((encodeTable (tableOf st1)).length + 1), true⟩] := by
      simp
    have hcapbound := slotLen_le_sumLen_of_mem hmem
    simp only [slotLen] at hcapbound
    simp only [totalLen] at htot2
    have hoknew : slotOk (⟨indexNameB, encodeTable (tableOf st1),
        pad512 ((encodeTable (tableOf st1)).length + 1), true⟩ : Slot) = true := by
      simp only [slotOk, Bool.and_eq_true, decide_eq_true_eq]
      refine ⟨⟨⟨⟨?_, pad512_mod _⟩, ?_⟩, ?_⟩, ?_⟩
      · exact le_trans (by omega) (pad512_ge ((encodeTable (tableOf st1)).length + 1))
      · have := pad512_ge ((encodeTable (tableOf st1)).length + 1)
        omega
      · omega
      · simp only [if_true]
        rfl
    have hcnt0 : (setSlot st1.slots j (tombstone sj)).countP isLiveIndex = 0 := by
      have hc := @countP_setSlot _ _ _ (tombstone sj) isLiveIndex hs
      rw [isLiveIndex_tombstone, hlij] at hc
      simp only [if_true, Bool.false_eq_true, if_false] at hc
      omega
    have hidxnew : isLiveIndex (⟨indexNameB, encodeTable (tableOf st1),
        pad512 ((encodeTable (tableOf st1)).length + 1), true⟩ : Slot) = true := by
      simp [isLiveIndex]
    have hidxpos2 : indexPos (⟨setSlot st1.slots j (tombstone sj) ++
        [⟨indexNameB, encodeTable (tableOf st1),
          pad512 ((encodeTable (tableOf st1)).length + 1), true⟩]⟩ : TarState) =
        some (setSlot st1.slots j (tombstone sj)).length := by
      simp only [indexPos]
      rw [findIdxOf_append_none (findIdxOf_eq_none hcnt0)]
      simp [findIdxOf, hidxnew]
    have hgetnew : (setSlot st1.slots j (tombstone sj) ++
        [⟨indexNameB, encodeTable (tableOf st1),
          pad512 ((encodeTable (tableOf st1)).length + 1), true⟩])[
        (setSlot st1.slots j (tombstone sj)).length]? =
        some (⟨indexNameB, encodeTable (tableOf st1),
          pad512 ((encodeTable (tableOf st1)).length + 1), true⟩ : Slot) := by
      rw [List.getElem?_append_right (le_refl _)]
      simp
    have htab2 : tableOf (⟨setSlot st1.slots j (tombstone sj) ++
        [⟨indexNameB, encodeTable (tableOf st1),
          pad512 ((encodeTable (tableOf st1)).length + 1), true⟩]⟩ : TarState) =
        tableOf st1 := by
      show tableGo 1024 (setSlot st1.slots j (tombstone sj) ++
        [⟨indexNameB, encodeTable (tableOf st1),
          pad512 ((encodeTable (tableOf st1)).length + 1), true⟩]) = tableOf st1
      rw [tableGo_append]
      have h1 : tableGo 1024 (setSlot st1.slots j (tombstone sj)) =
          tableGo 1024 st1.slots := by
        refine tableGo_setSlot hs rfl ?_ ?_
        · rw [isTableSlot_tombstone, htsj]
        · intro hcontra
          rw [htsj] at hcontra
          exact absurd hcontra (by decide)
      have h2 : ∀ off, tableGo off
          [(⟨indexNameB, encodeTable (tableOf st1),
            pad512 ((encodeTable (tableOf st1)).length + 1), true⟩ : Slot)] =
          ([] : List TableEntry) := by
        intro off
        have hts2 : isTableSlot (⟨indexNameB, encodeTable (tableOf st1),
            pad512 ((encodeTable (tableOf st1)).length + 1), true⟩ : Slot) = false := by
          simp [isTableSlot]
        simp [tableGo, hts2]
      rw [h1, h2]
      simp [tableOf]
    have hcnt2 : (setSlot st1.slots j (tombstone sj) ++
        [(⟨indexNameB, encodeTable (tableOf st1),
          pad512 ((encodeTable (tableOf st1)).length + 1), true⟩ : Slot)]).countP
        isLiveIndex = 1 := by
      rw [List.countP_append, hcnt0]
      simp [List.countP_cons, hidxnew]
    refine ⟨?_, htab2⟩
    simp only [wfTar, Bool.and_eq_true, decide_eq_true_eq]
    refine ⟨⟨⟨⟨?_, hcnt2⟩, ?_⟩, ?_⟩, by simpa [totalLen] using htot2⟩
    · rw [List.all_append]
      simp only [Bool.and_eq_true]
      refine ⟨all_setSlot hall hokt, by simp [hoknew]⟩
    · refine @indexPayloadOk_intro _
        ((setSlot st1.slots j (tombstone sj)).length)
        (⟨indexNameB, encodeTable (tableOf st1),
          pad512 ((encodeTable (tableOf st1)).length + 1), true⟩ : Slot)
        hidxpos2 hgetnew ?_
      rw [htab2]
    · have hperm : (liveNames (setSlot st1.slots j (tombstone sj)) ++
          [sj.name]).Perm (liveNames st1.slots) :=
        liveNames_kill_perm hs hlivej rfl
      have heq : liveNames (setSlot st1.slots j (tombstone sj) ++
          [⟨indexNameB, encodeTable (tableOf st1),
            pad512 ((encodeTable (tableOf st1)).length + 1), true⟩]) =
          liveNames (setSlot st1.slots j (tombstone sj)) ++ [sj.name] := by
        rw [liveNames_append]
        congr 1
        rw [hnamej]
        simp [liveNames, List.filter_cons]
      have hnd : (liveNames (setSlot st1.slots j (tombstone sj) ++
          [⟨indexNameB, encodeTable (tableOf st1),
            pad512 ((encodeTable (tableOf st1)).length + 1), true⟩])).Nodup := by
        rw [heq]
        exact hperm.nodup_iff.mpr (by simpa [liveNames] using hnodup)
      simpa [liveNames] using hnd

theorem overflowOp_eq {st st' : TarState} {i : Nat} {p : Bytes} {newCap : Nat}
    (h : overflowOp st i p newCap = some st') :
    ∃ s, st.slots[i]? = some s ∧ s.live = true ∧ s.name ≠ indexNameB ∧
      s.capacity < p.length ∧ p.length ≤ newCap ∧ newCap % 512 = 0 ∧
      newCap < 256 ^ 8 ∧
      (refreshIndex ⟨setSlot st.slots i (tombstone s) ++
        [⟨s.name, p, newCap, true⟩]⟩).bind checkLen = some st' := by
  unfold overflowOp at h
  cases hs : st.slots[i]? with
  | none => rw [hs] at h; simp at h
  | some s =>
      rw [hs, Option.some_bind] at h
      by_cases hg : (s.live && !(s.name == indexNameB) &&
          decide (s.capacity < p.length) && decide (p.length ≤ newCap) &&
          decide (newCap % 512 = 0) && decide (newCap < 256 ^ 8)) = true
      · rw [if_pos hg] at h
        simp only [Bool.and_eq_true, decide_eq_true_eq, Bool.not_eq_true',
          beq_eq_false_iff_ne, ne_eq] at hg
        obtain ⟨⟨⟨⟨⟨hl, hn⟩, hce⟩, hpn⟩, hm⟩, hcb⟩ := hg
        exact ⟨s, rfl, hl, hn, hce, hpn, hm, hcb, h⟩
      · rw [if_neg hg] at h; simp at h

/-- Overflow (tombstone plus append plus index update) preserves tar
well-formedness. -/
theorem wfTar_overflow {st st' : TarState} {i : Nat} {p : Bytes}
    {newCap : Nat} (hwf : wfTar st = true)
    (h : overflowOp st i p newCap = some st') : wfTar st' = true := by
  obtain ⟨hall, hcount, hpayload, hnodup, htot⟩ := wfTar_parts hwf
  obtain ⟨s, hs, hlive, hnidx, hce, hpn, hm512, hcb, hrest⟩ := overflowOp_eq h
  have hsok : slotOk s = true := by
    obtain ⟨hi, rfl⟩ := List.getElem?_eq_some_iff.mp hs
    exact List.all_eq_true.mp hall _ (List.getElem_mem hi)
  obtain ⟨h82, htn, hne⟩ := slotOk_live_fields hsok hlive
  have hsli : isLiveIndex s = false := by
    simp [isLiveIndex, hnidx]
  have hokm : slotOk (⟨s.name, p, newCap, true⟩ : Slot) = true := by
    simp only [slotOk, Bool.and_eq_true, decide_eq_true_eq]
    refine ⟨⟨⟨⟨hpn, hm512⟩, by omega⟩, hcb⟩, ?_⟩
    simp only [if_true]
    simp [h82, htn, hne]
  have hall1 : (setSlot st.slots i (tombstone s) ++
      [(⟨s.name, p, newCap, true⟩ : Slot)]).all slotOk = true := by
    rw [List.all_append]
    simp only [Bool.and_eq_true]
    exact ⟨all_setSlot hall (slotOk_tombstone hsok hlive), by simp [hokm]⟩
  have hcntA : (setSlot st.slots i (tombstone s)).countP isLiveIndex = 1 := by
    have hc := @countP_setSlot _ _ _ (tombstone s) isLiveIndex hs
    rw [hsli, isLiveIndex_tombstone] at hc
    simp only [Bool.false_eq_true, if_false] at hc
    omega
  have hlim : isLiveIndex (⟨s.name, p, newCap, true⟩ : Slot) = false := by
    simp [isLiveIndex, hnidx]
  have hcount1 : (setSlot st.slots i (tombstone s) ++
      [(⟨s.name, p, newCap, true⟩ : Slot)]).countP isLiveIndex = 1 := by
    rw [List.countP_append, hcntA]
    simp [List.countP_cons, hlim]
  have hnodup1 : (liveNames (setSlot st.slots i (tombstone s) ++
      [(⟨s.name, p, newCap, true⟩ : Slot)])).Nodup := by
    have heq : liveNames (setSlot st.slots i (tombstone s) ++
        [(⟨s.name, p, newCap, true⟩ : Slot)]) =
        liveNames (setSlot st.slots i (tombstone s)) ++ [s.name] := by
      rw [liveNames_append]
      simp [liveNames, List.filter_cons]
    have hperm : (liveNames (setSlot st.slots i (tombstone s)) ++
        [s.name]).Perm (liveNames st.slots) :=
      liveNames_kill_perm hs hlive rfl
    rw [heq]
    exact hperm.nodup_iff.mpr (by simpa [liveNames] using hnodup)
  cases hri : refreshIndex ⟨setSlot st.slots i (tombstone s) ++
      [(⟨s.name, p, newCap, true⟩ : Slot)]⟩ with
  | none => rw [hri] at hrest; simp at hrest
  | some st2 =>
      rw [hri, Option.some_bind] at hrest
      obtain ⟨rfl, htot2⟩ := checkLen_eq hrest
      exact (wfTar_refresh hall1 hcount1 hnodup1 hri htot2).1

/-- Live members listed by the index never carry the tombstone marker. -/
theorem tableOf_no_tomb {st : TarState} (hwf : wfTar st = true) :
    ∀ e ∈ tableOf st, tombName e.name = false := by
  obtain ⟨hall, -, -, -, -⟩ := wfTar_parts hwf
  intro e he
  obtain ⟨i, s, hget, hts, rfl⟩ := tableGo_mem he
  have hok : slotOk s = true := by
    obtain ⟨hi, rfl⟩ := List.getElem?_eq_some_iff.mp hget
    exact List.all_eq_true.mp hall _ (List.getElem_mem hi)
  have hlive : s.live = true := by
    simp only [isTableSlot, Bool.and_eq_true] at hts
    exact hts.1
  exact (slotOk_live_fields hok hlive).2.1

/-- One step of the tar mutation state machine. -/
inductive TarOp where
  | grow (i : Nat) (p : Bytes)
  | overflow (i : Nat) (p : Bytes) (newCap : Nat)

/-- Apply one mutation. -/
def applyOp (st : TarState) : TarOp → Option TarState
  | .grow i p => growOp st i p
  | .overflow i p c => overflowOp st i p c

/-- Apply a sequence of mutations left to right. -/
def applyOps : TarState → List TarOp → Option TarState
  | st, [] => some st
  | st, op :: ops => (applyOp st op).bind fun st1 => applyOps st1 ops

/-- Any finite sequence of grows and overflow cycles preserves tar
well-formedness. -/
theorem wfTar_applyOps {st st' : TarState} {ops : List TarOp}
    (hwf : wfTar st = true) (h : applyOps st ops = some st') :
    wfTar st' = true := by
  induction ops generalizing st with
  | nil =>
      simp only [applyOps] at h
      injection h with h2
      exact h2 ▸ hwf
  | cons op ops ih =>
      simp only [applyOps] at h
      cases hop : applyOp st op with
      | none => rw [hop] at h; simp at h
      | some st1 =>
          rw [hop, Option.some_bind] at h
          refine ih ?_ h
          cases op with
          | grow i p => exact (wfTar_grow hwf hop).1
          | overflow i p c => exact wfTar_overflow hwf hop

theorem sumLen_take_setSlot {l : List Slot} {i : Nat} {s s' : Slot}
    (hs : l[i]? = some s) (hlen : slotLen s' = slotLen s) (k : Nat) :
    sumLen ((setSlot l i s').take k) = sumLen (l.take k) := by
  induction l generalizing i k with
  | nil => rfl
  | cons u t ih =>
      cases i with
      | zero =>
          have hu : u = s := by simpa using hs
          subst hu
          cases k with
          | zero => rfl
          | succ k =>
              simp only [setSlot, List.take_succ_cons, sumLen, List.map_cons,
                List.sum_cons, hlen]
      | succ i =>
          simp only [List.getElem?_cons_succ] at hs
          cases k with
          | zero => rfl
          | succ k =>
              simp only [setSlot, List.take_succ_cons, sumLen, List.map_cons,
                List.sum_cons]
              have := ih hs k
              simp only [sumLen] at this
              omega

theorem take_setSlot_eq {l : List Slot} {i : Nat} {s : Slot} (s' : Slot)
    (hs : l[i]? = some s) : (setSlot l i s').take i = l.take i := by
  rw [setSlot_eq_append s' hs]
  obtain ⟨hi, -⟩ := List.getElem?_eq_some_iff.mp hs
  have hlt : (l.take i).length = i := List.length_take_of_le (by omega)
  rw [List.take_append_of_le_length (by omega)]
  exact List.take_of_length_le (le_of_eq hlt)

theorem drop_setSlot_eq {l : List Slot} {i : Nat} {s : Slot} (s' : Slot)
    (hs : l[i]? = some s) :
    (setSlot l i s').drop (i + 1) = l.drop (i + 1) := by
  rw [setSlot_eq_append s' hs]
  obtain ⟨hi, -⟩ := List.getElem?_eq_some_iff.mp hs
  have hlt : (l.take i ++ [s']).length = i + 1 := by
    simp [List.length_take_of_le (le_of_lt hi)]
  have hsplit : l.take i ++ s' :: l.drop (i + 1) =
      (l.take i ++ [s']) ++ l.drop (i + 1) := by simp
  rw [hsplit, drop_append_of_length hlt]

/-- The byte-level frame property of an in-place grow whose new payload
extends the old one: the rewrite touches only former whitespace padding
inside the grown member's data region; all headers and all other member
regions are byte-identical, and the pre-grow member table still resolves
every member. -/
theorem grow_frame {st st' : TarState} {i : Nat} {p : Bytes} {s : Slot}
    (hwf : wfTar st = true) (hs : st.slots[i]? = some s)
    (hpre : s.payload <+: p) (h : growOp st i p = some st') :
    (∀ k, headerOffset st' k = headerOffset st k) ∧
    render st' = writeAt (render st) (dataOffset st i + s.payload.length)
      (p.drop s.payload.length) ∧
    readRange (render st) (dataOffset st i + s.payload.length)
      (p.length - s.payload.length) =
      spaces (p.length - s.payload.length) ∧
    tableOf st' = tableOf st ∧
    readRange (render st') (dataOffset st i) s.capacity =
      p ++ spaces (s.capacity - p.length) ∧
    (∀ j sj, j ≠ i → st.slots[j]? = some sj →
      readRange (render st') (dataOffset st j) sj.capacity =
        readRange (render st) (dataOffset st j) sj.capacity) := by
  have hwf' : wfTar st' = true := (wfTar_grow hwf h).1
  have htab : tableOf st' = tableOf st := (wfTar_grow hwf h).2
  obtain ⟨hall, -, hpayload, -, -⟩ := wfTar_parts hwf
  obtain ⟨hall', -, -, -, -⟩ := wfTar_parts hwf'
  obtain ⟨s0, hs0, hlive, hnidx, hfit, hst⟩ := growOp_eq h
  rw [hs] at hs0
  injection hs0 with hs0
  subst hs0
  obtain ⟨q, rfl⟩ := hpre
  have hsok : slotOk s = true := by
    obtain ⟨hi, rfl⟩ := List.getElem?_eq_some_iff.mp hs
    exact List.all_eq_true.mp hall _ (List.getElem_mem hi)
  have hofs : ∀ k, headerOffset st' k = headerOffset st k := by
    intro k
    rw [hst]
    simp only [headerOffset]
    rw [@sumLen_take_setSlot _ _ _ ({ s with payload := s.payload ++ q }) hs rfl]
  have hget' : st'.slots[i]? = some { s with payload := s.payload ++ q } := by
    rw [hst]
    exact setSlot_getElem?_self _ hs
  have hvisible : readRange (render st') (dataOffset st i) s.capacity =
      (s.payload ++ q) ++ spaces (s.capacity - (s.payload ++ q).length) := by
    have hd : dataOffset st' i = dataOffset st i := by
      simp only [dataOffset, hofs]
    rw [← hd]
    exact read_slot_data (fun u hu => List.all_eq_true.mp hall' u hu) hget'
  have hother : ∀ j sj, j ≠ i → st.slots[j]? = some sj →
      readRange (render st') (dataOffset st j) sj.capacity =
        readRange (render st) (dataOffset st j) sj.capacity := by
    intro j sj hj hgj
    have hgj' : st'.slots[j]? = some sj := by
      rw [hst]
      rw [setSlot_getElem?_ne _ hj]
      exact hgj
    have hd : dataOffset st' j = dataOffset st j := by
      simp only [dataOffset, hofs]
    rw [show readRange (render st') (dataOffset st j) sj.capacity =
        readRange (render st') (dataOffset st' j) sj.capacity from by rw [hd]]
    rw [read_slot_data (fun u hu => List.all_eq_true.mp hall' u hu) hgj',
      read_slot_data (fun u hu => List.all_eq_true.mp hall u hu) hgj]
  -- the byte-level decomposition shared by the remaining two conjuncts
  have hqfit : s.payload.length + q.length ≤ s.capacity := by
    simpa using hfit
  have hsplitpad : spaces (s.capacity - s.payload.length) =
      spaces q.length ++ spaces (s.capacity - (s.payload.length + q.length)) := by
    have harith : s.capacity - s.payload.length =
        q.length + (s.capacity - (s.payload.length + q.length)) := by omega
    rw [harith]
    simp only [spaces]
    exact List.replicate_add _ _ _
  have hrender_old : render st =
      (entryBlock st ++ (((st.slots.take i).map renderSlot).flatten ++
        (header s ++ s.payload))) ++
      (spaces q.length ++
        (spaces (s.capacity - (s.payload.length + q.length)) ++
          (((st.slots.drop (i + 1)).map renderSlot).flatten ++ zeros 1024))) := by
    have hsplit := flatten_renderSlot_split (l := st.slots) hs
    unfold render
    rw [hsplit]
    simp only [renderSlot, paddedData, List.append_assoc]
    rw [hsplitpad]
    simp only [List.append_assoc]
  have hentry : entryBlock st' = entryBlock st := by
    obtain ⟨j, sj, hj, hgetj, hlij, -⟩ := indexPayloadOk_elim hpayload
    have hsli : isLiveIndex s = false := by simp [isLiveIndex, hnidx]
    have hji : j ≠ i := by
      intro hji
      subst hji
      rw [hs] at hgetj
      injection hgetj with h2
      subst h2
      rw [hlij] at hsli
      exact Bool.true_eq_false.mp hsli
    have hidxpos : indexPos st' = indexPos st := by
      rw [hst]
      simp only [indexPos]
      exact findIdxOf_setSlot hs rfl
    have hrange : indexRange st' = indexRange st := by
      simp only [indexRange, hidxpos, hj]
      have hgj' : st'.slots[j]? = some sj := by
        rw [hst, setSlot_getElem?_ne _ hji]
        exact hgetj
      rw [hgj', hgetj]
      simp only [Option.getD_some]
      congr 1
      simp only [dataOffset, hofs]
    simp only [entryBlock, entrySlot, hrange]
  have hrender_new : render st' =
      (entryBlock st ++ (((st.slots.take i).map renderSlot).flatten ++
        (header s ++ s.payload))) ++
      (q ++
        (spaces (s.capacity - (s.payload.length + q.length)) ++
          (((st.slots.drop (i + 1)).map renderSlot).flatten ++ zeros 1024))) := by
    have hsplit' := flatten_renderSlot_split (l := st'.slots) hget'
    have htake : st'.slots.take i = st.slots.take i := by
      rw [hst]; exact take_setSlot_eq _ hs
    have hdrop : st'.slots.drop (i + 1) = st.slots.drop (i + 1) := by
      rw [hst]; exact drop_setSlot_eq _ hs
    have hhdr : header { s with payload := s.payload ++ q } = header s := rfl
    have hlen2 : s.capacity - (s.payload ++ q).length =
        s.capacity - (s.payload.length + q.length) := by
      simp
    unfold render
    rw [hsplit', htake, hdrop, hentry]
    simp only [renderSlot, paddedData, hhdr, hlen2, List.append_assoc]
  have hplen : (entryBlock st ++ (((st.slots.take i).map renderSlot).flatten ++
      (header s ++ s.payload))).length =
      dataOffset st i + s.payload.length := by
    simp only [List.length_append, entryBlock_length,
      flatten_renderSlot_length (fun u hu =>
        List.all_eq_true.mp hall u (List.take_subset i _ hu)),
      header_length (le_trans (slotOk_name_le hsok) (by omega)),
      dataOffset, headerOffset]
    omega
  have hdropq : (s.payload ++ q).drop s.payload.length = q :=
    drop_append_of_length rfl
  have hlq : (s.payload ++ q).length - s.payload.length = q.length := by
    simp
  refine ⟨hofs, ?_, ?_, htab, hvisible, hother⟩
  · rw [hdropq, hrender_new, hrender_old]
    unfold writeAt
    have ht1 : ((entryBlock st ++ (((st.slots.take i).map renderSlot).flatten ++
        (header s ++ s.payload))) ++
        (spaces q.length ++
          (spaces (s.capacity - (s.payload.length + q.length)) ++
            (((st.slots.drop (i + 1)).map renderSlot).flatten ++
              zeros 1024)))).take (dataOffset st i + s.payload.length) =
        entryBlock st ++ (((st.slots.take i).map renderSlot).flatten ++
          (header s ++ s.payload)) := by
      rw [← hplen, take_append_exact]
    have ht2 : ((entryBlock st ++ (((st.slots.take i).map renderSlot).flatten ++
        (header s ++ s.payload))) ++
        (spaces q.length ++
          (spaces (s.capacity - (s.payload.length + q.length)) ++
            (((st.slots.drop (i + 1)).map renderSlot).flatten ++
              zeros 1024)))).drop (dataOffset st i + s.payload.length +
                q.length) =
        spaces (s.capacity - (s.payload.length + q.length)) ++
          (((st.slots.drop (i + 1)).map renderSlot).flatten ++ zeros 1024) := by
      rw [← List.append_assoc]
      refine drop_append_of_length ?_
      simp only [List.length_append, hplen, spaces, List.length_replicate]
    rw [ht1, ht2]
    simp only [List.append_assoc]
  · rw [hlq, hrender_old]
    have hre := readRange_exact
      (A := entryBlock st ++ (((st.slots.take i).map renderSlot).flatten ++
        (header s ++ s.payload)))
      (x := spaces q.length)
      (C := spaces (s.capacity - (s.payload.length + q.length)) ++
        (((st.slots.drop (i + 1)).map renderSlot).flatten ++ zeros 1024))
      hplen
    simpa only [spaces, List.length_replicate] using hre

/-! ## Building a LINDI tar and the three on-disk shapes

Modelled from the spec §4.5/§4.6: `write_lindi(rfs, path, format)` for
the three formats, and `open_lindi`.  A fresh tar is laid out as the
data members (chunks first, then the growable `lindi.json`) followed by
the growable `.tar_index.json`; `.tar_entry.json` is synthesized at the
front by `render`. -/

/-- Whitespace-padded capacity chosen for a fresh growable member. -/
def capFor (p : Bytes) : Nat := pad512 (p.length + 1)

/-- The data member slots for a list of named files. -/
def fileSlots (files : List (Bytes × Bytes)) : List Slot :=
  files.map fun f => ⟨f.1, f.2, capFor f.2, true⟩

/-- All member slots: the data members followed by the index member,
whose payload is the encoded member table. -/
def mkTarSlots (files : List (Bytes × Bytes)) : List Slot :=
  fileSlots files ++
    [⟨indexNameB, encodeTable (tableGo 1024 (fileSlots files)),
      capFor (encodeTable (tableGo 1024 (fileSlots files))), true⟩]

/-- A fresh LINDI tar holding the given files. -/
def mkTar (files : List (Bytes × Bytes)) : TarState := ⟨mkTarSlots files⟩

/-- A member name a writer may use: short, not a tombstone path, not one
of the two reserved pseudo-files. -/
def fileNameOk (nm : Bytes) : Bool :=
  decide (nm.length ≤ 82) && !(tombName nm) && !(nm == entryNameB) &&
    !(nm == indexNameB)

/-- Writable file set: valid distinct names and a total size within the
offset-field bound. -/
def filesOk (files : List (Bytes × Bytes)) : Bool :=
  files.all (fun f => fileNameOk f.1) &&
  decide ((files.map Prod.fst).Nodup) &&
  decide (totalLen (mkTar files) < 256 ^ 8)

theorem pad512_le (n : Nat) : pad512 n ≤ n + 512 := by
  unfold pad512
  omega

theorem fileNameOk_fields {nm : Bytes} (h : fileNameOk nm = true) :
    nm.length ≤ 82 ∧ tombName nm = false ∧ nm ≠ entryNameB ∧
      nm ≠ indexNameB := by
  simp only [fileNameOk, Bool.and_eq_true, decide_eq_true_eq,
    Bool.not_eq_true', beq_eq_false_iff_ne, ne_eq] at h
  exact ⟨h.1.1.1, h.1.1.2, h.1.2, h.2⟩

theorem tableOf_mkTar (files : List (Bytes × Bytes)) :
    tableOf (mkTar files) = tableGo 1024 (fileSlots files) := by
  have hts : isTableSlot (⟨indexNameB,
      encodeTable (tableGo 1024 (fileSlots files)),
      capFor (encodeTable (tableGo 1024 (fileSlots files))), true⟩ : Slot) =
      false := by
    simp [isTableSlot]
  show tableGo 1024 (mkTarSlots files) = tableGo 1024 (fileSlots files)
  unfold mkTarSlots
  rw [tableGo_append]
  simp [tableGo, hts]

theorem countP_fileSlots (files : List (Bytes × Bytes))
    (h : files.all (fun f => fileNameOk f.1) = true) :
    (fileSlots files).countP isLiveIndex = 0 := by
  induction files with
  | nil => rfl
  | cons f t ih =>
      simp only [List.all_cons, Bool.and_eq_true] at h
      obtain ⟨-, -, hne, hni⟩ := fileNameOk_fields h.1
      simp only [fileSlots, List.map_cons, List.countP_cons]
      have hli : isLiveIndex (⟨f.1, f.2, capFor f.2, true⟩ : Slot) = false := by
        simp [isLiveIndex, hni]
      rw [hli]
      simp only [Bool.false_eq_true, if_false, Nat.add_zero]
      exact ih h.2

theorem liveNames_fileSlots (files : List (Bytes × Bytes)) :
    liveNames (fileSlots files) = files.map Prod.fst := by
  induction files with
  | nil => rfl
  | cons f t ih =>
      simp only [fileSlots, List.map_cons, liveNames, List.filter_cons]
      simp only [fileSlots, liveNames] at ih
      simp [ih]

theorem wfTar_mkTar {files : List (Bytes × Bytes)}
    (h : filesOk files = true) : wfTar (mkTar files) = true := by
  simp only [filesOk, Bool.and_eq_true, decide_eq_true_eq] at h
  obtain ⟨⟨hnames, hnodup⟩, htot⟩ := h
  have hcnt0 := countP_fileSlots files hnames
  have hlin : isLiveIndex (⟨indexNameB,
      encodeTable (tableGo 1024 (fileSlots files)),
      capFor (encodeTable (tableGo 1024 (fileSlots files))), true⟩ : Slot) =
      true := by
    simp [isLiveIndex]
  have hallok : ∀ u ∈ mkTarSlots files, slotOk u = true := by
    intro u hu
    have hcap : u.capacity < 256 ^ 8 := by
      have h1 := slotLen_le_sumLen_of_mem hu
      simp only [totalLen] at htot
      have hts2 : sumLen (mkTar files).slots = sumLen (mkTarSlots files) := rfl
      rw [hts2] at htot
      simp only [slotLen] at h1
      omega
    rcases List.mem_append.mp hu with hd | hidx
    · simp only [fileSlots, List.mem_map] at hd
      obtain ⟨f, hf, rfl⟩ := hd
      obtain ⟨h82, htn, hne, -⟩ :=
        fileNameOk_fields (List.all_eq_true.mp hnames f hf)
      simp only [slotOk, Bool.and_eq_true, decide_eq_true_eq]
      refine ⟨⟨⟨⟨?_, pad512_mod _⟩, ?_⟩, hcap⟩, ?_⟩
      · have := pad512_ge (f.2.length + 1)
        simp only [capFor]
        omega
      · have := pad512_ge (f.2.length + 1)
        simp only [capFor]
        omega
      · simp only [if_true]
        simp [h82, htn, hne]
    · have hux : u = ⟨indexNameB,
          encodeTable (tableGo 1024 (fileSlots files)),
          capFor (encodeTable (tableGo 1024 (fileSlots files))), true⟩ := by
        simpa using hidx
      subst hux
      simp only [slotOk, Bool.and_eq_true, decide_eq_true_eq]
      refine ⟨⟨⟨⟨?_, pad512_mod _⟩, ?_⟩, hcap⟩, ?_⟩
      · have := pad512_ge
          ((encodeTable (tableGo 1024 (fileSlots files))).length + 1)
        simp only [capFor]
        omega
      · have := pad512_ge
          ((encodeTable (tableGo 1024 (fileSlots files))).length + 1)
        simp only [capFor]
        omega
      · simp only [if_true]
        rfl
  have hidxpos : indexPos (mkTar files) = some (fileSlots files).length := by
    simp only [indexPos]
    show findIdxOf (mkTarSlots files) = _
    unfold mkTarSlots
    rw [findIdxOf_append_none (findIdxOf_eq_none hcnt0)]
    simp [findIdxOf, hlin]
  have hgetidx : (mkTarSlots files)[(fileSlots files).length]? =
      some ⟨indexNameB, encodeTable (tableGo 1024 (fileSlots files)),
        capFor (encodeTable (tableGo 1024 (fileSlots files))), true⟩ := by
    unfold mkTarSlots
    rw [List.getElem?_append_right (le_refl _)]
    simp
  simp only [wfTar, Bool.and_eq_true, decide_eq_true_eq]
  refine ⟨⟨⟨⟨?_, ?_⟩, ?_⟩, ?_⟩, htot⟩
  · exact List.all_eq_true.mpr hallok
  · show (mkTarSlots files).countP isLiveIndex = 1
    unfold mkTarSlots
    rw [List.countP_append, hcnt0]
    simp [List.countP_cons, hlin]
  · refine indexPayloadOk_intro hidxpos hgetidx ?_
    simp only [tableOf_mkTar]
  · show (liveNames (mkTarSlots files)).Nodup
    unfold mkTarSlots
    rw [liveNames_append]
    have h1 := liveNames_fileSlots files
    have h2 : liveNames [(⟨indexNameB,
        encodeTable (tableGo 1024 (fileSlots files)),
        capFor (encodeTable (tableGo 1024 (fileSlots files))), true⟩ : Slot)] =
        [indexNameB] := rfl
    rw [h1, h2, List.nodup_append]
    refine ⟨hnodup, by simp, ?_⟩
    intro x hx
    simp only [List.mem_singleton]
    intro hxe
    subst hxe
    simp only [List.mem_map] at hx
    obtain ⟨f, hf, hfx⟩ := hx
    obtain ⟨-, -, -, hni⟩ := fileNameOk_fields (List.all_eq_true.mp hnames f hf)
    exact hni hfx

def selfUrl : Bytes := strB "./"

def lindiJsonName : Bytes := strB "lindi.json"

/-- Look a member name up in an opened member table. -/
def lookupTable (tbl : List TableEntry) (nm : Bytes) : Option TableEntry :=
  tbl.find? fun e => e.name == nm

/-- Modelled from the spec: `write_lindi(rfs, path, tar)` — a fresh tar
holding `lindi.json` as a growable member. -/
def writeTarBytes (R : RFS) : Bytes :=
  render (mkTar [(lindiJsonName, writeJson R)])

/-- Modelled from the spec: `open_lindi` on a tar — two-request open,
locate `lindi.json` in the table, parse its padded byte range. -/
def openLindiTar (a : Bytes) : Option RFS :=
  (openTar a).1.bind fun tbl =>
    (lookupTable tbl lindiJsonName).bind fun e =>
      loadJson (readRange a e.off e.size)

/-- Modelled from the spec: `write_lindi(rfs, path, dir)` — the
directory shape as a named-file list. -/
def writeDirFiles (R : RFS) : List (Bytes × Bytes) :=
  [(lindiJsonName, writeJson R)]

def lookupFile (fs : List (Bytes × Bytes)) (nm : Bytes) : Option Bytes :=
  (fs.find? fun f => f.1 == nm).map Prod.snd

/-- Modelled from the spec: `open_lindi` on a directory. -/
def openLindiDir (fs : List (Bytes × Bytes)) : Option RFS :=
  (lookupFile fs lindiJsonName).bind loadJson

/-- A no-op edit cycle in each format: open read-write, change nothing,
finalize. -/
def noopEditJson (bs : Bytes) : Option Bytes := (loadJson bs).map writeJson

def noopEditTar (a : Bytes) : Option Bytes := (openLindiTar a).map writeTarBytes

def noopEditDir (fs : List (Bytes × Bytes)) : Option (List (Bytes × Bytes)) :=
  (openLindiDir fs).map writeDirFiles

theorem loadJson_writeJson_nil {R : RFS} (hR : rfsOk R = true) :
    loadJson (writeJson R) = some R := by
  have h := loadJson_writeJson hR []
  rwa [List.append_nil] at h

theorem loadDir_writeDir {R : RFS} (hR : rfsOk R = true) :
    openLindiDir (writeDirFiles R) = some R := by
  show (lookupFile (writeDirFiles R) lindiJsonName).bind loadJson = some R
  have hlf : lookupFile (writeDirFiles R) lindiJsonName =
      some (writeJson R) := rfl
  rw [hlf, Option.some_bind]
  exact loadJson_writeJson_nil hR

theorem loadTar_writeTar {R : RFS} (hR : rfsOk R = true)
    (hfit : filesOk [(lindiJsonName, writeJson R)] = true) :
    openLindiTar (writeTarBytes R) = some R := by
  have hwf := wfTar_mkTar hfit
  have hopen := openTar_render hwf
  have hts : isTableSlot (⟨lindiJsonName, writeJson R,
      capFor (writeJson R), true⟩ : Slot) = true := by
    have hb : (lindiJsonName == indexNameB) = false := by decide
    simp [isTableSlot, hb]
  have htbl : tableOf (mkTar [(lindiJsonName, writeJson R)]) =
      [⟨lindiJsonName, 1024 + 512, capFor (writeJson R)⟩] := by
    rw [tableOf_mkTar]
    simp [fileSlots, tableGo, hts]
  have hget0 : (mkTar [(lindiJsonName, writeJson R)]).slots[0]? =
      some ⟨lindiJsonName, writeJson R, capFor (writeJson R), true⟩ := by
    simp [mkTar, mkTarSlots, fileSlots]
  have hdo : dataOffset (mkTar [(lindiJsonName, writeJson R)]) 0 =
      1024 + 512 := by
    simp [dataOffset, headerOffset, sumLen]
  have hall : ∀ u ∈ (mkTar [(lindiJsonName, writeJson R)]).slots,
      slotOk u = true := by
    intro u hu
    exact List.all_eq_true.mp (wfTar_parts hwf).1 u hu
  have hread : readRange (writeTarBytes R) (1024 + 512)
      (capFor (writeJson R)) =
      writeJson R ++ spaces (capFor (writeJson R) - (writeJson R).length) := by
    unfold writeTarBytes
    rw [← hdo]
    exact read_slot_data hall hget0
  unfold openLindiTar
  show ((openTar (writeTarBytes R)).1.bind _) = some R
  unfold writeTarBytes at hread ⊢
  rw [hopen]
  simp only [Option.some_bind, htbl, lookupTable, List.find?,
    beq_self_eq_true, Option.some_bind]
  rw [hread]
  exact loadJson_writeJson hR _

theorem noopEditJson_roundtrip {R : RFS} (hR : rfsOk R = true) :
    (noopEditJson (writeJson R)).bind loadJson = some R := by
  unfold noopEditJson
  rw [loadJson_writeJson_nil hR]
  rw [show (some R).map writeJson = some (writeJson R) from rfl,
    Option.some_bind]
  exact loadJson_writeJson_nil hR

theorem noopEditTar_roundtrip {R : RFS} (hR : rfsOk R = true)
    (hfit : filesOk [(lindiJsonName, writeJson R)] = true) :
    (noopEditTar (writeTarBytes R)).bind openLindiTar = some R := by
  unfold noopEditTar
  rw [loadTar_writeTar hR hfit]
  rw [show (some R).map writeTarBytes = some (writeTarBytes R) from rfl,
    Option.some_bind]
  exact loadTar_writeTar hR hfit

theorem noopEditDir_roundtrip {R : RFS} (hR : rfsOk R = true) :
    (noopEditDir (writeDirFiles R)).bind openLindiDir = some R := by
  unfold noopEditDir
  rw [loadDir_writeDir hR]
  rw [show (some R).map writeDirFiles = some (writeDirFiles R) from rfl,
    Option.some_bind]
  exact loadDir_writeDir hR

/-! ## One logical store, three on-disk shapes (spec §4.6)

A logical LINDI store: metadata strings, small base64 values, and owned
binary chunks.  Serialized to JSON, the chunks are inlined as base64;
serialized to a tar, they become members referenced by self-referential
`["./", offset, size]` refs whose offsets point into the archive;
serialized to a directory, they become files referenced by name. -/

inductive LValue where
  | inlineStr (s : Bytes)
  | inlineB64 (b : Bytes)
  | chunk (data : Bytes)
  deriving Repr, DecidableEq

structure LStore where
  version : Nat
  entries : List (Bytes × LValue)
  deriving Repr, DecidableEq

def lvalBytes : LValue → Bytes
  | .inlineStr s => s
  | .inlineB64 b => b
  | .chunk d => d

def lookupL (l : List (Bytes × LValue)) (k : Bytes) : Option LValue :=
  (l.find? fun e => e.1 == k).map Prod.snd

/-- The reference semantics: what `get(key)` must return. -/
def logicalGet (L : LStore) (k : Bytes) : Option Bytes :=
  (lookupL L.entries k).map lvalBytes

def lookupKey (l : List (Bytes × RefValue)) (k : Bytes) : Option RefValue :=
  (l.find? fun e => e.1 == k).map Prod.snd

/-- JSON shape: all bulk data held inline (spec §4.6: the RFS alone). -/
def jsonVal : LValue → RefValue
  | .inlineStr s => .inline s
  | .inlineB64 b => .inlineB64 b
  | .chunk d => .inlineB64 d

def jsonRfs (L : LStore) : RFS :=
  ⟨L.version, L.entries.map fun e => (e.1, jsonVal e.2)⟩

def writeJsonStore (L : LStore) : Bytes := writeJson (jsonRfs L)

/-- Directory shape: a chunk becomes a sidecar file named by its key. -/
def dirVal (k : Bytes) : LValue → RefValue
  | .inlineStr s => .inline s
  | .inlineB64 b => .inlineB64 b
  | .chunk d => .external k 0 d.length

def dirRfs (L : LStore) : RFS :=
  ⟨L.version, L.entries.map fun e => (e.1, dirVal e.1 e.2)⟩

def chunkFiles : List (Bytes × LValue) → List (Bytes × Bytes)
  | [] => []
  | (k, .chunk d) :: t => (k, d) :: chunkFiles t
  | (_, .inlineStr _) :: t => chunkFiles t
  | (_, .inlineB64 _) :: t => chunkFiles t

def writeDirStore (L : LStore) : List (Bytes × Bytes) :=
  (lindiJsonName, writeJson (dirRfs L)) :: chunkFiles L.entries

/-- Tar shape: a chunk becomes an internal member; its ref is the
reserved self URL with a byte offset into the archive (spec §4.6). -/
def tarRefs : Nat → List (Bytes × LValue) → List (Bytes × RefValue)
  | _, [] => []
  | off, (k, .inlineStr s) :: t => (k, .inline s) :: tarRefs off t
  | off, (k, .inlineB64 b) :: t => (k, .inlineB64 b) :: tarRefs off t
  | off, (k, .chunk d) :: t =>
      (k, .external selfUrl (off + 512) d.length) ::
        tarRefs (off + 512 + capFor d) t

def tarRfs (L : LStore) : RFS := ⟨L.version, tarRefs 1024 L.entries⟩

def tarStoreFiles (L : LStore) : List (Bytes × Bytes) :=
  chunkFiles L.entries ++ [(lindiJsonName, writeJson (tarRfs L))]

def writeTarStore (L : LStore) : Bytes := render (mkTar (tarStoreFiles L))

/-- Resolving a ref against a JSON store (no container bytes). -/
def resolveJson : RefValue → Option Bytes
  | .inline s => some s
  | .inlineB64 b => some b
  | .external _ _ _ => none

def getFromJson (bs : Bytes) (k : Bytes) : Option Bytes :=
  (loadJson bs).bind fun R => (lookupKey R.refs k).bind resolveJson

/-- Resolving a ref against a tar container: the reserved self URL is
translated through the archive bytes (spec §4.6). -/
def resolveTar (a : Bytes) : RefValue → Option Bytes
  | .inline s => some s
  | .inlineB64 b => some b
  | .external u off sz =>
      if u = selfUrl then some (readRange a off sz) else none

def getFromTar (a : Bytes) (k : Bytes) : Option Bytes :=
  (openLindiTar a).bind fun R => (lookupKey R.refs k).bind (resolveTar a)

/-- Resolving a ref against a directory: by file name and byte range. -/
def resolveDir (fs : List (Bytes × Bytes)) : RefValue → Option Bytes
  | .inline s => some s
  | .inlineB64 b => some b
  | .external u off sz => (lookupFile fs u).map fun d => readRange d off sz

def getFromDir (fs : List (Bytes × Bytes)) (k : Bytes) : Option Bytes :=
  (openLindiDir fs).bind fun R => (lookupKey R.refs k).bind (resolveDir fs)

/-- Store key/value discipline: member-safe distinct keys distinct from
the manifest name, and values with valid sizes. -/
def lvalOk : LValue → Bool
  | .inlineStr s => decide (s.length < 256 ^ 8)
  | .inlineB64 b => decide (b.length < 256 ^ 8)
  | .chunk d => decide (0 < d.length) && decide (d.length < 256 ^ 8)

def storeOk (L : LStore) : Bool :=
  L.entries.all fun e =>
    fileNameOk e.1 && !(e.1 == lindiJsonName) && lvalOk e.2

theorem readRange_within {A x C : Bytes} {off n : Nat}
    (h : A.length = off) (hn : n ≤ x.length) :
    readRange (A ++ (x ++ C)) off n = x.take n := by
  show ((A ++ (x ++ C)).drop off).take n = x.take n
  rw [drop_append_of_length h]
  exact List.take_append_of_le_length hn

/-- Reading a prefix of a member's payload through its data offset. -/
theorem read_slot_payload {st : TarState} {i : Nat} {s : Slot} {n : Nat}
    (hall : ∀ u ∈ st.slots, slotOk u = true)
    (hs : st.slots[i]? = some s) (hn : n ≤ s.payload.length) :
    readRange (render st) (dataOffset st i) n = s.payload.take n := by
  have hok : slotOk s = true := by
    obtain ⟨hi, rfl⟩ := List.getElem?_eq_some_iff.mp hs
    exact hall _ (List.getElem_mem hi)
  have hsplit := flatten_renderSlot_split hs
  have hrender : render st =
      (entryBlock st ++ ((st.slots.take i).map renderSlot).flatten ++ header s) ++
        ((s.payload ++ spaces (s.capacity - s.payload.length)) ++
          (((st.slots.drop (i + 1)).map renderSlot).flatten ++ zeros 1024)) := by
    simp only [render, hsplit, renderSlot, paddedData, List.append_assoc]
  have hplen : (entryBlock st ++ ((st.slots.take i).map renderSlot).flatten ++
      header s).length = dataOffset st i := by
    simp only [List.length_append, entryBlock_length,
      flatten_renderSlot_length (fun u hu => hall u (List.take_subset i _ hu)),
      header_length (le_trans (slotOk_name_le hok) (by omega))]
    simp only [dataOffset, headerOffset]
    try omega
  have hx : n ≤ (s.payload ++ spaces (s.capacity - s.payload.length)).length := by
    simp only [List.length_append]
    omega
  rw [hrender, readRange_within hplen hx]
  exact List.take_append_of_le_length hn

theorem lookupL_cons_pos {k0 : Bytes} {v0 : LValue}
    {t : List (Bytes × LValue)} {k : Bytes} (h : (k0 == k) = true) :
    lookupL ((k0, v0) :: t) k = some v0 := by
  unfold lookupL
  rw [List.find?_cons_of_pos _ (by simpa using h)]
  rfl

theorem lookupL_cons_neg {k0 : Bytes} {v0 : LValue}
    {t : List (Bytes × LValue)} {k : Bytes} (h : (k0 == k) = false) :
    lookupL ((k0, v0) :: t) k = lookupL t k := by
  unfold lookupL
  rw [List.find?_cons_of_neg _ (by simp [h])]

theorem lookupKey_cons_pos {k0 : Bytes} {v0 : RefValue}
    {t : List (Bytes × RefValue)} {k : Bytes} (h : (k0 == k) = true) :
    lookupKey ((k0, v0) :: t) k = some v0 := by
  unfold lookupKey
  rw [List.find?_cons_of_pos _ (by simpa using h)]
  rfl

theorem lookupKey_cons_neg {k0 : Bytes} {v0 : RefValue}
    {t : List (Bytes × RefValue)} {k : Bytes} (h : (k0 == k) = false) :
    lookupKey ((k0, v0) :: t) k = lookupKey t k := by
  unfold lookupKey
  rw [List.find?_cons_of_neg _ (by simp [h])]

theorem lookupFile_cons_pos {k0 d0 : Bytes} {t : List (Bytes × Bytes)}
    {k : Bytes} (h : (k0 == k) = true) :
    lookupFile ((k0, d0) :: t) k = some d0 := by
  unfold lookupFile
  rw [List.find?_cons_of_pos _ (by simpa using h)]
  rfl

theorem lookupFile_cons_neg {k0 d0 : Bytes} {t : List (Bytes × Bytes)}
    {k : Bytes} (h : (k0 == k) = false) :
    lookupFile ((k0, d0) :: t) k = lookupFile t k := by
  unfold lookupFile
  rw [List.find?_cons_of_neg _ (by simp [h])]

theorem tarRefs_lookup_none {ents : List (Bytes × LValue)} {k : Bytes}
    (h : lookupL ents k = none) (off : Nat) :
    lookupKey (tarRefs off ents) k = none := by
  induction ents generalizing off with
  | nil => rfl
  | cons e t ih =>
      obtain ⟨k0, v0⟩ := e
      have hne : (k0 == k) = false := by
        cases hbk : (k0 == k) with
        | true => rw [lookupL_cons_pos hbk] at h; simp at h
        | false => rfl
      rw [lookupL_cons_neg hne] at h
      cases v0 with
      | inlineStr s =>
          rw [show tarRefs off ((k0, LValue.inlineStr s) :: t) =
            (k0, RefValue.inline s) :: tarRefs off t from rfl,
            lookupKey_cons_neg hne]
          exact ih h off
      | inlineB64 b =>
          rw [show tarRefs off ((k0, LValue.inlineB64 b) :: t) =
            (k0, RefValue.inlineB64 b) :: tarRefs off t from rfl,
            lookupKey_cons_neg hne]
          exact ih h off
      | chunk d =>
          rw [show tarRefs off ((k0, LValue.chunk d) :: t) =
            (k0, RefValue.external selfUrl (off + 512) d.length) ::
              tarRefs (off + 512 + capFor d) t from rfl,
            lookupKey_cons_neg hne]
          exact ih h (off + 512 + capFor d)

theorem tarRefs_lookup_inlineStr {ents : List (Bytes × LValue)} {k s : Bytes}
    (h : lookupL ents k = some (.inlineStr s)) (off : Nat) :
    lookupKey (tarRefs off ents) k = some (.inline s) := by
  induction ents generalizing off with
  | nil => simp [lookupL] at h
  | cons e t ih =>
      obtain ⟨k0, v0⟩ := e
      cases hbk : (k0 == k) with
      | true =>
          rw [lookupL_cons_pos hbk] at h
          injection h with h2
          subst h2
          rw [show tarRefs off ((k0, LValue.inlineStr s) :: t) =
            (k0, RefValue.inline s) :: tarRefs off t from rfl,
            lookupKey_cons_pos hbk]
      | false =>
          rw [lookupL_cons_neg hbk] at h
          cases v0 with
          | inlineStr s0 =>
              rw [show tarRefs off ((k0, LValue.inlineStr s0) :: t) =
                (k0, RefValue.inline s0) :: tarRefs off t from rfl,
                lookupKey_cons_neg hbk]
              exact ih h off
          | inlineB64 b0 =>
              rw [show tarRefs off ((k0, LValue.inlineB64 b0) :: t) =
                (k0, RefValue.inlineB64 b0) :: tarRefs off t from rfl,
                lookupKey_cons_neg hbk]
              exact ih h off
          | chunk d0 =>
              rw [show tarRefs off ((k0, LValue.chunk d0) :: t) =
                (k0, RefValue.external selfUrl (off + 512) d0.length) ::
                  tarRefs (off + 512 + capFor d0) t from rfl,
                lookupKey_cons_neg hbk]
              exact ih h (off + 512 + capFor d0)

theorem tarRefs_lookup_inlineB64 {ents : List (Bytes × LValue)} {k b : Bytes}
    (h : lookupL ents k = some (.inlineB64 b)) (off : Nat) :
    lookupKey (tarRefs off ents) k = some (.inlineB64 b) := by
  induction ents generalizing off with
  | nil => simp [lookupL] at h
  | cons e t ih =>
      obtain ⟨k0, v0⟩ := e
      cases hbk : (k0 == k) with
      | true =>
          rw [lookupL_cons_pos hbk] at h
          injection h with h2
          subst h2
          rw [show tarRefs off ((k0, LValue.inlineB64 b) :: t) =
            (k0, RefValue.inlineB64 b) :: tarRefs off t from rfl,
            lookupKey_cons_pos hbk]
      | false =>
          rw [lookupL_cons_neg hbk] at h
          cases v0 with
          | inlineStr s0 =>
              rw [show tarRefs off ((k0, LValue.inlineStr s0) :: t) =
                (k0, RefValue.inline s0) :: tarRefs off t from rfl,
                lookupKey_cons_neg hbk]
              exact ih h off
          | inlineB64 b0 =>
              rw [show tarRefs off ((k0, LValue.inlineB64 b0) :: t) =
                (k0, RefValue.inlineB64 b0) :: tarRefs off t from rfl,
                lookupKey_cons_neg hbk]
              exact ih h off
          | chunk d0 =>
              rw [show tarRefs off ((k0, LValue.chunk d0) :: t) =
                (k0, RefValue.external selfUrl (off + 512) d0.length) ::
                  tarRefs (off + 512 + capFor d0) t from rfl,
                lookupKey_cons_neg hbk]
              exact ih h (off + 512 + capFor d0)

theorem tarRefs_lookup_chunk {ents : List (Bytes × LValue)} {k d : Bytes}
    (h : lookupL ents k = some (.chunk d)) (off : Nat) :
    ∃ c, (fileSlots (chunkFiles ents))[c]? =
        some ⟨k, d, capFor d, true⟩ ∧
      lookupKey (tarRefs off ents) k = some (.external selfUrl
        (off + sumLen ((fileSlots (chunkFiles ents)).take c) + 512)
        d.length) := by
  induction ents generalizing off with
  | nil => simp [lookupL] at h
  | cons e t ih =>
      obtain ⟨k0, v0⟩ := e
      cases hbk : (k0 == k) with
      | true =>
          have hk0 : k0 = k := by simpa using hbk
          subst hk0
          rw [lookupL_cons_pos hbk] at h
          injection h with h2
          subst h2
          refine ⟨0, by simp [chunkFiles, fileSlots], ?_⟩
          rw [show tarRefs off ((k0, LValue.chunk d) :: t) =
            (k0, RefValue.external selfUrl (off + 512) d.length) ::
              tarRefs (off + 512 + capFor d) t from rfl,
            lookupKey_cons_pos hbk]
          simp [sumLen]
      | false =>
          rw [lookupL_cons_neg hbk] at h
          cases v0 with
          | inlineStr s0 =>
              obtain ⟨c, hc1, hc2⟩ := ih h off
              refine ⟨c, by simpa [chunkFiles] using hc1, ?_⟩
              rw [show tarRefs off ((k0, LValue.inlineStr s0) :: t) =
                (k0, RefValue.inline s0) :: tarRefs off t from rfl,
                lookupKey_cons_neg hbk]
              simpa [chunkFiles] using hc2
          | inlineB64 b0 =>
              obtain ⟨c, hc1, hc2⟩ := ih h off
              refine ⟨c, by simpa [chunkFiles] using hc1, ?_⟩
              rw [show tarRefs off ((k0, LValue.inlineB64 b0) :: t) =
                (k0, RefValue.inlineB64 b0) :: tarRefs off t from rfl,
                lookupKey_cons_neg hbk]
              simpa [chunkFiles] using hc2
          | chunk d0 =>
              obtain ⟨c, hc1, hc2⟩ := ih h (off + 512 + capFor d0)
              refine ⟨c + 1, by simpa [chunkFiles, fileSlots] using hc1, ?_⟩
              rw [show tarRefs off ((k0, LValue.chunk d0) :: t) =
                (k0, RefValue.external selfUrl (off + 512) d0.length) ::
                  tarRefs (off + 512 + capFor d0) t from rfl,
                lookupKey_cons_neg hbk]
              rw [hc2]
              congr 3
              simp only [chunkFiles, fileSlots, List.map_cons,
                List.take_succ_cons, sumLen, List.sum_cons, slotLen]
              omega

theorem chunkFiles_lookup {ents : List (Bytes × LValue)} {k d : Bytes}
    (h : lookupL ents k = some (.chunk d)) :
    lookupFile (chunkFiles ents) k = some d := by
  induction ents with
  | nil => simp [lookupL] at h
  | cons e t ih =>
      obtain ⟨k0, v0⟩ := e
      cases hbk : (k0 == k) with
      | true =>
          rw [lookupL_cons_pos hbk] at h
          injection h with h2
          cases v0 with
          | inlineStr s0 => exact absurd h2 (by simp)
          | inlineB64 b0 => exact absurd h2 (by simp)
          | chunk d0 =>
              injection h2 with h3
              rw [show chunkFiles ((k0, LValue.chunk d0) :: t) =
                (k0, d0) :: chunkFiles t from rfl, lookupFile_cons_pos hbk, h3]
      | false =>
          rw [lookupL_cons_neg hbk] at h
          cases v0 with
          | inlineStr s0 => simpa [chunkFiles] using ih h
          | inlineB64 b0 => simpa [chunkFiles] using ih h
          | chunk d0 =>
              rw [show chunkFiles ((k0, LValue.chunk d0) :: t) =
                (k0, d0) :: chunkFiles t from rfl, lookupFile_cons_neg hbk]
              exact ih h

theorem jsonRfs_lookup {ents : List (Bytes × LValue)} {k : Bytes} :
    lookupKey (ents.map fun e => (e.1, jsonVal e.2)) k =
      (lookupL ents k).map jsonVal := by
  induction ents with
  | nil => rfl
  | cons e t ih =>
      obtain ⟨k0, v0⟩ := e
      cases hbk : (k0 == k) with
      | true =>
          rw [List.map_cons, lookupKey_cons_pos hbk, lookupL_cons_pos hbk]
          rfl
      | false =>
          rw [List.map_cons, lookupKey_cons_neg hbk, lookupL_cons_neg hbk, ih]

theorem dirRfs_lookup {ents : List (Bytes × LValue)} {k : Bytes} :
    lookupKey (ents.map fun e => (e.1, dirVal e.1 e.2)) k =
      (lookupL ents k).map (dirVal k) := by
  induction ents with
  | nil => rfl
  | cons e t ih =>
      obtain ⟨k0, v0⟩ := e
      cases hbk : (k0 == k) with
      | true =>
          have hk0 : k0 = k := by simpa using hbk
          subst hk0
          rw [List.map_cons, lookupKey_cons_pos hbk, lookupL_cons_pos hbk]
          rfl
      | false =>
          rw [List.map_cons, lookupKey_cons_neg hbk, lookupL_cons_neg hbk, ih]

theorem lookupL_mem {ents : List (Bytes × LValue)} {k : Bytes} {v : LValue}
    (h : lookupL ents k = some v) : (k, v) ∈ ents := by
  unfold lookupL at h
  cases hf : ents.find? (fun e => e.1 == k) with
  | none => rw [hf] at h; simp at h
  | some pr =>
      rw [hf] at h
      have hp : (pr.1 == k) = true := by
        have h3 := List.find?_some hf
        simpa using h3
      have hm : pr ∈ ents := List.mem_of_find?_eq_some hf
      have hk : pr.1 = k := by simpa using hp
      injection h with h2
      have hpr : pr = (k, v) := by
        obtain ⟨a, b⟩ := pr
        simp only at h2 hk
        rw [h2, hk]
      rwa [hpr] at hm

theorem storeOk_elim {L : LStore} {k : Bytes} {v : LValue}
    (hstore : storeOk L = true) (h : lookupL L.entries k = some v) :
    fileNameOk k = true ∧ (k == lindiJsonName) = false ∧ lvalOk v = true := by
  have hmem := lookupL_mem h
  have := List.all_eq_true.mp hstore _ hmem
  simp only [Bool.and_eq_true, Bool.not_eq_true'] at this
  exact ⟨this.1.1, this.1.2, this.2⟩

/-- JSON shape: `get` agrees with the logical store. -/
theorem getFromJson_correct {L : LStore} (hjson : rfsOk (jsonRfs L) = true) :
    ∀ k, getFromJson (writeJsonStore L) k = logicalGet L k := by
  intro k
  unfold getFromJson writeJsonStore
  rw [loadJson_writeJson_nil hjson, Option.some_bind]
  rw [show (jsonRfs L).refs =
    L.entries.map (fun e => (e.1, jsonVal e.2)) from rfl, jsonRfs_lookup]
  unfold logicalGet
  cases lookupL L.entries k with
  | none => rfl
  | some v => cases v <;> rfl

/-- Directory shape: `get` agrees with the logical store. -/
theorem getFromDir_correct {L : LStore} (hdir : rfsOk (dirRfs L) = true)
    (hstore : storeOk L = true) :
    ∀ k, getFromDir (writeDirStore L) k = logicalGet L k := by
  intro k
  unfold getFromDir
  have hopen : openLindiDir (writeDirStore L) = some (dirRfs L) := by
    show (lookupFile (writeDirStore L) lindiJsonName).bind loadJson = _
    rw [show writeDirStore L =
      (lindiJsonName, writeJson (dirRfs L)) :: chunkFiles L.entries from rfl,
      lookupFile_cons_pos (by simp), Option.some_bind]
    exact loadJson_writeJson_nil hdir
  rw [hopen, Option.some_bind]
  rw [show (dirRfs L).refs =
    L.entries.map (fun e => (e.1, dirVal e.1 e.2)) from rfl, dirRfs_lookup]
  unfold logicalGet
  cases hlk : lookupL L.entries k with
  | none => rfl
  | some v =>
      cases v with
      | inlineStr s => rfl
      | inlineB64 b => rfl
      | chunk d =>
          obtain ⟨-, hkl, -⟩ := storeOk_elim hstore hlk
          have hne : (lindiJsonName == k) = false := by
            simp only [beq_eq_false_iff_ne, ne_eq] at hkl ⊢
            exact fun hc => hkl hc.symm
          show resolveDir (writeDirStore L) (.external k 0 d.length) = some d
          rw [show resolveDir (writeDirStore L) (.external k 0 d.length) =
            (lookupFile (writeDirStore L) k).map
              (fun d0 => readRange d0 0 d.length) from rfl]
          rw [show writeDirStore L =
            (lindiJsonName, writeJson (dirRfs L)) :: chunkFiles L.entries
            from rfl, lookupFile_cons_neg hne, chunkFiles_lookup hlk]
          simp [readRange]

theorem lookupTable_cons_pos {e : TableEntry} {tbl : List TableEntry}
    {nm : Bytes} (h : (e.name == nm) = true) :
    lookupTable (e :: tbl) nm = some e := by
  unfold lookupTable
  rw [List.find?_cons_of_pos _ (by simpa using h)]

theorem lookupTable_cons_neg {e : TableEntry} {tbl : List TableEntry}
    {nm : Bytes} (h : (e.name == nm) = false) :
    lookupTable (e :: tbl) nm = lookupTable tbl nm := by
  unfold lookupTable
  rw [List.find?_cons_of_neg _ (by simp [h])]

theorem lookupTable_tableGo_last {A : List (Bytes × Bytes)} {wj : Bytes}
    {off : Nat} (hA : ∀ f ∈ A, (f.1 == lindiJsonName) = false)
    (hAi : ∀ f ∈ A, (f.1 == indexNameB) = false) :
    lookupTable (tableGo off (fileSlots (A ++ [(lindiJsonName, wj)])))
      lindiJsonName =
      some ⟨lindiJsonName, off + sumLen (fileSlots A) + 512, capFor wj⟩ := by
  induction A generalizing off with
  | nil =>
      have hts : isTableSlot (⟨lindiJsonName, wj, capFor wj, true⟩ : Slot) =
          true := by
        have hb : (lindiJsonName == indexNameB) = false := by decide
        simp [isTableSlot, hb]
      simp only [List.nil_append, fileSlots, List.map_cons, List.map_nil,
        tableGo, hts, if_true]
      rw [lookupTable_cons_pos (by simp)]
      simp [sumLen]
  | cons f t ih =>
      have hts : isTableSlot (⟨f.1, f.2, capFor f.2, true⟩ : Slot) = true := by
        simp [isTableSlot, hAi f (List.mem_cons_self f t)]
      simp only [List.cons_append, fileSlots, List.map_cons, tableGo, hts,
        if_true, List.append_eq]
      rw [lookupTable_cons_neg (by simpa using hA f (List.mem_cons_self f t))]
      have hih := @ih (off + slotLen ⟨f.1, f.2, capFor f.2, true⟩)
        (fun g hg => hA g (List.mem_cons_of_mem f hg))
        (fun g hg => hAi g (List.mem_cons_of_mem f hg))
      simp only [fileSlots] at hih ⊢
      rw [hih]
      congr 2
      simp only [sumLen, List.map_cons, List.sum_cons, slotLen]
      omega

theorem mem_chunkFiles {ents : List (Bytes × LValue)} {k d : Bytes}
    (h : (k, d) ∈ chunkFiles ents) : (k, LValue.chunk d) ∈ ents := by
  induction ents with
  | nil => simp [chunkFiles] at h
  | cons e t ih =>
      obtain ⟨k0, v0⟩ := e
      cases v0 with
      | inlineStr s0 =>
          simp only [chunkFiles] at h
          exact List.mem_cons_of_mem _ (ih h)
      | inlineB64 b0 =>
          simp only [chunkFiles] at h
          exact List.mem_cons_of_mem _ (ih h)
      | chunk d0 =>
          simp only [chunkFiles] at h
          rcases List.mem_cons.mp h with h1 | h2
          · injection h1 with ha hb
            subst ha
            subst hb
            exact List.mem_cons_self _ _
          · exact List.mem_cons_of_mem _ (ih h2)

theorem chunkFiles_name_facts {L : LStore} (hstore : storeOk L = true) :
    ∀ f ∈ chunkFiles L.entries,
      (f.1 == lindiJsonName) = false ∧ (f.1 == indexNameB) = false := by
  intro f hf
  obtain ⟨k, d⟩ := f
  have hmem := mem_chunkFiles hf
  have hall := List.all_eq_true.mp hstore _ hmem
  simp only [Bool.and_eq_true, Bool.not_eq_true'] at hall
  obtain ⟨⟨hfn, hkl⟩, -⟩ := hall
  obtain ⟨-, -, -, hni⟩ := fileNameOk_fields hfn
  exact ⟨hkl, by simpa [beq_eq_false_iff_ne] using hni⟩

theorem fileSlots_append (A B : List (Bytes × Bytes)) :
    fileSlots (A ++ B) = fileSlots A ++ fileSlots B := by
  simp [fileSlots]

/-- Opening the tar shape of a logical store recovers its manifest. -/
theorem openTarStore {L : LStore} (htar : rfsOk (tarRfs L) = true)
    (hstore : storeOk L = true) (hfiles : filesOk (tarStoreFiles L) = true) :
    openLindiTar (writeTarStore L) = some (tarRfs L) := by
  have hwf := wfTar_mkTar hfiles
  have hopen := openTar_render hwf
  have hAn := chunkFiles_name_facts hstore
  have htbl := @lookupTable_tableGo_last (chunkFiles L.entries)
    (writeJson (tarRfs L)) 1024
    (fun f hf => (hAn f hf).1) (fun f hf => (hAn f hf).2)
  have hslots : (mkTar (tarStoreFiles L)).slots =
      fileSlots (chunkFiles L.entries) ++
        ((⟨lindiJsonName, writeJson (tarRfs L),
          capFor (writeJson (tarRfs L)), true⟩ : Slot) ::
          [⟨indexNameB, encodeTable (tableGo 1024 (fileSlots (tarStoreFiles L))),
            capFor (encodeTable (tableGo 1024 (fileSlots (tarStoreFiles L)))),
            true⟩]) := by
    show mkTarSlots (tarStoreFiles L) = _
    unfold mkTarSlots
    rw [show tarStoreFiles L = chunkFiles L.entries ++
      [(lindiJsonName, writeJson (tarRfs L))] from rfl, fileSlots_append]
    simp [fileSlots]
  have hgetl : (mkTar (tarStoreFiles L)).slots[
      (fileSlots (chunkFiles L.entries)).length]? =
      some ⟨lindiJsonName, writeJson (tarRfs L),
        capFor (writeJson (tarRfs L)), true⟩ := by
    rw [hslots, List.getElem?_append_right (le_refl _)]
    simp
  have hdo : dataOffset (mkTar (tarStoreFiles L))
      (fileSlots (chunkFiles L.entries)).length =
      1024 + sumLen (fileSlots (chunkFiles L.entries)) + 512 := by
    simp only [dataOffset, headerOffset]
    rw [hslots, take_append_exact]
  have hall : ∀ u ∈ (mkTar (tarStoreFiles L)).slots, slotOk u = true :=
    fun u hu => List.all_eq_true.mp (wfTar_parts hwf).1 u hu
  have hread : readRange (writeTarStore L)
      (1024 + sumLen (fileSlots (chunkFiles L.entries)) + 512)
      (capFor (writeJson (tarRfs L))) =
      writeJson (tarRfs L) ++ spaces (capFor (writeJson (tarRfs L)) -
        (writeJson (tarRfs L)).length) := by
    unfold writeTarStore
    rw [← hdo]
    exact read_slot_data hall hgetl
  unfold openLindiTar writeTarStore
  unfold writeTarStore at hread
  rw [hopen]
  simp only [Option.some_bind]
  rw [tableOf_mkTar, show fileSlots (tarStoreFiles L) =
    fileSlots (chunkFiles L.entries ++ [(lindiJsonName, writeJson (tarRfs L))])
    from rfl, htbl]
  simp only [Option.some_bind]
  rw [hread]
  exact loadJson_writeJson htar _

/-- Tar shape: `get` agrees with the logical store. -/
theorem getFromTar_correct {L : LStore} (htar : rfsOk (tarRfs L) = true)
    (hstore : storeOk L = true) (hfiles : filesOk (tarStoreFiles L) = true) :
    ∀ k, getFromTar (writeTarStore L) k = logicalGet L k := by
  intro k
  have hwf := wfTar_mkTar hfiles
  have hall : ∀ u ∈ (mkTar (tarStoreFiles L)).slots, slotOk u = true :=
    fun u hu => List.all_eq_true.mp (wfTar_parts hwf).1 u hu
  unfold getFromTar
  rw [openTarStore htar hstore hfiles, Option.some_bind]
  rw [show (tarRfs L).refs = tarRefs 1024 L.entries from rfl]
  unfold logicalGet
  cases hlk : lookupL L.entries k with
  | none => rw [tarRefs_lookup_none hlk]; rfl
  | some v =>
      cases v with
      | inlineStr s => rw [tarRefs_lookup_inlineStr hlk]; rfl
      | inlineB64 b => rw [tarRefs_lookup_inlineB64 hlk]; rfl
      | chunk d =>
          obtain ⟨c, hc1, hc2⟩ := tarRefs_lookup_chunk hlk 1024
          rw [hc2, Option.some_bind]
          have hclt : c < (fileSlots (chunkFiles L.entries)).length := by
            obtain ⟨hl, -⟩ := List.getElem?_eq_some_iff.mp hc1
            exact hl
          have hgetc : (mkTar (tarStoreFiles L)).slots[c]? =
              some ⟨k, d, capFor d, true⟩ := by
            show (mkTarSlots (tarStoreFiles L))[c]? = _
            unfold mkTarSlots
            rw [show tarStoreFiles L = chunkFiles L.entries ++
              [(lindiJsonName, writeJson (tarRfs L))] from rfl]
            rw [fileSlots_append, List.append_assoc]
            rw [List.getElem?_append_left
              (by simpa using hclt)]
            exact hc1
          have hdo : dataOffset (mkTar (tarStoreFiles L)) c =
              1024 + sumLen ((fileSlots (chunkFiles L.entries)).take c) + 512 := by
            simp only [dataOffset, headerOffset]
            have htake : (mkTar (tarStoreFiles L)).slots.take c =
                (fileSlots (chunkFiles L.entries)).take c := by
              show (mkTarSlots (tarStoreFiles L)).take c = _
              unfold mkTarSlots
              rw [show tarStoreFiles L = chunkFiles L.entries ++
                [(lindiJsonName, writeJson (tarRfs L))] from rfl]
              rw [fileSlots_append, List.append_assoc]
              exact List.take_append_of_le_length (le_of_lt hclt)
            rw [htake]
          have hrr : readRange (writeTarStore L)
              (1024 + sumLen ((fileSlots (chunkFiles L.entries)).take c) + 512)
              d.length = d := by
            unfold writeTarStore
            rw [← hdo]
            have h2 := read_slot_payload (n := d.length) hall hgetc (le_refl _)
            simpa using h2
          rw [show resolveTar (writeTarStore L)
            (.external selfUrl
              (1024 + sumLen ((fileSlots (chunkFiles L.entries)).take c) + 512)
              d.length) =
            if selfUrl = selfUrl then
              some (readRange (writeTarStore L)
                (1024 + sumLen ((fileSlots (chunkFiles L.entries)).take c) + 512)
                d.length)
            else none from rfl]
          rw [if_pos rfl, hrr]
          rfl

/-! ## Chunk fetcher: bounded retry with exponential backoff (spec §4.4) -/

/-- Modelled from the spec: the backoff before retry `i`, in
milliseconds — base 0.5 s doubled each attempt, capped at 30 s. -/
def backoffDelay (i : Nat) : Nat := min (500 * 2 ^ i) 30000

/-- Modelled from the spec: at most 6 attempts. -/
def maxAttempts : Nat := 6

/-- The retry loop: `r` remaining attempts, `k` the index of the next
attempt; `net k` is the outcome of attempt `k` (`none` transient
failure).  Returns the result and the number of attempts made. -/
def retryGo (net : Nat → Option Bytes) : Nat → Nat → Option Bytes × Nat
  | 0, _ => (none, 0)
  | r + 1, k =>
      match net k with
      | some b => (some b, 1)
      | none => ((retryGo net r (k + 1)).1, (retryGo net r (k + 1)).2 + 1)

/-- Modelled from the spec: `fetch` with bounded retry. -/
def fetchWithRetry (net : Nat → Option Bytes) : Option Bytes × Nat :=
  retryGo net maxAttempts 0

theorem retryGo_attempts_le (net : Nat → Option Bytes) (r k : Nat) :
    (retryGo net r k).2 ≤ r := by
  induction r generalizing k with
  | zero => simp [retryGo]
  | succ r ih =>
      simp only [retryGo]
      cases net k with
      | some b => simp
      | none =>
          simp only []
          have := ih (k + 1)
          omega

theorem retryGo_all_fail {net : Nat → Option Bytes} {r k : Nat}
    (h : ∀ j, j < r → net (k + j) = none) :
    retryGo net r k = (none, r) := by
  induction r generalizing k with
  | zero => rfl
  | succ r ih =>
      have h0 : net k = none := by simpa using h 0 (by omega)
      simp only [retryGo, h0]
      have hr : retryGo net r (k + 1) = (none, r) := by
        refine ih fun j hj => ?_
        have := h (j + 1) (by omega)
        simpa [Nat.add_assoc, Nat.add_comm 1 j] using this
      rw [hr]

theorem retryGo_first_success {net : Nat → Option Bytes} {r k j : Nat}
    {b : Bytes} (hj : j < r) (hfail : ∀ i, i < j → net (k + i) = none)
    (hsucc : net (k + j) = some b) :
    retryGo net r k = (some b, j + 1) := by
  induction j generalizing r k with
  | zero =>
      cases r with
      | zero => omega
      | succ r =>
          simp only [retryGo]
          rw [show net k = some b from by simpa using hsucc]
  | succ j ih =>
      cases r with
      | zero => omega
      | succ r =>
          have h0 : net k = none := by simpa using hfail 0 (by omega)
          simp only [retryGo, h0]
          have hr : retryGo net r (k + 1) = (some b, j + 1) := by
            refine ih (by omega) (fun i hi => ?_) ?_
            · have := hfail (i + 1) (by omega)
              simpa [Nat.add_assoc, Nat.add_comm 1 i] using this
            · have heq : k + 1 + j = k + (j + 1) := by omega
              rw [heq]
              exact hsucc
          rw [hr]

theorem retryGo_none_exhausts {net : Nat → Option Bytes} {r k : Nat}
    (h : (retryGo net r k).1 = none) : (retryGo net r k).2 = r := by
  induction r generalizing k with
  | zero => rfl
  | succ r ih =>
      simp only [retryGo] at h ⊢
      cases hn : net k with
      | some b => rw [hn] at h; simp at h
      | none =>
          rw [hn] at h
          simp only [] at h ⊢
          have := ih (k := k + 1) h
          omega

/-! ## Corrupt reference detection (spec §4.1, §7) -/

inductive StoreErr where
  | notFound
  | corruptReference
  | ioErr
  | readOnly
  deriving Repr, DecidableEq

/-- Modelled from the spec: resolve an external reference through the
fetcher and validate the returned length — a size mismatch is a
`CorruptReference`, never silently truncated or padded bytes. -/
def resolveExternal (fetch : Bytes → Nat → Nat → Option Bytes)
    (url : Bytes) (off sz : Nat) : Except StoreErr Bytes :=
  match fetch url off sz with
  | none => .error .ioErr
  | some bs => if bs.length = sz then .ok bs else .error .corruptReference

/-- An HTTP range fetcher over remote resources: a range request returns
the available bytes of the range (short when the range runs past the end
of the resource, as HTTP range semantics give). -/
def rangeFetch (remote : Bytes → Option Bytes) :
    Bytes → Nat → Nat → Option Bytes :=
  fun url off sz => (remote url).map fun data => readRange data off sz

/-- Modelled from the spec: `get(key)` on a reference store — inline
values decoded directly, external references resolved via the fetcher. -/
def storeGet (R : RFS) (fetch : Bytes → Nat → Nat → Option Bytes)
    (k : Bytes) : Except StoreErr Bytes :=
  match lookupKey R.refs k with
  | none => .error .notFound
  | some (.inline s) => .ok s
  | some (.inlineB64 b) => .ok b
  | some (.external u off sz) => resolveExternal fetch u off sz

theorem storeGet_corrupt {R : RFS} {fetch : Bytes → Nat → Nat → Option Bytes}
    {k u : Bytes} {off sz : Nat} {bs : Bytes}
    (hk : lookupKey R.refs k = some (.external u off sz))
    (hf : fetch u off sz = some bs) (hlen : bs.length ≠ sz) :
    storeGet R fetch k = .error .corruptReference := by
  unfold storeGet
  rw [hk]
  show resolveExternal fetch u off sz = _
  unfold resolveExternal
  rw [hf]
  show (if List.length bs = sz then Except.ok bs
      else Except.error StoreErr.corruptReference) = _
  rw [if_neg hlen]

/-! ## Lexicographic byte order and a stable key sort (spec §4.3, §9) -/

/-- Non-strict lexicographic order on byte strings. -/
def lexLe : Bytes → Bytes → Bool
  | [], _ => true
  | _ :: _, [] => false
  | a :: as, b :: bs =>
      if a < b then true else if b < a then false else lexLe as bs

theorem lexLe_refl (x : Bytes) : lexLe x x = true := by
  induction x with
  | nil => rfl
  | cons a as ih => simp [lexLe, ih]

theorem lexLe_total (x y : Bytes) : lexLe x y = true ∨ lexLe y x = true := by
  induction x generalizing y with
  | nil => left; rfl
  | cons a as ih =>
      cases y with
      | nil => right; rfl
      | cons b bs =>
          rcases Nat.lt_trichotomy a b with h | h | h
          · left; simp [lexLe, h]
          · subst h
            rcases ih bs with h2 | h2
            · left; simp [lexLe, h2]
            · right; simp [lexLe, h2]
          · right; simp [lexLe, h]

theorem lexLe_trans : ∀ {x y z : Bytes}, lexLe x y = true →
    lexLe y z = true → lexLe x z = true := by
  intro x
  induction x with
  | nil => intro y z h1 h2; rfl
  | cons a as ih =>
      intro y z h1 h2
      cases y with
      | nil => simp [lexLe] at h1
      | cons b bs =>
          cases z with
          | nil => simp [lexLe] at h2
          | cons c cs =>
              rcases Nat.lt_trichotomy a b with hab | hab | hab
              · rcases Nat.lt_trichotomy b c with hbc | hbc | hbc
                · simp [lexLe, show a < c from by omega]
                · subst hbc; simp [lexLe, hab]
                · rw [show lexLe (b :: bs) (c :: cs) =
                    (if b < c then true else if c < b then false
                      else lexLe bs cs) from rfl, if_neg (by omega),
                    if_pos hbc] at h2
                  exact absurd h2 (by simp)
              · subst hab
                rw [show lexLe (a :: as) (a :: bs) =
                  (if a < a then true else if a < a then false
                    else lexLe as bs) from rfl,
                  if_neg (by omega), if_neg (by omega)] at h1
                rcases Nat.lt_trichotomy a c with hac | hac | hac
                · simp [lexLe, hac]
                · subst hac
                  rw [show lexLe (a :: bs) (a :: cs) =
                    (if a < a then true else if a < a then false
                      else lexLe bs cs) from rfl,
                    if_neg (by omega), if_neg (by omega)] at h2
                  simp only [lexLe, if_neg (show ¬ a < a by omega)]
                  exact ih h1 h2
                · rw [show lexLe (a :: bs) (c :: cs) =
                    (if a < c then true else if c < a then false
                      else lexLe bs cs) from rfl, if_neg (by omega),
                    if_pos hac] at h2
                  exact absurd h2 (by simp)
              · rw [show lexLe (a :: as) (b :: bs) =
                  (if a < b then true else if b < a then false
                    else lexLe as bs) from rfl, if_neg (by omega),
                  if_pos hab] at h1
                exact absurd h1 (by simp)

/-- Insert into a list kept sorted by `key`: walk past strictly smaller
keys, insert before the first key that is not smaller. -/
def insertBy {α : Type} (key : α → Bytes) (c : α) : List α → List α
  | [] => [c]
  | d :: ds =>
      if lexLe (key c) (key d) = true then c :: d :: ds
      else d :: insertBy key c ds

/-- Sort by a byte-string key (insertion sort). -/
def sortBy {α : Type} (key : α → Bytes) : List α → List α
  | [] => []
  | c :: cs => insertBy key c (sortBy key cs)

theorem perm_insertBy {α : Type} (key : α → Bytes) (c : α) (l : List α) :
    (insertBy key c l).Perm (c :: l) := by
  induction l with
  | nil => exact List.Perm.refl _
  | cons d ds ih =>
      by_cases h : lexLe (key c) (key d) = true
      · simp only [insertBy, if_pos h]
        exact List.Perm.refl _
      · simp only [insertBy, if_neg h]
        exact (ih.cons d).trans (List.Perm.swap c d ds)

theorem sortBy_perm {α : Type} (key : α → Bytes) (l : List α) :
    (sortBy key l).Perm l := by
  induction l with
  | nil => exact List.Perm.refl _
  | cons c cs ih =>
      exact (perm_insertBy key c (sortBy key cs)).trans (ih.cons c)

theorem insertBy_sorted {α : Type} {key : α → Bytes} {c : α} {l : List α}
    (h : l.Pairwise fun x y => lexLe (key x) (key y) = true) :
    (insertBy key c l).Pairwise fun x y => lexLe (key x) (key y) = true := by
  induction l with
  | nil => simp [insertBy]
  | cons d ds ih =>
      rcases List.pairwise_cons.mp h with ⟨hd, hds⟩
      by_cases hle : lexLe (key c) (key d) = true
      · simp only [insertBy, if_pos hle]
        refine List.pairwise_cons.mpr ⟨?_, h⟩
        intro x hx
        rcases List.mem_cons.mp hx with hx | hx
        · subst hx; exact hle
        · exact lexLe_trans hle (hd x hx)
      · simp only [insertBy, if_neg hle]
        have hdc : lexLe (key d) (key c) = true := by
          rcases lexLe_total (key c) (key d) with h2 | h2
          · exact absurd h2 hle
          · exact h2
        refine List.pairwise_cons.mpr ⟨?_, ih hds⟩
        intro x hx
        have hx2 : x ∈ c :: ds := (perm_insertBy key c ds).mem_iff.mp hx
        rcases List.mem_cons.mp hx2 with hx2 | hx2
        · subst hx2; exact hdc
        · exact hd x hx2

theorem sortBy_sorted {α : Type} (key : α → Bytes) (l : List α) :
    (sortBy key l).Pairwise fun x y => lexLe (key x) (key y) = true := by
  induction l with
  | nil => simp [sortBy]
  | cons c cs ih => exact insertBy_sorted ih

theorem sortBy_sorted_id {α : Type} {key : α → Bytes} {l : List α}
    (h : l.Pairwise fun x y => lexLe (key x) (key y) = true) :
    sortBy key l = l := by
  induction l with
  | nil => rfl
  | cons c cs ih =>
      rcases List.pairwise_cons.mp h with ⟨hc, hcs⟩
      rw [show sortBy key (c :: cs) = insertBy key c (sortBy key cs) from rfl,
        ih hcs]
      cases cs with
      | nil => rfl
      | cons d ds =>
          have hcd : lexLe (key c) (key d) = true :=
            hc d (by simp)
          simp only [insertBy, if_pos hcd]

theorem insertBy_map {α β : Type} (key1 : α → Bytes) (key2 : β → Bytes)
    (f : α → β) (hkey : ∀ a, key2 (f a) = key1 a) (c : α) (l : List α) :
    insertBy key2 (f c) (l.map f) = (insertBy key1 c l).map f := by
  induction l with
  | nil => rfl
  | cons d ds ih =>
      simp only [List.map_cons, insertBy, hkey]
      by_cases h : lexLe (key1 c) (key1 d) = true
      · rw [if_pos h, if_pos h]
        simp
      · rw [if_neg h, if_neg h, List.map_cons, ih]

theorem sortBy_map {α β : Type} (key1 : α → Bytes) (key2 : β → Bytes)
    (f : α → β) (hkey : ∀ a, key2 (f a) = key1 a) (l : List α) :
    sortBy key2 (l.map f) = (sortBy key1 l).map f := by
  induction l with
  | nil => rfl
  | cons c cs ih =>
      simp only [List.map_cons]
      rw [show sortBy key2 (f c :: List.map f cs) =
        insertBy key2 (f c) (sortBy key2 (List.map f cs)) from rfl,
        show sortBy key1 (c :: cs) = insertBy key1 c (sortBy key1 cs) from rfl,
        ih, insertBy_map key1 key2 f hkey]

/-! ## HDF5 object trees and the HDF5 → Zarr translator (spec §4.3) -/

mutual
/-- Modelled from the spec: an abstract HDF5 object tree.  A dataset is
reduced to its one contiguous chunk (byte offset and size in the source
file); a group carries its converted `.zattrs` JSON bytes and named
children in file iteration order. -/
inductive H5 where
  | dataset (off sz : Nat) : H5
  | group (attrsJ : Bytes) (children : H5List) : H5

/-- Named children of an HDF5 group, in iteration order. -/
inductive H5List where
  | nil : H5List
  | cons (nm : Bytes) (child : H5) (rest : H5List) : H5List
end

def zgroupB : Bytes := strB ".zgroup"

def zattrsB : Bytes := strB ".zattrs"

def zarrayB : Bytes := strB ".zarray"

def chunk0B : Bytes := strB "0"

/-- Standard Zarr v2 group metadata document. -/
def zgroupJson : Bytes := strB "\x7b\"zarr_format\": 2\x7d"

/-- Zarr v2 array metadata for a one-chunk dataset of `sz` bytes. -/
def zarrayJson (sz : Nat) : Bytes :=
  strB "\x7b\"zarr_format\": 2, \"shape\": [" ++ strB (toString sz) ++
    strB "]\x7d"

mutual
/-- Modelled from the spec (§4.3): translate one HDF5 node rooted at key
prefix `p` into RFS pairs.  A group emits `.zgroup` and `.zattrs`, then
its children depth-first with children visited in lexicographic name
order; a dataset emits `.zarray` and one chunk reference
`[url, off, sz]` keyed `0`. -/
def transH (url p : Bytes) : H5 → List (Bytes × RefValue)
  | .dataset off sz =>
      [(p ++ zarrayB, .inline (zarrayJson sz)),
        (p ++ chunk0B, .external url off sz)]
  | .group a cs =>
      (p ++ zgroupB, .inline zgroupJson) :: (p ++ zattrsB, .inline a) ::
        (sortBy Prod.fst (transL url p cs)).flatMap Prod.snd

/-- Translate each child to a `(name, entries)` pair; the entries are
computed at prefix `p ++ name ++ "/"`. -/
def transL (url p : Bytes) : H5List → List (Bytes × List (Bytes × RefValue))
  | .nil => []
  | .cons n h rest =>
      (n, transH url (p ++ n ++ [47]) h) :: transL url p rest
end

/-- Rebuild a children list from name/child pairs. -/
def ofPairs : List (Bytes × H5) → H5List
  | [] => .nil
  | c :: cs => .cons c.1 c.2 (ofPairs cs)

mutual
/-- The canonical presentation of an HDF5 tree: children sorted by name
at every level.  Two in-memory presentations of the same file (which
may enumerate group children in different orders) have the same
canonical form. -/
def canonH : H5 → H5
  | .dataset off sz => .dataset off sz
  | .group a cs => .group a (ofPairs (sortBy Prod.fst (canonL cs)))

/-- Canonicalize each child, keeping iteration order. -/
def canonL : H5List → List (Bytes × H5)
  | .nil => []
  | .cons n h rest => (n, canonH h) :: canonL rest
end

theorem transL_ofPairs (url p : Bytes) (M : List (Bytes × H5)) :
    transL url p (ofPairs M) =
      M.map fun c => (c.1, transH url (p ++ c.1 ++ [47]) c.2) := by
  induction M with
  | nil => rfl
  | cons c cs ih => simp [ofPairs, transL, ih]

/-- Membership of a named child in a children list. -/
def childMem (n : Bytes) (h : H5) : H5List → Prop
  | .nil => False
  | .cons m h2 rest => (n = m ∧ h = h2) ∨ childMem n h rest

theorem sizeOf_childMem {n : Bytes} {h : H5} :
    ∀ (cs : H5List), childMem n h cs → sizeOf h < sizeOf cs
  | .nil, hc => absurd hc id
  | .cons m h2 rest, hc => by
      rcases hc with ⟨-, rfl⟩ | hc
      · simp [H5List.cons.sizeOf_spec]
        omega
      · have := sizeOf_childMem rest hc
        simp [H5List.cons.sizeOf_spec]
        omega

theorem mem_transL {url p : Bytes} :
    ∀ (cs : H5List) {pr : Bytes × List (Bytes × RefValue)},
      pr ∈ transL url p cs →
      ∃ h2, childMem pr.1 h2 cs ∧
        pr.2 = transH url (p ++ pr.1 ++ [47]) h2
  | .nil, pr, hpr => by simp [transL] at hpr
  | .cons n h rest, pr, hpr => by
      rcases List.mem_cons.mp hpr with hpr2 | hpr2
      · subst hpr2
        exact ⟨h, Or.inl ⟨rfl, rfl⟩, rfl⟩
      · obtain ⟨h2, hm, he⟩ := mem_transL rest hpr2
        exact ⟨h2, Or.inr hm, he⟩

/-- The names of a children list, in order. -/
def namesL : H5List → List Bytes
  | .nil => []
  | .cons n _ rest => n :: namesL rest

theorem namesL_transL (url p : Bytes) :
    ∀ (cs : H5List), (transL url p cs).map Prod.fst = namesL cs
  | .nil => rfl
  | .cons n h rest => by
      simp only [transL, List.map_cons, namesL, namesL_transL url p rest]

theorem canonL_map_of (url p : Bytes) :
    ∀ (cs : H5List),
      (∀ n h2, childMem n h2 cs →
        transH url (p ++ n ++ [47]) (canonH h2) =
          transH url (p ++ n ++ [47]) h2) →
      (canonL cs).map (fun c => (c.1, transH url (p ++ c.1 ++ [47]) c.2)) =
        transL url p cs
  | .nil, _ => rfl
  | .cons n h rest, IH => by
      simp only [canonL, List.map_cons, transL]
      rw [IH n h (Or.inl ⟨rfl, rfl⟩),
        canonL_map_of url p rest (fun m h2 hm => IH m h2 (Or.inr hm))]

theorem transH_canonH_fuel (url : Bytes) :
    ∀ (fuel : Nat) (h : H5), sizeOf h ≤ fuel →
      ∀ p, transH url p (canonH h) = transH url p h := by
  intro fuel
  induction fuel with
  | zero =>
      intro h hle p
      exfalso
      cases h with
      | dataset off sz =>
          simp only [H5.dataset.sizeOf_spec] at hle
          omega
      | group a cs =>
          simp only [H5.group.sizeOf_spec] at hle
          omega
  | succ fuel ih =>
      intro h hle p
      cases h with
      | dataset off sz => rfl
      | group a cs =>
          rw [show canonH (.group a cs) =
            H5.group a (ofPairs (sortBy Prod.fst (canonL cs))) from rfl]
          rw [show transH url p
              (H5.group a (ofPairs (sortBy Prod.fst (canonL cs)))) =
            (p ++ zgroupB, .inline zgroupJson) ::
              (p ++ zattrsB, .inline a) ::
              (sortBy Prod.fst (transL url p
                (ofPairs (sortBy Prod.fst (canonL cs))))).flatMap Prod.snd
            from rfl]
          rw [show transH url p (H5.group a cs) =
            (p ++ zgroupB, .inline zgroupJson) ::
              (p ++ zattrsB, .inline a) ::
              (sortBy Prod.fst (transL url p cs)).flatMap Prod.snd from rfl]
          have hmap : transL url p (ofPairs (sortBy Prod.fst (canonL cs))) =
              (sortBy Prod.fst (canonL cs)).map
                fun c => (c.1, transH url (p ++ c.1 ++ [47]) c.2) :=
            transL_ofPairs url p _
          rw [hmap]
          rw [sortBy_map Prod.fst Prod.fst
            (fun c => (c.1, transH url (p ++ c.1 ++ [47]) c.2))
            (fun c => rfl)]
          rw [sortBy_sorted_id (sortBy_sorted Prod.fst (canonL cs))]
          rw [← sortBy_map Prod.fst Prod.fst
            (fun c => (c.1, transH url (p ++ c.1 ++ [47]) c.2))
            (fun c => rfl)]
          have hper : (canonL cs).map
              (fun c => (c.1, transH url (p ++ c.1 ++ [47]) c.2)) =
              transL url p cs := by
            refine canonL_map_of url p cs fun n h2 hm => ?_
            refine ih h2 ?_ (p ++ n ++ [47])
            have h1 := sizeOf_childMem cs hm
            simp only [H5.group.sizeOf_spec] at hle
            omega
          rw [hper]

/-- Translating a tree and translating its canonical presentation give
identical RFS pairs. -/
theorem transH_canon (url p : Bytes) (h : H5) :
    transH url p (canonH h) = transH url p h :=
  transH_canonH_fuel url (sizeOf h) h le_rfl p

/-- The translator entry point (spec §6): the RFS produced from an HDF5
tree, references pointing at `url`. -/
def translateHdf5 (url : Bytes) (h : H5) : RFS :=
  ⟨1, transH url [] h⟩

/-- Sort the `refs` pairs by key (spec §9: emit keys in lexicographic
order when serializing). -/
def sortedRefs (R : RFS) : List (Bytes × RefValue) :=
  sortBy Prod.fst R.refs

/-- Serialize an RFS with its keys emitted in lexicographic order. -/
def serializeRfsSorted (R : RFS) : Bytes :=
  writeJson ⟨R.version, sortedRefs R⟩

/-! ## The translated store as a Zarr v2 store (spec §1, §4.1, §4.6) -/

/-- The key prefix of a node reached through the group names `segs`:
each name followed by a slash. -/
def pathPrefix (segs : List Bytes) : Bytes :=
  (segs.map fun n => n ++ [47]).flatten

/-- A valid Zarr node name: nonempty and slash-free. -/
def nameOk (n : Bytes) : Bool := !n.isEmpty && !(n.contains 47)

/-- No duplicates, as a boolean. -/
def distinctB : List Bytes → Bool
  | [] => true
  | x :: xs => !(xs.contains x) && distinctB xs

mutual
/-- Modelled from the spec: well-formedness of an HDF5 tree as the
translator assumes it — valid distinct child names at every group, and
positive chunk sizes (spec §3: `size > 0`). -/
def h5Ok : H5 → Bool
  | .dataset _ sz => decide (0 < sz)
  | .group _ cs => distinctB (namesL cs) && h5OkL cs

/-- Well-formedness of a children list. -/
def h5OkL : H5List → Bool
  | .nil => true
  | .cons n h rest => nameOk n && h5Ok h && h5OkL rest
end

/-- Look up a named child. -/
def findChildL (n : Bytes) : H5List → Option H5
  | .nil => none
  | .cons m h rest => if m == n then some h else findChildL n rest

/-- Navigate an HDF5 tree along group names (the LINDI client's view of
the hierarchy). -/
def treeAt : H5 → List Bytes → Option H5
  | h, [] => some h
  | .dataset _ _, _ :: _ => none
  | .group _ cs, n :: rest => (findChildL n cs).bind fun h2 => treeAt h2 rest

/-- The direct RFS entries of one node at key prefix `q` (the non-child
part of its translation). -/
def nodeEntries (url q : Bytes) : H5 → List (Bytes × RefValue)
  | .dataset off sz =>
      [(q ++ zarrayB, .inline (zarrayJson sz)),
        (q ++ chunk0B, .external url off sz)]
  | .group a _ =>
      [(q ++ zgroupB, .inline zgroupJson), (q ++ zattrsB, .inline a)]

/-- The LINDI client's read of a group's attributes at path `segs`. -/
def clientAttrs (h : H5) (segs : List Bytes) : Option Bytes :=
  (treeAt h segs).bind fun node =>
    match node with
    | .group a _ => some a
    | .dataset _ _ => none

/-- The LINDI client's read of a dataset's chunk location at `segs`. -/
def clientChunk (h : H5) (segs : List Bytes) : Option (Nat × Nat) :=
  (treeAt h segs).bind fun node =>
    match node with
    | .dataset off sz => some (off, sz)
    | .group _ _ => none

/-- A standard Zarr v2 reader's view of the attributes of node `segs`:
a plain key/value read of `segs/.zattrs` against the RFS surface. -/
def zarrApiAttrs (refs : List (Bytes × RefValue)) (segs : List Bytes) :
    Option Bytes :=
  match lookupKey refs (pathPrefix segs ++ zattrsB) with
  | some (.inline s) => some s
  | _ => none

/-- A standard Zarr v2 reader's view of the chunk of dataset `segs`: a
plain key/value read of `segs/0` against the RFS surface, expecting an
external reference into `url`. -/
def zarrApiChunk (url : Bytes) (refs : List (Bytes × RefValue))
    (segs : List Bytes) : Option (Nat × Nat) :=
  match lookupKey refs (pathPrefix segs ++ chunk0B) with
  | some (.external u off sz) => if u == url then some (off, sz) else none
  | _ => none

/-- Split a key at slashes. -/
def splitSlash : Bytes → List Bytes
  | [] => [[]]
  | c :: rest =>
      if c = 47 then [] :: splitSlash rest
      else
        match splitSlash rest with
        | [] => [[c]]
        | s :: ss => (c :: s) :: ss

/-- Zarr v2 metadata document names. -/
def metaNameB (s : Bytes) : Bool :=
  s == zgroupB || s == zattrsB || s == zarrayB

/-- A Zarr v2 chunk key segment: dot-separated decimal indices. -/
def chunkSegB (s : Bytes) : Bool :=
  !s.isEmpty && s.all fun c => (decide (48 ≤ c) && decide (c ≤ 57)) ||
    decide (c = 46)

/-- Zarr v2 key validity (shallow): slash-delimited nonempty segments
whose last segment is a metadata document name or a chunk index. -/
def zarrKeyOk (k : Bytes) : Bool :=
  (splitSlash k).all (fun s => !s.isEmpty) &&
    (match (splitSlash k).getLast? with
     | some s => metaNameB s || chunkSegB s
     | none => false)

/-- Zarr v2 key/value shape validity of one translated RFS pair: a valid
key, and a value whose shape matches the key kind — inline JSON under a
metadata key, a positive-size reference into the source file under a
chunk key. -/
def zarrPairOk (url : Bytes) (kv : Bytes × RefValue) : Bool :=
  zarrKeyOk kv.1 &&
    (match kv.2 with
     | .inline _ =>
         (match (splitSlash kv.1).getLast? with
          | some s => metaNameB s
          | none => false)
     | .external u _ sz => u == url && decide (0 < sz)
     | .inlineB64 _ => false)

theorem pathPrefix_nil : pathPrefix [] = [] := rfl

theorem pathPrefix_cons (n : Bytes) (l : List Bytes) :
    pathPrefix (n :: l) = n ++ 47 :: pathPrefix l := by
  simp [pathPrefix]

theorem pathPrefix_append (l1 l2 : List Bytes) :
    pathPrefix (l1 ++ l2) = pathPrefix l1 ++ pathPrefix l2 := by
  simp [pathPrefix]

theorem splitSlash_seg {n : Bytes} (h : 47 ∉ n) (rest : Bytes) :
    splitSlash (n ++ 47 :: rest) = n :: splitSlash rest := by
  induction n with
  | nil => simp [splitSlash]
  | cons a as ih =>
      have ha : a ≠ 47 := fun he => h (he ▸ List.mem_cons_self a as)
      have has : 47 ∉ as := fun hm => h (List.mem_cons_of_mem a hm)
      simp only [List.cons_append, splitSlash, if_neg ha, List.append_eq,
        ih has]

theorem splitSlash_no47 {s : Bytes} (h : 47 ∉ s) : splitSlash s = [s] := by
  induction s with
  | nil => rfl
  | cons a as ih =>
      have ha : a ≠ 47 := fun he => h (he ▸ List.mem_cons_self a as)
      have has : 47 ∉ as := fun hm => h (List.mem_cons_of_mem a hm)
      simp only [splitSlash, if_neg ha, ih has]

theorem splitSlash_pathPrefix {segs : List Bytes} {leaf : Bytes}
    (hsegs : ∀ n ∈ segs, 47 ∉ n) (hleaf : 47 ∉ leaf) :
    splitSlash (pathPrefix segs ++ leaf) = segs ++ [leaf] := by
  induction segs with
  | nil => simpa [pathPrefix] using splitSlash_no47 hleaf
  | cons n rest ih =>
      rw [pathPrefix_cons, List.append_assoc, List.cons_append,
        splitSlash_seg (hsegs n (by simp)),
        ih fun m hm => hsegs m (List.mem_cons_of_mem n hm)]
      rfl

theorem nameOk_elim {n : Bytes} (h : nameOk n = true) :
    n ≠ [] ∧ 47 ∉ n := by
  simp only [nameOk, Bool.and_eq_true, Bool.not_eq_true'] at h
  obtain ⟨h1, h2⟩ := h
  constructor
  · intro he
    subst he
    simp [List.isEmpty] at h1
  · intro hm
    simp at h2
    exact h2 hm

theorem lookupKey_append_left {l1 l2 : List (Bytes × RefValue)} {k : Bytes}
    {v : RefValue} (h : lookupKey l1 k = some v) :
    lookupKey (l1 ++ l2) k = some v := by
  induction l1 with
  | nil => simp [lookupKey, List.find?] at h
  | cons pr t ih =>
      obtain ⟨k0, v0⟩ := pr
      cases hb : (k0 == k) with
      | true =>
          rw [lookupKey_cons_pos hb] at h
          rw [List.cons_append, lookupKey_cons_pos hb]
          exact h
      | false =>
          rw [lookupKey_cons_neg hb] at h
          rw [List.cons_append, lookupKey_cons_neg hb]
          exact ih h

theorem lookupKey_append_right {l1 l2 : List (Bytes × RefValue)} {k : Bytes}
    (h : lookupKey l1 k = none) :
    lookupKey (l1 ++ l2) k = lookupKey l2 k := by
  induction l1 with
  | nil => rfl
  | cons pr t ih =>
      obtain ⟨k0, v0⟩ := pr
      cases hb : (k0 == k) with
      | true =>
          rw [lookupKey_cons_pos hb] at h
          exact absurd h (by simp)
      | false =>
          rw [lookupKey_cons_neg hb] at h
          rw [List.cons_append, lookupKey_cons_neg hb]
          exact ih h

theorem lookupKey_eq_none {l : List (Bytes × RefValue)} {k : Bytes}
    (h : ∀ pr ∈ l, pr.1 ≠ k) : lookupKey l k = none := by
  induction l with
  | nil => rfl
  | cons pr t ih =>
      obtain ⟨k0, v0⟩ := pr
      have hb : (k0 == k) = false := by
        simpa using h (k0, v0) (by simp)
      rw [lookupKey_cons_neg hb]
      exact ih fun q hq => h q (List.mem_cons_of_mem (k0, v0) hq)

theorem h5OkL_elim {n : Bytes} {h2 : H5} :
    ∀ (cs : H5List), h5OkL cs = true → childMem n h2 cs →
      nameOk n = true ∧ h5Ok h2 = true
  | .cons m h rest, hok, hm => by
      simp only [h5OkL, Bool.and_eq_true] at hok
      obtain ⟨⟨h1, h2ok⟩, h3⟩ := hok
      rcases hm with ⟨rfl, rfl⟩ | hm
      · exact ⟨h1, h2ok⟩
      · exact h5OkL_elim rest h3 hm

theorem childMem_name_mem {n : Bytes} {h2 : H5} :
    ∀ (cs : H5List), childMem n h2 cs → n ∈ namesL cs
  | .cons m h rest, hm => by
      rcases hm with ⟨rfl, rfl⟩ | hm
      · simp [namesL]
      · exact List.mem_cons_of_mem m (childMem_name_mem rest hm)

theorem findChildL_some {n : Bytes} {h2 : H5} :
    ∀ (cs : H5List), findChildL n cs = some h2 → childMem n h2 cs
  | .nil, hf => by simp [findChildL] at hf
  | .cons m h rest, hf => by
      by_cases hb : (m == n) = true
      · rw [show findChildL n (.cons m h rest) =
          (if m == n then some h else findChildL n rest) from rfl,
          if_pos hb] at hf
        injection hf with hf
        exact Or.inl ⟨(beq_iff_eq.mp hb).symm, hf.symm⟩
      · rw [show findChildL n (.cons m h rest) =
          (if m == n then some h else findChildL n rest) from rfl,
          if_neg hb] at hf
        exact Or.inr (findChildL_some rest hf)

theorem findChildL_none {n : Bytes} :
    ∀ (cs : H5List), findChildL n cs = none → n ∉ namesL cs
  | .nil, _ => by simp [namesL]
  | .cons m h rest, hf => by
      by_cases hb : (m == n) = true
      · rw [show findChildL n (.cons m h rest) =
          (if m == n then some h else findChildL n rest) from rfl,
          if_pos hb] at hf
        exact absurd hf (by simp)
      · rw [show findChildL n (.cons m h rest) =
          (if m == n then some h else findChildL n rest) from rfl,
          if_neg hb] at hf
        intro hmem
        rcases List.mem_cons.mp hmem with rfl | hmem
        · exact hb (beq_self_eq_true n)
        · exact findChildL_none rest hf hmem

theorem childMem_mem_transL {url q : Bytes} {n : Bytes} {h2 : H5} :
    ∀ (cs : H5List), childMem n h2 cs →
      (n, transH url (q ++ n ++ [47]) h2) ∈ transL url q cs
  | .cons m h rest, hm => by
      rcases hm with ⟨rfl, rfl⟩ | hm
      · simp [transL]
      · exact List.mem_cons_of_mem _ (childMem_mem_transL rest hm)

theorem distinctB_nodup : ∀ {l : List Bytes}, distinctB l = true → l.Nodup := by
  intro l
  induction l with
  | nil => intro _; exact List.nodup_nil
  | cons x xs ih =>
      intro h
      simp only [distinctB, Bool.and_eq_true, Bool.not_eq_true'] at h
      obtain ⟨h1, h2⟩ := h
      refine List.nodup_cons.mpr ⟨?_, ih h2⟩
      intro hmem
      simp at h1
      exact h1 hmem

theorem slashfree_inj {m n t2 t : Bytes} (hm : 47 ∉ m) (hn : 47 ∉ n)
    (h : m ++ 47 :: t2 = n ++ 47 :: t) : m = n ∧ t2 = t := by
  induction m generalizing n with
  | nil =>
      cases n with
      | nil =>
          simp at h
          exact ⟨rfl, h⟩
      | cons b bs =>
          simp only [List.nil_append, List.cons_append, List.cons.injEq] at h
          exact absurd (h.1 ▸ List.mem_cons_self b bs) hn
  | cons a as ih =>
      cases n with
      | nil =>
          simp only [List.cons_append, List.nil_append,
            List.cons.injEq] at h
          exact absurd (h.1 ▸ List.mem_cons_self a as) hm
      | cons b bs =>
          simp only [List.cons_append, List.cons.injEq] at h
          obtain ⟨rfl, h2⟩ := h
          have has : 47 ∉ as := fun hx => hm (List.mem_cons_of_mem a hx)
          have hbs : 47 ∉ bs := fun hx => hn (List.mem_cons_of_mem a hx)
          obtain ⟨rfl, rfl⟩ := ih has hbs h2
          exact ⟨rfl, rfl⟩

theorem lookupKey_flatMap_none
    {M : List (Bytes × List (Bytes × RefValue))} {K : Bytes}
    (h : ∀ pr ∈ M, lookupKey pr.2 K = none) :
    lookupKey (M.flatMap Prod.snd) K = none := by
  induction M with
  | nil => rfl
  | cons pr rest ih =>
      rw [List.flatMap_cons, lookupKey_append_right (h pr (by simp))]
      exact ih fun q hq => h q (List.mem_cons_of_mem pr hq)

theorem lookupKey_flatMap_blocks
    {M : List (Bytes × List (Bytes × RefValue))} {K n : Bytes}
    {es : List (Bytes × RefValue)}
    (hnd : (M.map Prod.fst).Nodup) (hmem : (n, es) ∈ M)
    (hmiss : ∀ pr ∈ M, pr.1 ≠ n → lookupKey pr.2 K = none) :
    lookupKey (M.flatMap Prod.snd) K = lookupKey es K := by
  induction M with
  | nil => simp at hmem
  | cons pr rest ih =>
      obtain ⟨m, es0⟩ := pr
      rw [List.map_cons, List.nodup_cons] at hnd
      obtain ⟨hm1, hm2⟩ := hnd
      by_cases he : m = n
      · subst he
        have hes : es0 = es := by
          rcases List.mem_cons.mp hmem with h1 | h1
          · exact (Prod.mk.injEq _ _ _ _ ▸ h1.symm).2
          · exact absurd (List.mem_map_of_mem Prod.fst h1) hm1
        subst hes
        rw [List.flatMap_cons]
        cases hk : lookupKey es0 K with
        | some v => exact lookupKey_append_left hk
        | none =>
            rw [lookupKey_append_right hk]
            refine lookupKey_flatMap_none fun q hq => ?_
            refine hmiss q (List.mem_cons_of_mem _ hq) ?_
            intro he2
            have hq3 : q.1 ∈ rest.map Prod.fst :=
              List.mem_map_of_mem Prod.fst hq
            rw [he2] at hq3
            exact hm1 hq3
      · have hmem2 : (n, es) ∈ rest := by
          rcases List.mem_cons.mp hmem with h1 | h1
          · exact absurd ((Prod.mk.injEq _ _ _ _ ▸ h1.symm).1) he
          · exact h1
        rw [List.flatMap_cons,
          lookupKey_append_right (hmiss (m, es0) (by simp) he)]
        exact ih hm2 hmem2 fun q hq hq2 =>
          hmiss q (List.mem_cons_of_mem _ hq) hq2

theorem transH_prefix (url : Bytes) :
    ∀ (fuel : Nat) (h : H5), sizeOf h ≤ fuel →
      ∀ (q : Bytes) (kv : Bytes × RefValue), kv ∈ transH url q h →
        ∃ t, kv.1 = q ++ t := by
  intro fuel
  induction fuel with
  | zero =>
      intro h hle
      exfalso
      cases h with
      | dataset off sz =>
          simp only [H5.dataset.sizeOf_spec] at hle
          omega
      | group a cs =>
          simp only [H5.group.sizeOf_spec] at hle
          omega
  | succ fuel ih =>
      intro h hle q kv hkv
      cases h with
      | dataset off sz =>
          rcases List.mem_cons.mp hkv with h1 | h1
          · exact ⟨zarrayB, by rw [h1]⟩
          · rcases List.mem_cons.mp h1 with h2 | h2
            · exact ⟨chunk0B, by rw [h2]⟩
            · simp at h2
      | group a cs =>
          rcases List.mem_cons.mp hkv with h1 | h1
          · exact ⟨zgroupB, by rw [h1]⟩
          · rcases List.mem_cons.mp h1 with h2 | h2
            · exact ⟨zattrsB, by rw [h2]⟩
            · obtain ⟨pr, hpr, hkv2⟩ := List.mem_flatMap.mp h2
              have hprt : pr ∈ transL url q cs :=
                (sortBy_perm Prod.fst _).mem_iff.mp hpr
              obtain ⟨h2t, hcm, hes⟩ := mem_transL _ hprt
              rw [hes] at hkv2
              have hsz : sizeOf h2t ≤ fuel := by
                have := sizeOf_childMem cs hcm
                simp only [H5.group.sizeOf_spec] at hle
                omega
              obtain ⟨t2, ht2⟩ := ih h2t hsz _ kv hkv2
              exact ⟨pr.1 ++ 47 :: t2, by
                rw [ht2]
                simp [List.append_assoc]⟩

theorem entry_miss {q X n t : Bytes} (hX : 47 ∉ X) :
    ¬ (q ++ X = q ++ (n ++ 47 :: t)) := by
  intro heq
  have h2 := List.append_cancel_left heq
  have h3 : (47 : Nat) ∈ X := by
    rw [h2]
    exact List.mem_append_right _ (List.mem_cons_self _ _)
  exact hX h3

/-- The store surface of a translated tree, read at the key of any node
path plus a leaf document name, equals the direct entry of the node the
LINDI client navigates to (or nothing, when no such node exists). -/
theorem lookup_transH_fuel (url : Bytes) :
    ∀ (fuel : Nat) (h : H5), sizeOf h ≤ fuel → h5Ok h = true →
      ∀ (ss segs : List Bytes) (leaf : Bytes),
        (∀ n ∈ segs, 47 ∉ n) → 47 ∉ leaf →
        lookupKey (transH url (pathPrefix ss) h)
            (pathPrefix (ss ++ segs) ++ leaf) =
          (treeAt h segs).bind fun node =>
            lookupKey (nodeEntries url (pathPrefix (ss ++ segs)) node)
              (pathPrefix (ss ++ segs) ++ leaf) := by
  intro fuel
  induction fuel with
  | zero =>
      intro h hle
      exfalso
      cases h with
      | dataset off sz =>
          simp only [H5.dataset.sizeOf_spec] at hle
          omega
      | group a cs =>
          simp only [H5.group.sizeOf_spec] at hle
          omega
  | succ fuel ih =>
      intro h hle hok ss segs leaf hsegs hleaf
      cases h with
      | dataset off sz =>
          cases segs with
          | nil =>
              simp only [List.append_nil]
              rw [show treeAt (H5.dataset off sz) [] =
                some (H5.dataset off sz) from rfl, Option.some_bind]
              rfl
          | cons n rest =>
              have hK : pathPrefix (ss ++ n :: rest) ++ leaf =
                  pathPrefix ss ++ (n ++ 47 :: (pathPrefix rest ++ leaf)) := by
                rw [pathPrefix_append, pathPrefix_cons]
                simp [List.append_assoc]
              rw [show treeAt (H5.dataset off sz) (n :: rest) =
                none from rfl, Option.none_bind]
              refine lookupKey_eq_none ?_
              intro pr hpr
              rcases List.mem_cons.mp hpr with h1 | h1
              · rw [h1, hK]
                exact entry_miss (by decide)
              · rcases List.mem_cons.mp h1 with h2 | h2
                · rw [h2, hK]
                  exact entry_miss (by decide)
                · simp at h2
      | group a cs =>
          simp only [h5Ok, Bool.and_eq_true] at hok
          obtain ⟨hdis, hokL⟩ := hok
          have hTH : transH url (pathPrefix ss) (H5.group a cs) =
              (pathPrefix ss ++ zgroupB, RefValue.inline zgroupJson) ::
              (pathPrefix ss ++ zattrsB, RefValue.inline a) ::
              (sortBy Prod.fst
                (transL url (pathPrefix ss) cs)).flatMap Prod.snd := rfl
          cases segs with
          | nil =>
              simp only [List.append_nil]
              rw [show treeAt (H5.group a cs) [] =
                some (H5.group a cs) from rfl, Option.some_bind]
              rw [show nodeEntries url (pathPrefix ss) (H5.group a cs) =
                [(pathPrefix ss ++ zgroupB, RefValue.inline zgroupJson),
                  (pathPrefix ss ++ zattrsB, RefValue.inline a)] from rfl]
              rw [hTH]
              cases hb1 : ((pathPrefix ss ++ zgroupB) ==
                  (pathPrefix ss ++ leaf)) with
              | true =>
                  rw [lookupKey_cons_pos hb1, lookupKey_cons_pos hb1]
              | false =>
                  rw [lookupKey_cons_neg hb1, lookupKey_cons_neg hb1]
                  cases hb2 : ((pathPrefix ss ++ zattrsB) ==
                      (pathPrefix ss ++ leaf)) with
                  | true =>
                      rw [lookupKey_cons_pos hb2, lookupKey_cons_pos hb2]
                  | false =>
                      rw [lookupKey_cons_neg hb2, lookupKey_cons_neg hb2]
                      rw [show lookupKey
                        ([] : List (Bytes × RefValue))
                        (pathPrefix ss ++ leaf) = none from rfl]
                      refine lookupKey_flatMap_none ?_
                      intro pr hpr
                      have hprt : pr ∈ transL url (pathPrefix ss) cs :=
                        (sortBy_perm Prod.fst _).mem_iff.mp hpr
                      obtain ⟨h2t, hcm2, hes⟩ := mem_transL _ hprt
                      have hsz2 : sizeOf h2t ≤ fuel := by
                        have := sizeOf_childMem cs hcm2
                        simp only [H5.group.sizeOf_spec] at hle
                        omega
                      rw [hes]
                      refine lookupKey_eq_none ?_
                      intro kv hkv
                      obtain ⟨t2, ht2⟩ :=
                        transH_prefix url fuel h2t hsz2 _ kv hkv
                      rw [ht2]
                      have hL : (pathPrefix ss ++ pr.1 ++ [47]) ++ t2 =
                          pathPrefix ss ++ (pr.1 ++ 47 :: t2) := by
                        simp [List.append_assoc]
                      rw [hL]
                      intro heq
                      have h3 := List.append_cancel_left heq
                      have h4 : (47 : Nat) ∈ leaf := by
                        rw [← h3]
                        exact List.mem_append_right _
                          (List.mem_cons_self _ _)
                      exact hleaf h4
          | cons n rest =>
              have hn47 : 47 ∉ n := hsegs n (by simp)
              have hK : pathPrefix (ss ++ n :: rest) ++ leaf =
                  pathPrefix ss ++ (n ++ 47 :: (pathPrefix rest ++ leaf)) := by
                rw [pathPrefix_append, pathPrefix_cons]
                simp [List.append_assoc]
              have hb1 : ((pathPrefix ss ++ zgroupB) ==
                  (pathPrefix (ss ++ n :: rest) ++ leaf)) = false := by
                refine beq_eq_false_iff_ne.mpr ?_
                rw [hK]
                exact entry_miss (by decide)
              have hb2 : ((pathPrefix ss ++ zattrsB) ==
                  (pathPrefix (ss ++ n :: rest) ++ leaf)) = false := by
                refine beq_eq_false_iff_ne.mpr ?_
                rw [hK]
                exact entry_miss (by decide)
              rw [hTH, lookupKey_cons_neg hb1, lookupKey_cons_neg hb2]
              rw [show treeAt (H5.group a cs) (n :: rest) =
                (findChildL n cs).bind (fun h2 => treeAt h2 rest) from rfl]
              have hmiss : ∀ pr ∈ sortBy Prod.fst
                  (transL url (pathPrefix ss) cs), pr.1 ≠ n →
                  lookupKey pr.2 (pathPrefix (ss ++ n :: rest) ++ leaf) =
                    none := by
                intro pr hpr hne
                have hprt : pr ∈ transL url (pathPrefix ss) cs :=
                  (sortBy_perm Prod.fst _).mem_iff.mp hpr
                obtain ⟨h2t, hcm2, hes⟩ := mem_transL _ hprt
                obtain ⟨hnm, -⟩ := h5OkL_elim cs hokL hcm2
                have hm47 : 47 ∉ pr.1 := (nameOk_elim hnm).2
                have hsz2 : sizeOf h2t ≤ fuel := by
                  have := sizeOf_childMem cs hcm2
                  simp only [H5.group.sizeOf_spec] at hle
                  omega
                rw [hes]
                refine lookupKey_eq_none ?_
                intro kv hkv
                obtain ⟨t2, ht2⟩ := transH_prefix url fuel h2t hsz2 _ kv hkv
                rw [ht2, hK]
                have hL : (pathPrefix ss ++ pr.1 ++ [47]) ++ t2 =
                    pathPrefix ss ++ (pr.1 ++ 47 :: t2) := by
                  simp [List.append_assoc]
                rw [hL]
                intro heq
                have h3 := List.append_cancel_left heq
                exact hne (slashfree_inj hm47 hn47 h3).1
              cases hf : findChildL n cs with
              | none =>
                  rw [Option.none_bind, Option.none_bind]
                  have hnmem := findChildL_none cs hf
                  refine lookupKey_flatMap_none ?_
                  intro pr hpr
                  refine hmiss pr hpr ?_
                  intro he
                  have hprt : pr ∈ transL url (pathPrefix ss) cs :=
                    (sortBy_perm Prod.fst _).mem_iff.mp hpr
                  obtain ⟨h2t, hcm2, -⟩ := mem_transL _ hprt
                  rw [he] at hcm2
                  exact hnmem (childMem_name_mem cs hcm2)
              | some h2 =>
                  rw [Option.some_bind]
                  have hcm := findChildL_some cs hf
                  obtain ⟨hnm, hok2⟩ := h5OkL_elim cs hokL hcm
                  have hsz2 : sizeOf h2 ≤ fuel := by
                    have := sizeOf_childMem cs hcm
                    simp only [H5.group.sizeOf_spec] at hle
                    omega
                  have hperm : ((sortBy Prod.fst
                      (transL url (pathPrefix ss) cs)).map Prod.fst).Perm
                      ((transL url (pathPrefix ss) cs).map Prod.fst) :=
                    (sortBy_perm Prod.fst _).map Prod.fst
                  have hnd : ((sortBy Prod.fst
                      (transL url (pathPrefix ss) cs)).map
                        Prod.fst).Nodup := by
                    refine hperm.nodup_iff.mpr ?_
                    rw [namesL_transL]
                    exact distinctB_nodup hdis
                  have hmem : (n, transH url
                      (pathPrefix ss ++ n ++ [47]) h2) ∈
                      sortBy Prod.fst (transL url (pathPrefix ss) cs) :=
                    (sortBy_perm Prod.fst _).mem_iff.mpr
                      (childMem_mem_transL cs hcm)
                  rw [lookupKey_flatMap_blocks hnd hmem hmiss]
                  have hIH := ih h2 hsz2 hok2 (ss ++ [n]) rest leaf
                    (fun m hm => hsegs m (List.mem_cons_of_mem n hm)) hleaf
                  have hp1 : pathPrefix (ss ++ [n]) =
                      pathPrefix ss ++ n ++ [47] := by
                    rw [pathPrefix_append]
                    simp [pathPrefix, List.append_assoc]
                  have hp2 : (ss ++ [n]) ++ rest = ss ++ n :: rest := by
                    simp
                  rw [hp1, hp2] at hIH
                  exact hIH

theorem beq_append_left_ne {q X Y : Bytes} (h : X ≠ Y) :
    ((q ++ X) == (q ++ Y)) = false :=
  beq_eq_false_iff_ne.mpr fun heq => h (List.append_cancel_left heq)

/-- Reading `segs/.zattrs` through the plain Zarr v2 key/value surface
of a translated store agrees with the LINDI client's navigation. -/
theorem zarrApiAttrs_correct {h : H5} (hok : h5Ok h = true)
    (url : Bytes) {segs : List Bytes} (hsegs : ∀ n ∈ segs, 47 ∉ n) :
    zarrApiAttrs (transH url [] h) segs = clientAttrs h segs := by
  have hm := lookup_transH_fuel url (sizeOf h) h le_rfl hok [] segs
    zattrsB hsegs (by decide)
  simp only [show pathPrefix [] = ([] : Bytes) from rfl,
    List.nil_append] at hm
  unfold zarrApiAttrs clientAttrs
  rw [hm]
  cases treeAt h segs with
  | none => rfl
  | some node =>
      rw [Option.some_bind, Option.some_bind]
      cases node with
      | group a cs =>
          rw [show nodeEntries url (pathPrefix segs) (H5.group a cs) =
            [(pathPrefix segs ++ zgroupB, RefValue.inline zgroupJson),
              (pathPrefix segs ++ zattrsB, RefValue.inline a)] from rfl]
          rw [lookupKey_cons_neg (beq_append_left_ne (by decide)),
            lookupKey_cons_pos (beq_self_eq_true _)]
      | dataset off sz =>
          rw [show nodeEntries url (pathPrefix segs) (H5.dataset off sz) =
            [(pathPrefix segs ++ zarrayB, RefValue.inline (zarrayJson sz)),
              (pathPrefix segs ++ chunk0B,
                RefValue.external url off sz)] from rfl]
          rw [lookupKey_cons_neg (beq_append_left_ne (by decide)),
            lookupKey_cons_neg (beq_append_left_ne (by decide))]
          rfl

/-- Reading chunk key `segs/0` through the plain Zarr v2 key/value
surface of a translated store agrees with the LINDI client. -/
theorem zarrApiChunk_correct {h : H5} (hok : h5Ok h = true)
    (url : Bytes) {segs : List Bytes} (hsegs : ∀ n ∈ segs, 47 ∉ n) :
    zarrApiChunk url (transH url [] h) segs = clientChunk h segs := by
  have hm := lookup_transH_fuel url (sizeOf h) h le_rfl hok [] segs
    chunk0B hsegs (by decide)
  simp only [show pathPrefix [] = ([] : Bytes) from rfl,
    List.nil_append] at hm
  unfold zarrApiChunk clientChunk
  rw [hm]
  cases treeAt h segs with
  | none => rfl
  | some node =>
      rw [Option.some_bind, Option.some_bind]
      cases node with
      | group a cs =>
          rw [show nodeEntries url (pathPrefix segs) (H5.group a cs) =
            [(pathPrefix segs ++ zgroupB, RefValue.inline zgroupJson),
              (pathPrefix segs ++ zattrsB, RefValue.inline a)] from rfl]
          rw [lookupKey_cons_neg (beq_append_left_ne (by decide)),
            lookupKey_cons_neg (beq_append_left_ne (by decide))]
          rfl
      | dataset off sz =>
          rw [show nodeEntries url (pathPrefix segs) (H5.dataset off sz) =
            [(pathPrefix segs ++ zarrayB, RefValue.inline (zarrayJson sz)),
              (pathPrefix segs ++ chunk0B,
                RefValue.external url off sz)] from rfl]
          rw [lookupKey_cons_neg (beq_append_left_ne (by decide)),
            lookupKey_cons_pos (beq_self_eq_true _)]
          show (if (url == url) = true then some (off, sz) else none) =
            some (off, sz)
          rw [if_pos (beq_self_eq_true url)]

theorem getLast?_append_singleton {α : Type} (l : List α) (a : α) :
    (l ++ [a]).getLast? = some a := List.getLast?_concat l

/-- Every translated pair is a direct entry of some node reached through
valid names. -/
theorem transH_shape_fuel (url : Bytes) :
    ∀ (fuel : Nat) (h : H5), sizeOf h ≤ fuel → h5Ok h = true →
      ∀ (ss : List Bytes) (kv : Bytes × RefValue),
        kv ∈ transH url (pathPrefix ss) h →
        ∃ segs node, (∀ n ∈ segs, nameOk n = true) ∧ h5Ok node = true ∧
          kv ∈ nodeEntries url (pathPrefix (ss ++ segs)) node := by
  intro fuel
  induction fuel with
  | zero =>
      intro h hle
      exfalso
      cases h with
      | dataset off sz =>
          simp only [H5.dataset.sizeOf_spec] at hle
          omega
      | group a cs =>
          simp only [H5.group.sizeOf_spec] at hle
          omega
  | succ fuel ih =>
      intro h hle hok ss kv hkv
      cases h with
      | dataset off sz =>
          refine ⟨[], H5.dataset off sz, by simp, hok, ?_⟩
          rw [List.append_nil]
          exact hkv
      | group a cs =>
          have hokg := hok
          simp only [h5Ok, Bool.and_eq_true] at hokg
          obtain ⟨hdis, hokL⟩ := hokg
          rcases List.mem_cons.mp hkv with h1 | h1
          · refine ⟨[], H5.group a cs, by simp, hok, ?_⟩
            rw [List.append_nil, h1]
            exact List.mem_cons_self _ _
          · rcases List.mem_cons.mp h1 with h2 | h2
            · refine ⟨[], H5.group a cs, by simp, hok, ?_⟩
              rw [List.append_nil, h2]
              exact List.mem_cons_of_mem _ (List.mem_cons_self _ _)
            · obtain ⟨pr, hpr, hkv2⟩ := List.mem_flatMap.mp h2
              have hprt : pr ∈ transL url (pathPrefix ss) cs :=
                (sortBy_perm Prod.fst _).mem_iff.mp hpr
              obtain ⟨h2t, hcm, hes⟩ := mem_transL _ hprt
              obtain ⟨hnm, hok2⟩ := h5OkL_elim cs hokL hcm
              have hsz : sizeOf h2t ≤ fuel := by
                have := sizeOf_childMem cs hcm
                simp only [H5.group.sizeOf_spec] at hle
                omega
              rw [hes] at hkv2
              have hp1 : pathPrefix ss ++ pr.1 ++ [47] =
                  pathPrefix (ss ++ [pr.1]) := by
                rw [pathPrefix_append]
                simp [pathPrefix, List.append_assoc]
              rw [hp1] at hkv2
              obtain ⟨segs, node, hn, hnode, hmem⟩ :=
                ih h2t hsz hok2 (ss ++ [pr.1]) kv hkv2
              refine ⟨pr.1 :: segs, node, ?_, hnode, ?_⟩
              · intro m hm
                rcases List.mem_cons.mp hm with rfl | hm
                · exact hnm
                · exact hn m hm
              · rw [show ss ++ pr.1 :: segs = (ss ++ [pr.1]) ++ segs by simp]
                exact hmem

/-- The direct entries of a well-formed node at a valid path are valid
Zarr v2 key/value pairs. -/
theorem zarrPairOk_nodeEntries {url : Bytes} {segs : List Bytes}
    {node : H5} (hnames : ∀ n ∈ segs, nameOk n = true)
    (hnode : h5Ok node = true) {kv : Bytes × RefValue}
    (hkv : kv ∈ nodeEntries url (pathPrefix segs) node) :
    zarrPairOk url kv = true := by
  have hsl : ∀ n ∈ segs, 47 ∉ n := fun n hn => (nameOk_elim (hnames n hn)).2
  have hall : ∀ leaf : Bytes, 47 ∉ leaf → ¬leaf.isEmpty →
      (splitSlash (pathPrefix segs ++ leaf)).all
        (fun s => !s.isEmpty) = true := by
    intro leaf h47 hne
    rw [splitSlash_pathPrefix hsl h47]
    rw [List.all_append, Bool.and_eq_true]
    refine ⟨?_, ?_⟩
    · rw [List.all_eq_true]
      intro s hs
      have := hnames s hs
      simp only [nameOk, Bool.and_eq_true] at this
      exact this.1
    · simp only [List.all_cons, List.all_nil, Bool.and_true]
      simpa using hne
  have hlast : ∀ leaf : Bytes, 47 ∉ leaf →
      (splitSlash (pathPrefix segs ++ leaf)).getLast? = some leaf := by
    intro leaf h47
    rw [splitSlash_pathPrefix hsl h47]
    exact getLast?_append_singleton segs leaf
  cases node with
  | group a cs =>
      rcases List.mem_cons.mp hkv with h1 | h1
      · subst h1
        simp only [zarrPairOk, zarrKeyOk,
          hall zgroupB (by decide) (by decide),
          hlast zgroupB (by decide)]
        decide
      · rcases List.mem_cons.mp h1 with h2 | h2
        · subst h2
          simp only [zarrPairOk, zarrKeyOk,
            hall zattrsB (by decide) (by decide),
            hlast zattrsB (by decide)]
          decide
        · simp at h2
  | dataset off sz =>
      have hsz : 0 < sz := by
        simpa [h5Ok] using hnode
      rcases List.mem_cons.mp hkv with h1 | h1
      · subst h1
        simp only [zarrPairOk, zarrKeyOk,
          hall zarrayB (by decide) (by decide),
          hlast zarrayB (by decide)]
        decide
      · rcases List.mem_cons.mp h1 with h2 | h2
        · subst h2
          simp only [zarrPairOk, zarrKeyOk,
            hall chunk0B (by decide) (by decide),
            hlast chunk0B (by decide), beq_self_eq_true, decide_eq_true hsz]
          decide
        · simp at h2

/-- Every pair of a translated store is a valid Zarr v2 key/value pair. -/
theorem transH_zarrPairOk {url : Bytes} {h : H5} (hok : h5Ok h = true)
    {kv : Bytes × RefValue} (hkv : kv ∈ transH url [] h) :
    zarrPairOk url kv = true := by
  have hkv2 : kv ∈ transH url (pathPrefix []) h := hkv
  obtain ⟨segs, node, hn, hnode, hmem⟩ :=
    transH_shape_fuel url (sizeOf h) h le_rfl hok [] kv hkv2
  rw [List.nil_append] at hmem
  exact zarrPairOk_nodeEntries hn hnode hmem

/-! ## Object references: `_REFERENCE` values
(docs/special_zarr_annotations.md; spec §3) -/

/-- A `_REFERENCE` value: `source`, `path` to the target object inside
the store named by `source`, and the two object-id cross-checks. -/
structure RefAnn where
  source : Bytes
  path : Bytes
  objectId : Bytes
  sourceObjectId : Bytes
  deriving Repr, DecidableEq

/-- The reserved same-store source marker ".". -/
def dotB : Bytes := strB "."

/-- Modelled from the spec: the library constructs every `_REFERENCE`
value it writes with `source` equal to "." (the same Zarr store). -/
def mkReference (p oid soid : Bytes) : RefAnn := ⟨dotB, p, oid, soid⟩

/-- Modelled from the spec: a reader accepts a `_REFERENCE` value only
when its `source` is the same-store marker ".". -/
def acceptReference (r : RefAnn) : Bool := r.source == dotB

/-- Resolution of a `_REFERENCE`: an accepted reference is resolved by
`path` against the same logical store; anything else is rejected. -/
def resolveReference (L : LStore) (r : RefAnn) : Option (Option Bytes) :=
  if acceptReference r then some (logicalGet L r.path) else none

/-- A value as the attribute/dataset-element converter sees it: plain
bytes, or an HDF5 object reference to a target path. `_REFERENCE`
values appear both as attribute values and as dataset elements; both go
through this conversion. -/
inductive H5Attr where
  | raw (b : Bytes)
  | objRef (path oid soid : Bytes)
  deriving Repr, DecidableEq

/-- Modelled from the spec: value conversion — object references become
`_REFERENCE` values via `mkReference`, plain values pass through. -/
def convertAttr : H5Attr → Bytes ⊕ RefAnn
  | .raw b => .inl b
  | .objRef p oid soid => .inr (mkReference p oid soid)

/-! ## Claim theorems -/

/-- C1: Equivalence across on-disk formats — for one logical LINDI store
serialized to each of the three formats (JSON document, tar archive,
directory), `get(key)` on the opened store returns byte-identical
results for every key: each of the three agrees with the logical store's
own `get`, hence all three agree with each other. -/
theorem claim_C1 {L : LStore} (hjson : rfsOk (jsonRfs L) = true)
    (hdir : rfsOk (dirRfs L) = true) (htar : rfsOk (tarRfs L) = true)
    (hstore : storeOk L = true)
    (hfiles : filesOk (tarStoreFiles L) = true) :
    ∀ k, getFromJson (writeJsonStore L) k = logicalGet L k ∧
      getFromTar (writeTarStore L) k = logicalGet L k ∧
      getFromDir (writeDirStore L) k = logicalGet L k :=
  fun k => ⟨getFromJson_correct hjson k,
    getFromTar_correct htar hstore hfiles k,
    getFromDir_correct hdir hstore k⟩

/-- C2: Serialization round-trip — writing a well-formed RFS and loading
it back yields the same RFS for each of the json, tar and dir formats,
and likewise after a no-op edit cycle (open, change nothing,
finalize). -/
theorem claim_C2 {R : RFS} (hR : rfsOk R = true)
    (hfit : filesOk [(lindiJsonName, writeJson R)] = true) :
    loadJson (writeJson R) = some R ∧
    openLindiTar (writeTarBytes R) = some R ∧
    openLindiDir (writeDirFiles R) = some R ∧
    (noopEditJson (writeJson R)).bind loadJson = some R ∧
    (noopEditTar (writeTarBytes R)).bind openLindiTar = some R ∧
    (noopEditDir (writeDirFiles R)).bind openLindiDir = some R :=
  ⟨loadJson_writeJson_nil hR, loadTar_writeTar hR hfit,
    loadDir_writeDir hR, noopEditJson_roundtrip hR,
    noopEditTar_roundtrip hR hfit, noopEditDir_roundtrip hR⟩

/-- C3: Two-request open — for every well-formed LINDI tar, `openTar`
(one range read of the first 1024 bytes holding the `.tar_entry.json`
member, one range read of the index it names) completes after exactly
two range reads and returns the member table, which records the byte
range of every member. -/
theorem claim_C3 {st : TarState} (hwf : wfTar st = true) :
    openTar (render st) = (some (tableOf st), 2) :=
  openTar_render hwf

/-- C4: Tar growth invariant — after every finite sequence of in-place
grows and overflow cycles applied to a well-formed LINDI tar, the
archive is still well formed and still opens with two range requests,
the index enumerates every live (non-index) member, and no tombstoned
member appears in the index as live. -/
theorem claim_C4 {st st' : TarState} {ops : List TarOp}
    (hwf : wfTar st = true) (h : applyOps st ops = some st') :
    wfTar st' = true ∧
    openTar (render st') = (some (tableOf st'), 2) ∧
    (∀ i s, st'.slots[i]? = some s → isTableSlot s = true →
      (⟨s.name, 1024 + sumLen (st'.slots.take i) + 512, s.capacity⟩ :
        TableEntry) ∈ tableOf st') ∧
    (∀ e ∈ tableOf st', tombName e.name = false) := by
  have hwf2 := wfTar_applyOps hwf h
  refine ⟨hwf2, openTar_render hwf2, ?_, tableOf_no_tomb hwf2⟩
  intro i s hs hts
  exact mem_tableGo hs hts

/-- C5: In-place grow is frame-preserving — a grow within padded
capacity moves no header (all header offsets unchanged), rewrites only
the whitespace padding inside the member's own data region (the
overwritten range read back as spaces beforehand), leaves the member
table unchanged so a pre-grow index stays valid, makes the mutation
visible in the member's data region, and leaves every other member's
bytes unchanged. -/
theorem claim_C5 {st st' : TarState} {i : Nat} {p : Bytes} {s : Slot}
    (hwf : wfTar st = true) (hs : st.slots[i]? = some s)
    (hpre : s.payload <+: p) (h : growOp st i p = some st') :
    (∀ k, headerOffset st' k = headerOffset st k) ∧
    render st' = writeAt (render st) (dataOffset st i + s.payload.length)
      (p.drop s.payload.length) ∧
    readRange (render st) (dataOffset st i + s.payload.length)
      (p.length - s.payload.length) =
      spaces (p.length - s.payload.length) ∧
    tableOf st' = tableOf st ∧
    readRange (render st') (dataOffset st i) s.capacity =
      p ++ spaces (s.capacity - p.length) ∧
    (∀ j sj, j ≠ i → st.slots[j]? = some sj →
      readRange (render st') (dataOffset st j) sj.capacity =
        readRange (render st) (dataOffset st j) sj.capacity) :=
  grow_frame hwf hs hpre h

/-- C6: Bounded retry — the fetcher makes at most 6 attempts; when every
attempt fails it makes exactly 6 and reports the failure only then; when
the first success is attempt `j` (counting from 0) it stops after `j + 1`
attempts (strictly fewer than 6 when `j < 5`); a `none` result implies
all 6 attempts were made; the exponential backoff before retry `i` is
0.5 s doubled each time, capped at 30 s. -/
theorem claim_C6 (net : Nat → Option Bytes) :
    (fetchWithRetry net).2 ≤ 6 ∧
    ((∀ k, k < 6 → net k = none) → fetchWithRetry net = (none, 6)) ∧
    (∀ j b, j < 6 → (∀ i, i < j → net i = none) → net j = some b →
      fetchWithRetry net = (some b, j + 1)) ∧
    ((fetchWithRetry net).1 = none → (fetchWithRetry net).2 = 6) ∧
    (∀ i, backoffDelay i = min (500 * 2 ^ i) 30000 ∧
      backoffDelay i ≤ 30000) := by
  refine ⟨retryGo_attempts_le net 6 0, ?_, ?_, ?_, ?_⟩
  · intro hall
    exact retryGo_all_fail fun j hj => by simpa using hall j hj
  · intro j b hj hfail hsucc
    exact retryGo_first_success hj (fun i hi => by simpa using hfail i hi)
      (by simpa using hsucc)
  · exact retryGo_none_exhausts
  · intro i
    exact ⟨rfl, min_le_right _ _⟩

/-- C7: Corrupt-reference detection — a `get` on a key whose external
reference declares a `size` that does not match the bytes actually
returned yields a `CorruptReference` error rather than truncated or
padded bytes; in particular an HTTP range fetch against a remote
resource shorter than `offset + size` is detected. -/
theorem claim_C7 {R : RFS} {remote : Bytes → Option Bytes} {k u : Bytes}
    {off sz : Nat} {data : Bytes}
    (hk : lookupKey R.refs k = some (.external u off sz))
    (hdata : remote u = some data) (hover : data.length < off + sz)
    (hsz : 0 < sz) :
    storeGet R (rangeFetch remote) k = .error .corruptReference ∧
    (∀ fetch bs, fetch u off sz = some bs → bs.length ≠ sz →
      storeGet R fetch k = .error .corruptReference) := by
  constructor
  · refine @storeGet_corrupt R (rangeFetch remote) k u off sz
      (readRange data off sz) hk ?_ ?_
    · show (remote u).map (fun d => readRange d off sz) =
        some (readRange data off sz)
      rw [hdata]
      rfl
    · rw [readRange_length]
      omega
  · intro fetch bs h1 h2
    exact storeGet_corrupt hk h1 h2

/-- C8: Translator determinism — two presentations of the same HDF5 file
(same canonical tree; group children may be enumerated in any order)
translate and serialize to byte-identical RFS documents, the traversal
being depth-first with children visited in lexicographic order and the
serialization emitting keys in lexicographic order. -/
theorem claim_C8 (url : Bytes) {h1 h2 : H5}
    (hsame : canonH h1 = canonH h2) :
    serializeRfsSorted (translateHdf5 url h1) =
      serializeRfsSorted (translateHdf5 url h2) ∧
    (sortedRefs (translateHdf5 url h1)).Pairwise
      (fun a b => lexLe a.1 b.1 = true) := by
  constructor
  · have he : transH url [] h1 = transH url [] h2 := by
      rw [← transH_canon url [] h1, hsame, transH_canon]
    unfold serializeRfsSorted translateHdf5 sortedRefs
    rw [he]
  · exact sortBy_sorted Prod.fst _

/-- C9: The translated LINDI store is a valid Zarr store — every
key/value pair it contains has a Zarr v2 key and value shape, and
accessing it through the standard Zarr v2 API over the plain key/value
surface (reading `.zattrs` documents and chunk keys) yields the same
attributes and chunk data locations as the LINDI client's navigation of
the source hierarchy. -/
theorem claim_C9 {h : H5} (hok : h5Ok h = true) (url : Bytes) :
    (∀ kv ∈ (translateHdf5 url h).refs, zarrPairOk url kv = true) ∧
    (∀ segs : List Bytes, (∀ n ∈ segs, 47 ∉ n) →
      zarrApiAttrs (translateHdf5 url h).refs segs = clientAttrs h segs ∧
      zarrApiChunk url (translateHdf5 url h).refs segs =
        clientChunk h segs) := by
  refine ⟨?_, ?_⟩
  · intro kv hkv
    exact transH_zarrPairOk hok hkv
  · intro segs hsegs
    exact ⟨zarrApiAttrs_correct hok url hsegs,
      zarrApiChunk_correct hok url hsegs⟩

/-- C10: References never cross store boundaries — every `_REFERENCE`
value the library writes has `source` equal to "."; a reader accepts a
reference only when its `source` is "."; resolution of an accepted
reference is by `path` inside the same logical store; and value
conversion (for attribute values and dataset elements alike) emits only
references constructed with source ".". -/
theorem claim_C10 :
    (∀ p oid soid, (mkReference p oid soid).source = dotB ∧
      acceptReference (mkReference p oid soid) = true) ∧
    (∀ r, acceptReference r = true → r.source = dotB) ∧
    (∀ L r o, resolveReference L r = some o →
      r.source = dotB ∧ o = logicalGet L r.path) ∧
    (∀ v r, convertAttr v = .inr r → r.source = dotB) := by
  refine ⟨fun p oid soid => ⟨rfl, by simp [acceptReference, mkReference]⟩,
    ?_, ?_, ?_⟩
  · intro r hr
    simpa [acceptReference] using hr
  · intro L r o hro
    unfold resolveReference at hro
    by_cases hacc : acceptReference r = true
    · rw [if_pos hacc] at hro
      injection hro with hro
      refine ⟨by simpa [acceptReference] using hacc, hro.symm⟩
    · rw [if_neg hacc] at hro
      exact absurd hro (by simp)
  · intro v r hvr
    cases v with
    | raw b => simp [convertAttr] at hvr
    | objRef p oid soid =>
        simp only [convertAttr, Sum.inr.injEq] at hvr
        rw [← hvr]
        rfl

/-! ## Witness data -/

/-- A small logical store: one metadata string, one binary chunk. -/
def wStore : LStore :=
  ⟨1, [(strB "a/.zattrs", .inlineStr (strB "json")),
    (strB "b/0", .chunk [1, 2, 3])]⟩

/-- A small RFS. -/
def wR2 : RFS := ⟨1, [(strB "k", .inline (strB "v"))]⟩

/-- A small fresh tar with one growable manifest member. -/
def wTarSt : TarState := mkTar [(lindiJsonName, strB "hi")]

/-- Grow within capacity, then overflow past it. -/
def wOps : List TarOp :=
  [.grow 0 (strB "hi there"), .overflow 0 (List.replicate 600 97) 1024]

/-- The tar after the mutations. -/
def wTarRes : TarState := (applyOps wTarSt wOps).getD wTarSt

/-- The tar after the in-place grow alone. -/
def wGrowRes : TarState :=
  (growOp wTarSt 0 (strB "hi there")).getD wTarSt

/-- The manifest slot of the fresh tar. -/
def wSlot : Slot := ⟨lindiJsonName, strB "hi", 512, true⟩

/-- A corrupt RFS: the declared size runs past the remote resource. -/
def wR7 : RFS := ⟨1, [(strB "x/0", .external (strB "u") 0 10)]⟩

/-- A 4-byte remote resource at url "u". -/
def wRemote : Bytes → Option Bytes :=
  fun q => if q == strB "u" then some [7, 7, 7, 7] else none

/-- A source URL for the translator. -/
def wUrl : Bytes := strB "f.h5"

/-- Two presentations of one HDF5 file, children enumerated in opposite
orders. -/
def wT1 : H5 :=
  .group (strB "\x7b\x7d")
    (.cons (strB "b") (.dataset 0 4)
      (.cons (strB "a") (.dataset 8 2) .nil))

/-- The same file with children listed the other way around. -/
def wT2 : H5 :=
  .group (strB "\x7b\x7d")
    (.cons (strB "a") (.dataset 8 2)
      (.cons (strB "b") (.dataset 0 4) .nil))

/-- A small well-formed HDF5 tree: a root group holding one group with
one dataset. -/
def wT9 : H5 :=
  .group (strB "\x7b\x7d")
    (.cons (strB "g")
      (.group (strB "\x7b\"a\": 7\x7d")
        (.cons (strB "d") (.dataset 100 4) .nil))
      .nil)

/-! ## Witnesses -/

theorem claim_C1_witness :
    rfsOk (jsonRfs wStore) = true ∧ rfsOk (dirRfs wStore) = true ∧
    rfsOk (tarRfs wStore) = true ∧ storeOk wStore = true ∧
    filesOk (tarStoreFiles wStore) = true ∧
    (getFromJson (writeJsonStore wStore) (strB "b/0") =
        logicalGet wStore (strB "b/0") ∧
      getFromTar (writeTarStore wStore) (strB "b/0") =
        logicalGet wStore (strB "b/0") ∧
      getFromDir (writeDirStore wStore) (strB "b/0") =
        logicalGet wStore (strB "b/0")) :=
  ⟨by decide, by decide, by decide, by decide, by decide,
    @claim_C1 wStore (by decide) (by decide) (by decide) (by decide)
      (by decide) (strB "b/0")⟩

theorem claim_C2_witness :
    rfsOk wR2 = true ∧
    filesOk [(lindiJsonName, writeJson wR2)] = true ∧
    loadJson (writeJson wR2) = some wR2 :=
  ⟨by decide, by decide, (@claim_C2 wR2 (by decide) (by decide)).1⟩

theorem claim_C3_witness :
    wfTar wTarSt = true ∧
    openTar (render wTarSt) = (some (tableOf wTarSt), 2) :=
  ⟨by decide, @claim_C3 wTarSt (by decide)⟩

set_option maxRecDepth 10000 in
theorem claim_C4_witness :
    wfTar wTarSt = true ∧ applyOps wTarSt wOps = some wTarRes ∧
    wfTar wTarRes = true :=
  ⟨by decide, by decide,
    (@claim_C4 wTarSt wTarRes wOps (by decide) (by decide)).1⟩

theorem claim_C5_witness :
    wfTar wTarSt = true ∧ wTarSt.slots[0]? = some wSlot ∧
    wSlot.payload <+: strB "hi there" ∧
    growOp wTarSt 0 (strB "hi there") = some wGrowRes ∧
    tableOf wGrowRes = tableOf wTarSt :=
  ⟨by decide, by rfl, ⟨strB " there", by rfl⟩, by rfl,
    (@claim_C5 wTarSt wGrowRes 0 (strB "hi there") wSlot (by decide)
      (by rfl) ⟨strB " there", by rfl⟩ (by rfl)).2.2.2.1⟩

theorem claim_C6_witness :
    fetchWithRetry (fun _ => none) = (none, 6) :=
  (claim_C6 (fun _ => none)).2.1 fun _ _ => rfl

theorem claim_C7_witness :
    lookupKey wR7.refs (strB "x/0") =
      some (.external (strB "u") 0 10) ∧
    wRemote (strB "u") = some [7, 7, 7, 7] ∧
    ([7, 7, 7, 7] : Bytes).length < 0 + 10 ∧ 0 < 10 ∧
    storeGet wR7 (rangeFetch wRemote) (strB "x/0") =
      .error .corruptReference :=
  ⟨by decide, by rfl, by decide, by decide,
    (@claim_C7 wR7 wRemote (strB "x/0") (strB "u") 0 10 [7, 7, 7, 7]
      (by decide) (by rfl) (by decide) (by decide)).1⟩

theorem claim_C8_witness :
    canonH wT1 = canonH wT2 ∧
    serializeRfsSorted (translateHdf5 wUrl wT1) =
      serializeRfsSorted (translateHdf5 wUrl wT2) :=
  ⟨by rfl, (claim_C8 wUrl (by rfl)).1⟩

theorem claim_C9_witness :
    h5Ok wT9 = true ∧
    (∀ kv ∈ (translateHdf5 wUrl wT9).refs, zarrPairOk wUrl kv = true) :=
  ⟨by decide, (@claim_C9 wT9 (by decide) wUrl).1⟩

theorem claim_C10_witness :
    (mkReference (strB "p") (strB "o") (strB "s")).source = dotB :=
  (claim_C10.1 (strB "p") (strB "o") (strB "s")).1

end Lindi
